import Mathlib

/-!
Verification development for the go-fssync library (Scalingo/go-fssync).

The Go code is shallowly embedded: the filesystem the code manipulates
through the `os`/`syscall` packages is modelled explicitly as a finite map
from paths to inodes, and the functions `Sync`, `syncExistingFile`,
`syncUnexistingFile`, `copyFileContent` and `tmpFileName` of sync.go are
translated into Lean functions over that state.  Every mutating filesystem
call additionally records an operation in a trace, so that ordering claims
(atomic replacement, deletion-before-timestamp-restoration) can be stated
about actually-performed operations.

Modelling conventions:
 * paths are lists of components (strings); `strings.Replace(path, src, dst, 1)`
   applied to paths produced by `filepath.Walk(src)` is prefix substitution,
   and is modelled as such;
 * `filepath.Walk` visits entries in lexical pre-order; this equals the
   lexicographic order on component lists, so the walk is modelled as a fold
   over the sorted list of entry paths (a snapshot taken when the walk
   starts, which coincides with the incremental directory reads of the real
   walk for the mutations the code performs during its own walks);
 * machine file times are modelled as integers (nanosecond timestamps);
   the filesystem carries a logical clock `now` that stamps created inodes
   and, as on a real filesystem, the modification time of a directory is
   bumped whenever an entry is created, removed or renamed inside it;
 * SHA-1 is idealized as an injective digest: the digest of a file is its
   content.  No claim depends on hash collisions;
 * `errors.Wrapf(err, ...)` of github.com/pkg/errors returns nil when
   `err` is nil; this is modelled faithfully by `wrapf`;
 * the pseudo-random temporary file name of `tmpFileName` (derived from
   `time.Now()` and the pid) is modelled by a deterministic search for a
   non-colliding name; the practically-impossible exhaustion of candidates
   is modelled as an error;
 * a Go `map` iterates in unspecified order; the model uses association
   lists in insertion order.  No claim depends on that order.
-/

namespace GoFssync

/-- A filesystem path, as a list of components. -/
abbrev Path := List String

/-- Boolean path-prefix test: `pstarts p q` holds when `p` is a prefix of `q`
(in components).  Used for subtree membership. -/
def pstarts : Path → Path → Bool
  | [], _ => true
  | _ :: _, [] => false
  | a :: p, b :: q => a = b && pstarts p q

/-- Lexicographic order on paths (component-wise, strings ordered by the
standard string order).  `filepath.Walk`'s lexical pre-order visits paths in
exactly this order. -/
def pathLe : Path → Path → Bool
  | [], _ => true
  | _ :: _, [] => false
  | a :: p, b :: q => if a = b then pathLe p q else decide (a < b)

/-- The propositional form of `pathLe`, used with `List.insertionSort`. -/
def pLe (p q : Path) : Prop := pathLe p q = true

instance : DecidableRel pLe := fun p q => by
  unfold pLe; infer_instance

instance : IsTotal Path pLe := by
  constructor
  intro p q
  show pathLe p q = true ∨ pathLe q p = true
  induction p generalizing q with
  | nil => exact Or.inl rfl
  | cons a p ih =>
    cases q with
    | nil => exact Or.inr rfl
    | cons b q =>
      by_cases hab : a = b
      · subst hab
        simpa [pathLe] using ih q
      · rcases lt_trichotomy a b with h | h | h
        · exact Or.inl (by simp [pathLe, hab, h])
        · exact absurd h hab
        · exact Or.inr (by simp [pathLe, Ne.symm hab, h])

instance : IsTrans Path pLe := by
  constructor
  intro p q r
  show pathLe p q = true → pathLe q r = true → pathLe p r = true
  induction p generalizing q r with
  | nil => intro _ _; rfl
  | cons a p ih =>
    intro h1 h2
    cases q with
    | nil => simp [pathLe] at h1
    | cons b q =>
      cases r with
      | nil => simp [pathLe] at h2
      | cons c r =>
        by_cases hab : a = b <;> by_cases hbc : b = c
        · subst hab; subst hbc
          simp only [pathLe, if_pos rfl] at h1 h2 ⊢
          exact ih q r h1 h2
        · subst hab
          simp only [pathLe, if_neg hbc] at h2 ⊢
          exact h2
        · subst hbc
          simp only [pathLe, if_neg hab] at h1 ⊢
          exact h1
        · simp only [pathLe, if_neg hab, decide_eq_true_eq] at h1
          simp only [pathLe, if_neg hbc, decide_eq_true_eq] at h2
          have hac : a < c := h1.trans h2
          simp [pathLe, ne_of_lt hac, hac]

instance : IsAntisymm Path pLe := by
  constructor
  intro p q
  show pathLe p q = true → pathLe q p = true → p = q
  induction p generalizing q with
  | nil =>
    intro _ h2
    cases q with
    | nil => rfl
    | cons b q => simp [pathLe] at h2
  | cons a p ih =>
    intro h1 h2
    cases q with
    | nil => simp [pathLe] at h1
    | cons b q =>
      by_cases hab : a = b
      · subst hab
        simp only [pathLe, if_pos rfl] at h1 h2
        rw [ih q h1 h2]
      · simp only [pathLe, if_neg hab, decide_eq_true_eq] at h1
        simp only [pathLe, if_neg (Ne.symm hab), decide_eq_true_eq] at h2
        exact absurd h2 (not_lt_of_lt h1)

/-- Lookup in an association list (the model for a Go map read). -/
def alookup {κ α : Type} [DecidableEq κ] : List (κ × α) → κ → Option α
  | [], _ => none
  | (k', v) :: t, k => if k' = k then some v else alookup t k

/-- Update/insert in an association list (the model for a Go map write):
replaces the binding in place, appends if absent.  Insertion order is
preserved. -/
def aset {κ α : Type} [DecidableEq κ] : List (κ × α) → κ → α → List (κ × α)
  | [], k, v => [(k, v)]
  | (k', v') :: t, k, v =>
    if k' = k then (k, v) :: t else (k', v') :: aset t k v

/-! ### The filesystem model -/

/-- The kind of a filesystem entry, as distinguished by the Go code
(`IsDir()` and `Mode()&os.ModeSymlink`). -/
inductive FKind where
  | file
  | dir
  | symlink
deriving DecidableEq, Repr

/-- Access and modification time, as read from `syscall.Stat_t` (`Atim`,
`Mtim`), in nanoseconds. -/
structure Times where
  atime : Int := 0
  mtime : Int := 0
deriving DecidableEq, Repr

/-- The metadata and content stored in one inode.
`sysOk` models whether `FileInfo.Sys()` yields a `*syscall.Stat_t` for the
entry; `readFails` models a file whose content cannot be read (open
succeeds, read returns an error). -/
structure InodeData where
  kind : FKind := .file
  content : List Nat := []
  target : Path := []
  dirSize : Nat := 0
  mode : Nat := 0
  uid : Nat := 0
  gid : Nat := 0
  times : Times := {}
  sysOk : Bool := true
  readFails : Bool := false
deriving DecidableEq, Repr

/-- `FileInfo.Size()`: content length for regular files, the length of the
target string for symlinks, the stored size for directories. -/
def InodeData.size (d : InodeData) : Nat :=
  match d.kind with
  | .file => d.content.length
  | .dir => d.dirSize
  | .symlink => (String.intercalate "/" d.target).length

/-- One mutating filesystem call performed by the code.  Read-only calls
(stat, open-for-read, readlink) are not traced. -/
inductive Op where
  | remove (p : Path)
  | removeAll (p : Path)
  | rename (oldP newP : Path)
  | link (oldP newP : Path)
  | create (p : Path)
  | write (p : Path)
  | mkdir (p : Path)
  | symlink (p : Path)
  | chtimes (p : Path)
  | chown (p : Path)
deriving DecidableEq, Repr

/-- The filesystem state: directory entries (path to inode number), the
inode table, a counter for fresh inode numbers, a logical clock, and the
trace of mutating operations performed so far. -/
structure FS where
  entries : List (Path × Nat) := []
  inodes : List (Nat × InodeData) := []
  nextIno : Nat := 0
  now : Int := 0
  trace : List Op := []
deriving DecidableEq, Repr

/-- The entry-moving function of `FS.rename`: an entry under `oldP` is
rebased under `newP`. -/
def moveFn (oldP newP : Path) (e : Path × Nat) : Path × Nat :=
  match pstarts oldP e.1 with
  | true => (newP ++ e.1.drop oldP.length, e.2)
  | false => e

/-- Errors as the code distinguishes them: `os.IsNotExist`-style errors
versus everything else.  `errors.Wrapf` turns any error into a generic
failure (the code never tests `IsNotExist` on a wrapped error). -/
inductive SyncErr where
  | notFound (p : Path)
  | failure (msg : String)
deriving DecidableEq, Repr

/-- `os.IsNotExist(err)` on a raw (unwrapped) error. -/
def isNotExistE : SyncErr → Bool
  | .notFound _ => true
  | .failure _ => false

/-- `errors.Wrapf(err, msg)` from github.com/pkg/errors: returns nil when
`err` is nil, otherwise an error whose identity (`IsNotExist`) is hidden by
the wrapping. -/
def wrapf : Option SyncErr → String → Option SyncErr
  | none, _ => none
  | some _, msg => some (.failure msg)

namespace FS

/-- Directory-entry lookup: the inode number bound to a path. -/
def find (fs : FS) (p : Path) : Option Nat := alookup fs.entries p

/-- Inode-table lookup. -/
def getIno (fs : FS) (i : Nat) : Option InodeData := alookup fs.inodes i

/-- `os.Lstat`: the entry at a path, without following symlinks. -/
def lstat (fs : FS) (p : Path) : Option (Nat × InodeData) :=
  match fs.find p with
  | none => none
  | some i => (fs.getIno i).map (fun d => (i, d))

/-- The metadata at a path (no symlink following). -/
def stat (fs : FS) (p : Path) : Option InodeData := (fs.lstat p).map Prod.snd

/-- Follow symlinks (as `os.Open`, `os.Chtimes`, `os.Chown` do), with a
fuel bound like the kernel's link-resolution limit. -/
def resolve (fs : FS) : Nat → Path → Option (Nat × InodeData)
  | 0, _ => none
  | fuel + 1, p =>
    match fs.lstat p with
    | none => none
    | some (i, d) =>
      if d.kind = .symlink then fs.resolve fuel d.target else some (i, d)

/-- The symlink-resolution fuel. -/
def resolveFuel : Nat := 40

/-- Whether the parent directory of a path exists (the empty path is the
filesystem root and always a directory). -/
def parentIsDir (fs : FS) (p : Path) : Bool :=
  p.dropLast.isEmpty ||
    (match fs.stat p.dropLast with
     | some d => d.kind = .dir
     | none => false)

/-- Record an operation in the trace and advance the clock. -/
def addOp (fs : FS) (o : Op) : FS :=
  { fs with trace := fs.trace ++ [o], now := fs.now + 1 }

/-- Replace the data of an inode. -/
def setIno (fs : FS) (i : Nat) (d : InodeData) : FS :=
  { fs with inodes := aset fs.inodes i d }

/-- Creating, removing or renaming an entry updates the modification time
of the containing directory (a real-filesystem side effect the code's
phase ordering depends on). -/
def touchParent (fs : FS) (p : Path) : FS :=
  match fs.lstat p.dropLast with
  | some (i, d) =>
    if d.kind = .dir then
      fs.setIno i { d with times := { d.times with mtime := fs.now } }
    else fs
  | none => fs

/-- Allocate a fresh inode with the given data, bound to path `p`. -/
def alloc (fs : FS) (p : Path) (d : InodeData) : FS :=
  { fs with
    entries := fs.entries ++ [(p, fs.nextIno)],
    inodes := aset fs.inodes fs.nextIno d,
    nextIno := fs.nextIno + 1 }

/-- `os.Remove`: fails on a missing path and on a non-empty directory. -/
def remove (fs : FS) (p : Path) : Except SyncErr FS :=
  match fs.lstat p with
  | none => .error (.notFound p)
  | some _ =>
    if fs.entries.any (fun e => e.1 ≠ p ∧ pstarts p e.1) then
      .error (.failure "directory not empty")
    else
      .ok ((({ fs with
          entries := fs.entries.filter (fun e => e.1 ≠ p) }).addOp
          (.remove p)).touchParent p)

/-- `os.RemoveAll`: removes the whole subtree rooted at `p`; succeeds when
`p` does not exist. -/
def removeAll (fs : FS) (p : Path) : FS :=
  (({ fs with
      entries := fs.entries.filter (fun e => ¬ pstarts p e.1) }).addOp
      (.removeAll p)).touchParent p

/-- `os.Link(oldP, newP)`: hardlink creation.  Fails when the source is
missing or a directory, when the new path exists, or when the new path's
parent directory is missing. -/
def link (fs : FS) (oldP newP : Path) : Except SyncErr FS :=
  match fs.lstat oldP with
  | none => .error (.notFound oldP)
  | some (i, d) =>
    if d.kind = .dir then .error (.failure "link not permitted on directory")
    else if (fs.find newP).isSome then .error (.failure "file exists")
    else if ¬ fs.parentIsDir newP then .error (.notFound newP.dropLast)
    else
      .ok ((({ fs with entries := fs.entries ++ [(newP, i)] }).addOp
          (.link oldP newP)).touchParent newP)

/-- Create one directory (used by `mkdirAll` for each missing level). -/
def mkdirOne (fs : FS) (p : Path) (mode : Nat) : FS :=
  ((fs.alloc p
      { kind := .dir, dirSize := 4096, mode := mode,
        times := { atime := fs.now, mtime := fs.now } }).addOp
      (.mkdir p)).touchParent p

/-- `os.MkdirAll`: create every missing directory along the path; fails if
some level exists and is not a directory. -/
def mkdirAll (fs : FS) (p : Path) (mode : Nat) : Except SyncErr Unit × FS :=
  go fs (List.range p.length)
where
  go (fs : FS) : List Nat → Except SyncErr Unit × FS
    | [] => (.ok (), fs)
    | n :: rest =>
      let q := p.take (n + 1)
      match fs.stat q with
      | some d =>
        if d.kind = .dir then go fs rest
        else (.error (.failure "not a directory"), fs)
      | none => go (fs.mkdirOne q mode) rest

/-- `os.OpenFile(p, O_CREATE|O_WRONLY, mode)`: creates an empty file when
the path is missing (the mode applies only then), fails on directories. -/
def openCreate (fs : FS) (p : Path) (mode : Nat) : Except SyncErr FS :=
  match fs.lstat p with
  | some (_, d) =>
    if d.kind = .dir then .error (.failure "is a directory")
    else .ok (fs.addOp (.create p))
  | none =>
    if fs.parentIsDir p then
      .ok (((fs.alloc p
          { kind := .file, mode := mode,
            times := { atime := fs.now, mtime := fs.now } }).addOp
          (.create p)).touchParent p)
    else .error (.notFound p)

/-- Writing the full content through a file descriptor opened without
`O_TRUNC`: overwrites from offset 0, keeping any longer tail. -/
def write (fs : FS) (p : Path) (content : List Nat) : Except SyncErr FS :=
  match fs.lstat p with
  | some (i, d) =>
    .ok ((fs.setIno i
        { d with content := content ++ d.content.drop content.length,
                 times := { d.times with mtime := fs.now } }).addOp
        (.write p))
  | none => .error (.notFound p)

/-- `os.Symlink(target, p)`. -/
def symlink (fs : FS) (p : Path) (target : Path) : Except SyncErr FS :=
  if (fs.find p).isSome then .error (.failure "file exists")
  else if ¬ fs.parentIsDir p then .error (.notFound p)
  else
    .ok (((fs.alloc p
        { kind := .symlink, target := target,
          times := { atime := fs.now, mtime := fs.now } }).addOp
        (.symlink p)).touchParent p)

/-- `os.Rename(oldP, newP)`: atomically moves the subtree at `oldP` to
`newP`, replacing an existing non-directory `newP`.  The flows of this code
only rename onto a missing path or replace a non-directory by a
non-directory; other overwrites are modelled as errors. -/
def rename (fs : FS) (oldP newP : Path) : Except SyncErr FS :=
  match fs.lstat oldP with
  | none => .error (.notFound oldP)
  | some (_, od) =>
    let moved : FS → Except SyncErr FS := fun fs' =>
      .ok ((({ fs' with
          entries := fs'.entries.map (moveFn oldP newP) }).addOp
          (.rename oldP newP)).touchParent newP)
    match fs.lstat newP with
    | some (_, nd) =>
      if od.kind = .dir ∨ nd.kind = .dir then
        .error (.failure "rename: invalid overwrite")
      else
        moved { fs with entries := fs.entries.filter (fun e => e.1 ≠ newP) }
    | none =>
      if fs.parentIsDir newP then moved fs
      else .error (.notFound newP.dropLast)

/-- `os.Chtimes` (follows symlinks). -/
def chtimes (fs : FS) (p : Path) (t : Times) : Except SyncErr FS :=
  match fs.resolve resolveFuel p with
  | none => .error (.notFound p)
  | some (i, d) => .ok ((fs.setIno i { d with times := t }).addOp (.chtimes p))

/-- `os.Chown` (follows symlinks). -/
def chown (fs : FS) (p : Path) (uid gid : Nat) : Except SyncErr FS :=
  match fs.resolve resolveFuel p with
  | none => .error (.notFound p)
  | some (i, d) =>
    .ok ((fs.setIno i { d with uid := uid, gid := gid }).addOp (.chown p))

/-- `os.Readlink`. -/
def readlink (fs : FS) (p : Path) : Except SyncErr Path :=
  match fs.lstat p with
  | none => .error (.notFound p)
  | some (_, d) =>
    if d.kind = .symlink then .ok d.target
    else .error (.failure "invalid argument")

/-- `syncInfo.SHA1()`: open the file (following symlinks) and hash its full
content.  The 20-byte SHA-1 digest is idealized as the content itself (an
injective digest); reading a directory or an unreadable file fails. -/
def sha1 (fs : FS) (p : Path) : Except SyncErr (List Nat) :=
  match fs.resolve resolveFuel p with
  | none => .error (.notFound p)
  | some (_, d) =>
    match d.kind with
    | .file => if d.readFails then .error (.failure "read error") else .ok d.content
    | _ => .error (.failure "read error")

end FS

/-! ### The syncer (translation of sync.go) -/

/-- `FsSyncer` with its five configuration fields. -/
structure FsSyncer where
  checkChecksum : Bool := false
  preserveOwnership : Bool := false
  ignoreNotFound : Bool := false
  noCache : Bool := false
  bufferSize : Int := 0
deriving DecidableEq, Repr

/-- `New(opts ...func(*FsSyncer))`: start from the default configuration
(`bufferSize: 512 * 1024`) and apply each option in order. -/
def New (opts : List (FsSyncer → FsSyncer)) : FsSyncer :=
  opts.foldl (fun s opt => opt s) { bufferSize := 512 * 1024 }

/-- WithChecksum option: Check SHA1 checksum instead of modtime + size. -/
def WithChecksum (s : FsSyncer) : FsSyncer := { s with checkChecksum := true }

/-- PreserveOwnership option: chown files from source owner. -/
def PreserveOwnership (s : FsSyncer) : FsSyncer :=
  { s with preserveOwnership := true }

/-- IgnoreNotFound option: tolerate entries vanishing between walk and stat. -/
def IgnoreNotFound (s : FsSyncer) : FsSyncer := { s with ignoreNotFound := true }

/-- NoCache option: use fadvise to discard the kernel cache after I/O. -/
def NoCache (s : FsSyncer) : FsSyncer := { s with noCache := true }

/-- WithBufferSize option: set the size of the copy buffer.  The Go option
stores `n` unconditionally. -/
def WithBufferSize (n : Int) (s : FsSyncer) : FsSyncer := { s with bufferSize := n }

/-- `syncInfo`: the per-entry record the walk callback passes down (base
root, full path, and for the source side the stat data including the inode
number). -/
structure SyncInfo where
  base : Path := []
  path : Path := []
  ino : Nat := 0
  data : InodeData := {}
deriving Repr

/-- `existingFileRes`. -/
structure ExistingFileRes where
  shouldUpdateTimes : Bool := false
  hasContentChanged : Bool := false
deriving DecidableEq, Repr

/-- `unexistingFileRes`. -/
structure UnexistingFileRes where
  shouldUpdateTimes : Bool := false
deriving DecidableEq, Repr

/-- The state threaded through one `Sync` call: the filesystem plus
`syncState` (`timesMap`, `inoMap`) and the report's change set. -/
structure SyncCtx where
  fs : FS
  timesMap : List (Path × Times) := []
  inoMap : List (Nat × Path) := []
  report : List Path := []
deriving DecidableEq, Repr

/-- `report.fileChanges[path] = true`: record a changed path (set
semantics, as for Go map keys). -/
def reportMark (r : List Path) (p : Path) : List Path :=
  if p ∈ r then r else r ++ [p]

/-- `fsSyncReport`. -/
structure FsSyncReport where
  fileChanges : List Path := []
deriving DecidableEq, Repr

/-- `HasChanged`. -/
def FsSyncReport.HasChanged (r : FsSyncReport) (file : Path) : Bool :=
  file ∈ r.fileChanges

/-- `ChangeCount`: the number of recorded (distinct) changed paths. -/
def FsSyncReport.ChangeCount (r : FsSyncReport) : Nat := r.fileChanges.length

/-- What one `Sync` call returns, together with the final filesystem:
the Go function returns `(SyncReport, error)`. -/
structure SyncOutcome where
  report : FsSyncReport
  fs : FS
  err : Option SyncErr
deriving DecidableEq, Repr

/-- `copyFileContent`: open the source for reading (follows symlinks),
open/create the destination, then run the buffered copy loop
(`copyContent` of copy.go).  The loop makes no progress when the buffer is
empty (`make([]byte, 0)` and `Read` returning `(0, nil)` forever); that
divergence is modelled as an error.  A failing read leaves the destination
already created/opened. -/
def FsSyncer.copyFileContent (s : FsSyncer) (fs : FS) (srcP dstP : Path)
    (mode : Nat) : Except SyncErr Int × FS :=
  match fs.resolve FS.resolveFuel srcP with
  | none => (.error (.notFound srcP), fs)
  | some (_, d) =>
    match fs.openCreate dstP mode with
    | .error e => (.error (.failure ("fail to open dest: " ++
        (match e with | .notFound _ => "not found" | .failure m => m))), fs)
    | .ok fs1 =>
      if s.bufferSize ≤ 0 then
        (.error (.failure "copy loop makes no progress with empty buffer"), fs1)
      else if d.kind = .dir ∨ d.readFails then
        (.error (.failure "fail to copy data"), fs1)
      else
        match fs1.write dstP d.content with
        | .error _ => (.error (.failure "fail to copy data"), fs1)
        | .ok fs2 => (.ok (Int.ofNat d.content.length), fs2)

/-- A candidate temporary name: `"." + base + "-" + digits` in `dir`, as
built by `tmpFileName`. -/
def tmpNameCand (dir : Path) (base : String) (k : Nat) : Path :=
  dir ++ ["." ++ base ++ "-" ++ toString k]

/-- `tmpFileName`: the Go code derives a pseudo-unique numeric suffix from
`time.Now()` and the pid; collision with an existing name is possible in
principle but practically negligible.  The model replaces that external
randomness by the first non-colliding candidate; the impossible case where
all `|entries| + 1` candidates collide is reported as `none` and treated as
an error by the caller. -/
def tmpFileName (fs : FS) (dir : Path) (base : String) : Option Path :=
  ((List.range (fs.entries.length + 1)).map (tmpNameCand dir base)).find?
    (fun q => (fs.find q).isNone)

/-- `strings.Contains(l, pat)` at the component level: some suffix of `l`
starts with `pat`. -/
def containsOcc (l pat : Path) : Bool :=
  match l with
  | [] => pstarts pat []
  | _ :: t => pstarts pat l || containsOcc t pat

/-- `strings.Replace(l, pat, rep, 1)` at the component level: replace the
first occurrence of `pat` by `rep`. -/
def replaceOcc (l pat rep : Path) : Path :=
  match l with
  | [] => if pstarts pat [] then rep else []
  | a :: t => if pstarts pat l then rep ++ l.drop pat.length
      else a :: replaceOcc t pat rep

/-- `syncUnexistingFile` (sync.go lines 328-370): materialize a source
entry at a destination path that has no counterpart.  A source inode
already in `inoMap` is hardlinked; otherwise the inode is registered and
the entry created according to its kind.  As in Go, the `inoMap` update
survives even when a later step fails (`state` is shared mutable state). -/
def FsSyncer.syncUnexistingFile (s : FsSyncer) (src dst : SyncInfo)
    (c : SyncCtx) : Except SyncErr UnexistingFileRes × SyncCtx :=
  match alookup c.inoMap src.ino with
  | some existingLink =>
    match c.fs.link existingLink dst.path with
    | .error _ => (.error (.failure "fail to create link"), c)
    | .ok fs' => (.ok {}, { c with fs := fs' })
  | none =>
    let c := { c with inoMap := aset c.inoMap src.ino dst.path }
    if src.data.kind = .dir then
      match c.fs.mkdirAll dst.path src.data.mode with
      | (.error _, fs') => (.error (.failure "fail to create dst directory"),
          { c with fs := fs' })
      | (.ok _, fs') => (.ok { shouldUpdateTimes := true }, { c with fs := fs' })
    else if src.data.kind = .symlink then
      match c.fs.readlink src.path with
      | .error _ => (.error (.failure "fail to get link destination"), c)
      | .ok linkDst =>
        let linkDst :=
          if containsOcc linkDst src.base then replaceOcc linkDst src.base dst.base
          else linkDst
        match c.fs.symlink dst.path linkDst with
        | .error _ => (.error (.failure "fail to create symlink"), c)
        | .ok fs' => (.ok {}, { c with fs := fs' })
    else
      match s.copyFileContent c.fs src.path dst.path src.data.mode with
      | (.error _, fs') => (.error (.failure "fail to copy content"),
          { c with fs := fs' })
      | (.ok _, fs') => (.ok { shouldUpdateTimes := true }, { c with fs := fs' })

/-- The replacement continuation of `syncExistingFile` (sync.go lines
307-325, the code below the change detection): materialize the source at a
fresh temporary sibling of the destination, rename it over the
destination, and correct `inoMap` from the temporary name to the real
name. -/
def FsSyncer.sefCont (s : FsSyncer) (src dst : SyncInfo) (c : SyncCtx) :
    Except SyncErr ExistingFileRes × SyncCtx :=
  let dir := dst.path.dropLast
  let base := dst.path.getLastD ""
  match tmpFileName c.fs dir base with
  | none => (.error (.failure "tmp name exhaustion"), c)
  | some tmpDst =>
    match s.syncUnexistingFile src { base := dst.base, path := tmpDst } c with
    | (.error _, c') => (.error (.failure "fail to sync src to temp file"), c')
    | (.ok newFileRes, c') =>
      match c'.fs.rename tmpDst dst.path with
      | .error _ => (.error (.failure "fail to mv tmp file on original file"), c')
      | .ok fs' =>
        -- temp file name has been set to state, restore it to real name
        (.ok { shouldUpdateTimes := newFileRes.shouldUpdateTimes,
               hasContentChanged := true },
         { c' with fs := fs',
                   inoMap := aset c'.inoMap src.ino dst.path })

/-- `syncExistingFile` (sync.go lines 275-326): reconcile a source entry
with an existing destination counterpart: both directories is a no-op
(times scheduled); a type mismatch removes the destination subtree; then
checksum or size/mtime comparison decides whether to replace the content
atomically through a temporary sibling file (`sefCont`). -/
def FsSyncer.syncExistingFile (s : FsSyncer) (src dst : SyncInfo)
    (c : SyncCtx) : Except SyncErr ExistingFileRes × SyncCtx :=
  if src.data.kind = .dir ∧ dst.data.kind = .dir then
    (.ok { shouldUpdateTimes := true }, c)
  else
    let c :=
      if (src.data.kind = .dir ∧ dst.data.kind ≠ .dir) ∨
          (src.data.kind ≠ .dir ∧ dst.data.kind = .dir) then
        { c with fs := c.fs.removeAll dst.path }
      else c
    if s.checkChecksum then
      match c.fs.sha1 src.path with
      | .error _ => (.error (.failure "fail to compute SHA1 of src"), c)
      | .ok srcSHA1 =>
        match c.fs.sha1 dst.path with
        | .error _ => (.error (.failure "fail to compute SHA1 of dst"), c)
        | .ok dstSHA1 =>
          if srcSHA1 = dstSHA1 then (.ok { shouldUpdateTimes := true }, c)
          else s.sefCont src dst c
    else
      if src.data.size = dst.data.size ∧
          src.data.times.mtime = dst.data.times.mtime then
        (.ok {}, c)
      else s.sefCont src dst c

/-- `strings.Replace(path, src, dst, 1)` for a path produced by walking
`src`: substitute the root prefix. -/
def replacePrefix (p src dst : Path) : Path := dst ++ p.drop src.length

/-- The list of paths `filepath.Walk(root)` visits: all entries in the
subtree of `root`, in lexical pre-order. -/
def walkPaths (fs : FS) (root : Path) : List Path :=
  List.insertionSort pLe
    (((fs.entries.map Prod.fst).filter (fun p => pstarts root p)))

/-- The walk callback of `Sync`'s phase A (sync.go lines 142-223), for one
visited source path.  Note the two `errors.Wrapf` calls whose error
argument is provably nil at that point (the walk passed no error, and
`os.Lstat` returned either success or a non-`IsNotExist` error that was
already propagated): `wrapf none msg = none`, so an entry without detailed
stat info is silently skipped, not fatal. -/
def FsSyncer.walkStep (s : FsSyncer) (src dst : Path) (c : SyncCtx)
    (p : Path) : Except SyncErr Unit × SyncCtx :=
  match c.fs.lstat p with
  | none => (.ok (), c)   -- the walked tree was mutated under the walk; unreachable in the flows considered
  | some (ino, info) =>
    let dstPath := replacePrefix p src dst
    if ¬ info.sysOk then
      -- return errors.Wrapf(err, "fail to get detailed stat info"), err == nil
      (match wrapf none "fail to get detailed stat info" with
       | none => .ok ()
       | some e => .error e, c)
    else
      let t := info.times
      match c.fs.lstat dstPath with
      | none =>
        -- os.IsNotExist(err): materialize and record the change
        let c := { c with report := reportMark c.report dstPath }
        match s.syncUnexistingFile
            { base := src, path := p, ino := ino, data := info }
            { base := dst, path := dstPath } c with
        | (.error e, c') => (.error e, c')
        | (.ok res, c') =>
          let c' :=
            if res.shouldUpdateTimes then
              { c' with timesMap := aset c'.timesMap dstPath t }
            else c'
          if s.preserveOwnership then
            match c'.fs.chown dstPath info.uid info.gid with
            | .error _ => (.error (.failure "fail to chown"), c')
            | .ok fs' => (.ok (), { c' with fs := fs' })
          else (.ok (), c')
      | some (_, dstInfo) =>
        if ¬ dstInfo.sysOk then
          -- same Wrapf-on-nil pattern for the destination stat
          (match wrapf none "fail to get detailed stat info" with
           | none => .ok ()
           | some e => .error e, c)
        else
          match s.syncExistingFile
              { base := src, path := p, ino := ino, data := info }
              { base := dst, path := dstPath, ino := 0, data := dstInfo } c with
          | (.error e, c') => (.error e, c')
          | (.ok res, c') =>
            let c' :=
              if res.shouldUpdateTimes then
                { c' with timesMap := aset c'.timesMap dstPath t }
              else c'
            let c' :=
              if res.hasContentChanged then
                { c' with report := reportMark c'.report dstPath }
              else c'
            if s.preserveOwnership then
              match c'.fs.chown dstPath info.uid info.gid with
              | .error _ => (.error (.failure "fail to chown"), c')
              | .ok fs' => (.ok (), { c' with fs := fs' })
            else (.ok (), c')

/-- Phase A's walk: fold `walkStep` over the visited paths, stopping at the
first error (as `filepath.Walk` does). -/
def FsSyncer.walkFold (s : FsSyncer) (src dst : Path) :
    List Path → SyncCtx → Except SyncErr Unit × SyncCtx
  | [], c => (.ok (), c)
  | p :: rest, c =>
    match s.walkStep src dst c p with
    | (.error e, c') => (.error e, c')
    | (.ok _, c') => s.walkFold src dst rest c'

/-- One step of phase B's destination walk (sync.go lines 230-250): a
destination entry without a source counterpart is recorded as changed and
deleted — immediately for non-directories, deferred for directories. -/
def phaseBStep (src dst : Path) (c : SyncCtx) (dirs : List Path)
    (q : Path) : Except SyncErr Unit × SyncCtx × List Path :=
  let srcPath := replacePrefix q dst src
  match c.fs.lstat srcPath with
  | some _ => (.ok (), c, dirs)
  | none =>
    let c := { c with report := reportMark c.report q }
    match c.fs.stat q with
    | none => (.ok (), c, dirs)  -- entry already gone; unreachable on this snapshot
    | some d =>
      if d.kind = .dir then
        -- Do not delete directory straight away: tag files first
        (.ok (), c, dirs ++ [q])
      else
        match c.fs.remove q with
        | .error _ => (.error (.failure "fail to delete"), c, dirs)
        | .ok fs' => (.ok (), { c with fs := fs' }, dirs)

/-- Phase B's walk over the destination tree. -/
def phaseBFold (src dst : Path) :
    List Path → SyncCtx → List Path → Except SyncErr Unit × SyncCtx × List Path
  | [], c, dirs => (.ok (), c, dirs)
  | q :: rest, c, dirs =>
    match phaseBStep src dst c dirs q with
    | (.error e, c', dirs') => (.error e, c', dirs')
    | (.ok _, c', dirs') => phaseBFold src dst rest c' dirs'

/-- The deferred directory deletions (sync.go lines 255-261): iterate the
collected list from its last element to its first. -/
def removeDirsFold : List Path → SyncCtx → Except SyncErr Unit × SyncCtx
  | [], c => (.ok (), c)
  | d :: rest, c =>
    match c.fs.remove d with
    | .error _ => (.error (.failure "fail to delete"), c)
    | .ok fs' => removeDirsFold rest { c with fs := fs' }

/-- Phase C (sync.go lines 265-270): restore the recorded times, after all
deletions; a missing path is tolerated only with `ignoreNotFound`. -/
def applyTimes (s : FsSyncer) :
    List (Path × Times) → SyncCtx → Except SyncErr Unit × SyncCtx
  | [], c => (.ok (), c)
  | (file, times) :: rest, c =>
    match c.fs.chtimes file times with
    | .error e =>
      if isNotExistE e ∧ s.ignoreNotFound then applyTimes s rest c
      else (.error (.failure "fail to set atime and mtime"), c)
    | .ok fs' => applyTimes s rest { c with fs := fs' }

/-- `Sync(src, dst)` (sync.go lines 132-273): phase A walks the source and
reconciles each entry; phase B walks the destination, deleting extraneous
files and collecting extraneous directories; the collected directories are
removed in reverse order; finally the recorded times are applied.  The
report is returned in every case, with the error if one occurred. -/
def FsSyncer.Sync (s : FsSyncer) (fs0 : FS) (src dst : Path) : SyncOutcome :=
  let c0 : SyncCtx := { fs := fs0 }
  let phaseA : Except SyncErr Unit × SyncCtx :=
    if (fs0.find src).isNone then
      -- filepath.Walk reports the failed root lstat to the callback
      if s.ignoreNotFound then (.ok (), c0) else (.error (.notFound src), c0)
    else s.walkFold src dst (walkPaths fs0 src) c0
  match phaseA with
  | (.error e, c) => { report := ⟨c.report⟩, fs := c.fs, err := some e }
  | (.ok _, c1) =>
    let phaseB : Except SyncErr Unit × SyncCtx × List Path :=
      if (c1.fs.find dst).isNone then (.error (.notFound dst), c1, [])
      else phaseBFold src dst (walkPaths c1.fs dst) c1 []
    match phaseB with
    | (.error e, c, _) => { report := ⟨c.report⟩, fs := c.fs, err := some e }
    | (.ok _, c2, dirsToRemove) =>
      match removeDirsFold dirsToRemove.reverse c2 with
      | (.error e, c) => { report := ⟨c.report⟩, fs := c.fs, err := some e }
      | (.ok _, c3) =>
        -- Change times after removing entries as removing a file
        -- changes the mtime at the os level
        match applyTimes s c3.timesMap c3 with
        | (.error e, c) => { report := ⟨c.report⟩, fs := c.fs, err := some e }
        | (.ok _, c4) => { report := ⟨c4.report⟩, fs := c4.fs, err := none }

/-! ### Predicates used in claim statements -/

/-- Whether the entry at `q` is a directory. -/
def isDirAtB (fs : FS) (q : Path) : Bool :=
  match fs.stat q with
  | some d => d.kind = .dir
  | none => false

/-- Well-formedness of a filesystem state: distinct entry paths, distinct
inode numbers below the allocation counter, every entry's inode present,
no entry at the root path, and every proper ancestor of an entry present
as a directory. -/
def WFb (fs : FS) : Bool :=
  decide (fs.entries.map Prod.fst).Nodup &&
  decide (fs.inodes.map Prod.fst).Nodup &&
  fs.entries.all (fun e => (fs.getIno e.2).isSome) &&
  fs.entries.all (fun e => !e.1.isEmpty) &&
  fs.entries.all (fun e =>
    (List.range (e.1.length - 1)).all (fun n => isDirAtB fs (e.1.take (n + 1)))) &&
  fs.inodes.all (fun e => e.1 < fs.nextIno)

/-- Neither root is inside the other (and they are distinct). -/
def rootsDisjoint (src dst : Path) : Bool :=
  !(pstarts src dst) && !(pstarts dst src)

/-- No entry of the source or destination subtree is a symbolic link. -/
def noSymlinksB (fs : FS) (src dst : Path) : Bool :=
  fs.entries.all (fun e =>
    !(pstarts src e.1 || pstarts dst e.1) ||
      (match fs.getIno e.2 with
       | some d => !(d.kind = .symlink : Bool)
       | none => true))

/-- No source entry whose destination counterpart exists with mismatched
type (directory on exactly one side) has bit-identical size and mtime on
the two sides.  This rules out the coincidental-metadata corner of the
type-mismatch path (see the defect recorded for claim C5). -/
def mismatchTieFreeB (fs : FS) (src dst : Path) : Bool :=
  fs.entries.all (fun e =>
    !(pstarts src e.1) ||
      (match fs.stat e.1, fs.stat (replacePrefix e.1 src dst) with
       | some sd, some dd =>
         if ((sd.kind = .dir : Bool) != (dd.kind = .dir : Bool)) then
           !((sd.size = dd.size : Bool) && (sd.times.mtime = dd.times.mtime : Bool))
         else true
       | _, _ => true))

/-- The trees under `src` and `dst` agree, in the sense the default-mode
change detector tests (sync.go lines 142-223 and 301-307): every source
entry with detailed stat data has a destination counterpart of the same
kind, with bit-identical size and mtime for regular files; and every
destination entry has a source counterpart.  This is the state a
successful symlink-free run leaves behind. -/
def treesMatchB (fs : FS) (src dst : Path) : Bool :=
  fs.entries.all (fun e =>
    !(pstarts src e.1) ||
      (match fs.stat e.1, fs.stat (replacePrefix e.1 src dst) with
       | some d, some dd =>
         !d.sysOk ||
           ((d.kind = FKind.dir && dd.kind = FKind.dir) ||
            (d.kind = FKind.file && dd.kind = FKind.file &&
             d.size = dd.size && d.times.mtime = dd.times.mtime))
       | some d, none => !d.sysOk
       | none, _ => true)) &&
  fs.entries.all (fun e =>
    !(pstarts dst e.1) || (fs.lstat (replacePrefix e.1 dst src)).isSome)

/-- Whether an operation can affect the entry (or subtree) at `p`. -/
def Op.touches (o : Op) (p : Path) : Bool :=
  match o with
  | .remove q => q = p
  | .removeAll q => pstarts q p
  | .rename a b => pstarts a p || pstarts b p
  | .link _ b => b = p
  | .create q => q = p
  | .write q => q = p
  | .mkdir q => q = p
  | .symlink q => q = p
  | .chtimes q => q = p
  | .chown q => q = p

/-- An operation that restores timestamps. -/
def Op.isChtimes : Op → Bool
  | .chtimes _ => true
  | _ => false

/-- An operation that deletes (a file, a directory, or a subtree). -/
def Op.isRemoveOp : Op → Bool
  | .remove _ => true
  | .removeAll _ => true
  | _ => false

/-- An operation phase A (the source walk) can emit: anything except a
plain `remove` (only phase B and the deferred directory deletions call
`os.Remove`) and a `chtimes` (only phase C calls `os.Chtimes`). -/
def phaseAOp : Op → Bool
  | .remove _ => false
  | .chtimes _ => false
  | _ => true

/-- After the removals in `Δ` were performed, no entry of `fs` survives
strictly below a removed path (what a successful `os.Remove` of an empty
directory leaves behind, stable under further deletions). -/
def RemovesClean (fs : FS) (Δ : List Op) : Prop :=
  ∀ p, Op.remove p ∈ Δ → ∀ e ∈ fs.entries, pstarts p e.1 = true → e.1 = p

/-- In the operation sequence `Δ`, no path is removed after a strict
ancestor of it was removed: children are deleted before their parents. -/
def PairOKd (Δ : List Op) : Prop :=
  ∀ U1 U2 U3 p q, Δ = U1 ++ Op.remove p :: U2 ++ Op.remove q :: U3 →
    pstarts p q = true → p = q

/-- The data of an inode with its times erased, to state that an operation
left everything but timestamps unchanged. -/
def InodeData.sansTimes (d : InodeData) : InodeData := { d with times := {} }

/-- The stat of a path with times erased (directory mtimes are bumped as a
side effect of entry creation and removal, so most preservation statements
are about everything but times). -/
def FS.statNT (fs : FS) (q : Path) : Option InodeData :=
  (fs.stat q).map InodeData.sansTimes

/-- A sequence of filesystem steps that only creates/alters the single
path `t`: the trace grows by operations touching only `t`, every other
path keeps its binding, and (for paths with honestly-allocated inodes)
everything but timestamps is preserved. -/
def PreservesOutside (fs fs' : FS) (t : Path) : Prop :=
  fs.nextIno ≤ fs'.nextIno ∧
  (∃ Δ, fs'.trace = fs.trace ++ Δ ∧ ∀ o ∈ Δ, ∀ q, Op.touches o q = true → q = t) ∧
  (∀ q, q ≠ t → fs'.find q = fs.find q) ∧
  (∀ q, q ≠ t → (∀ j, fs.find q = some j → j < fs.nextIno) →
    fs'.statNT q = fs.statNT q)

/-! ### Concrete fixtures for witnesses and counterexamples -/

/-- A directory inode with the given timestamp. -/
def dirD (t : Int) : InodeData :=
  { kind := .dir, dirSize := 4096, mode := 493, times := { atime := t, mtime := t } }

/-- A regular-file inode with the given content and timestamp. -/
def fileD (c : List Nat) (t : Int) : InodeData :=
  { kind := .file, content := c, mode := 420, times := { atime := t, mtime := t } }

/-- The default syncer, `New()`. -/
def syncerDefault : FsSyncer := New []

/-- A checksum-mode syncer, `New(WithChecksum)`. -/
def syncerChecksum : FsSyncer := New [WithChecksum]

/-- Source `s` containing one regular file `s/a`; empty destination `d`. -/
def fsBasic : FS :=
  { entries := [(["s"], 0), (["s", "a"], 1), (["d"], 2)],
    inodes := [(0, dirD 5), (1, fileD [7, 8] 6), (2, dirD 9)],
    nextIno := 3, now := 1000 }

/-- Source `s` containing one symlink `s/l` (target outside both trees);
empty destination `d`.  The counterexample for claim C1. -/
def fsSymlink : FS :=
  { entries := [(["s"], 0), (["s", "l"], 1), (["d"], 2)],
    inodes := [(0, dirD 5),
               (1, { kind := .symlink, target := ["t"],
                     times := { atime := 5, mtime := 5 } }),
               (2, dirD 9)],
    nextIno := 3, now := 1000 }

/-- Source file `s/a` whose destination counterpart `d/a` is a directory:
the type-mismatch fixture for claim C5. -/
def fsMismatch : FS :=
  { entries := [(["s"], 0), (["s", "a"], 1), (["d"], 2), (["d", "a"], 3)],
    inodes := [(0, dirD 5), (1, fileD [1] 6), (2, dirD 9), (3, dirD 9)],
    nextIno := 4, now := 1000 }

/-- Source entry `s/x` whose platform stat data is unavailable
(`FileInfo.Sys()` is not a `*syscall.Stat_t`): the fixture for claim C8. -/
def fsNoSys : FS :=
  { entries := [(["s"], 0), (["s", "x"], 1), (["d"], 2)],
    inodes := [(0, dirD 5),
               (1, { kind := .file, content := [3],
                     times := { atime := 5, mtime := 5 }, sysOk := false }),
               (2, dirD 9)],
    nextIno := 3, now := 1000 }

/-- Source files `s/a` and `s/b` sharing inode 1 (hardlinks); empty
destination: the fixture for claims C3 and C10. -/
def fsHardlink : FS :=
  { entries := [(["s"], 0), (["s", "a"], 1), (["s", "b"], 1), (["d"], 2)],
    inodes := [(0, dirD 5), (1, fileD [7] 6), (2, dirD 9)],
    nextIno := 3, now := 1000 }

/-- Existing counterparts `s/a` and `d/a` with the same content but
different mtimes: the fixture for claims C2, C4 and C6. -/
def fsSameContent : FS :=
  { entries := [(["s"], 0), (["s", "a"], 1), (["d"], 2), (["d", "a"], 3)],
    inodes := [(0, dirD 5), (1, fileD [7, 8] 6), (2, dirD 9), (3, fileD [7, 8] 77)],
    nextIno := 4, now := 1000 }

/-- The source `syncInfo` for the hardlink fixture: `s/b`, sharing inode 1
with `s/a`. -/
def srcInfoHL : SyncInfo :=
  { base := ["s"], path := ["s", "b"], ino := 1, data := fileD [7] 6 }

/-- The destination `syncInfo` for the hardlink fixture. -/
def dstInfoHL : SyncInfo := { base := ["d"], path := ["d", "b"] }

/-- Mid-sync context for the hardlink fixture: `d/a` is already
materialized and inode 1 is recorded in `inoMap`. -/
def ctxHL : SyncCtx :=
  { fs := { entries := [(["s"], 0), (["s", "a"], 1), (["s", "b"], 1),
                        (["d"], 2), (["d", "a"], 3)],
            inodes := [(0, dirD 5), (1, fileD [7] 6), (2, dirD 9),
                       (3, fileD [7] 6)],
            nextIno := 4, now := 1000 },
    inoMap := [(1, ["d", "a"])] }

/-- The source `syncInfo` for the same-content fixture (`s/a`). -/
def srcInfoSame : SyncInfo :=
  { base := ["s"], path := ["s", "a"], ino := 1, data := fileD [7, 8] 6 }

/-- The destination `syncInfo` for the same-content fixture (`d/a`,
same bytes, different mtime). -/
def dstInfoSame : SyncInfo :=
  { base := ["d"], path := ["d", "a"], ino := 3, data := fileD [7, 8] 77 }

/-- The context at the start of the same-content fixture's walk step. -/
def ctxSame : SyncCtx := { fs := fsSameContent }

/-- Already-synchronized trees: `s/a` and `d/a` agree in kind, size and
mtime.  The witness fixture for the amended claim C1. -/
def fsMatched : FS :=
  { entries := [(["s"], 0), (["s", "a"], 1), (["d"], 2), (["d", "a"], 3)],
    inodes := [(0, dirD 5), (1, fileD [7, 8] 6), (2, dirD 9), (3, fileD [7, 8] 6)],
    nextIno := 4, now := 1000 }

/-! ## Theorems

General lemmas first (paths, association lists, filesystem primitives),
then one theorem per claim (with its witness or counterexample). -/

@[simp] theorem pstarts_nil (q : Path) : pstarts [] q = true := rfl

theorem pstarts_refl (p : Path) : pstarts p p = true := by
  induction p with
  | nil => rfl
  | cons a p ih => simp [pstarts, ih]

theorem pstarts_append (p r : Path) : pstarts p (p ++ r) = true := by
  induction p with
  | nil => rfl
  | cons a p ih => simp [pstarts, ih]

theorem eq_append_drop_of_pstarts {p q : Path} (h : pstarts p q = true) :
    q = p ++ q.drop p.length := by
  induction p generalizing q with
  | nil => simp
  | cons a p ih =>
    cases q with
    | nil => simp [pstarts] at h
    | cons b q =>
      simp only [pstarts, Bool.and_eq_true, decide_eq_true_eq] at h
      obtain ⟨rfl, h2⟩ := h
      simpa using ih h2

theorem pstarts_trans {p q r : Path} (h1 : pstarts p q = true)
    (h2 : pstarts q r = true) : pstarts p r = true := by
  induction p generalizing q r with
  | nil => rfl
  | cons a p ih =>
    cases q with
    | nil => simp [pstarts] at h1
    | cons b q =>
      cases r with
      | nil => simp [pstarts] at h2
      | cons c r =>
        simp only [pstarts, Bool.and_eq_true, decide_eq_true_eq] at h1 h2 ⊢
        exact ⟨h1.1.trans h2.1, ih h1.2 h2.2⟩

theorem pstarts_antisymm {p q : Path} (h1 : pstarts p q = true)
    (h2 : pstarts q p = true) : p = q := by
  induction p generalizing q with
  | nil => cases q with
    | nil => rfl
    | cons b q => simp [pstarts] at h2
  | cons a p ih =>
    cases q with
    | nil => simp [pstarts] at h1
    | cons b q =>
      simp only [pstarts, Bool.and_eq_true, decide_eq_true_eq] at h1 h2
      exact by rw [h1.1, ih h1.2 h2.2]

theorem length_le_of_pstarts {p q : Path} (h : pstarts p q = true) :
    p.length ≤ q.length := by
  induction p generalizing q with
  | nil => simp
  | cons a p ih =>
    cases q with
    | nil => simp [pstarts] at h
    | cons b q =>
      simp only [pstarts, Bool.and_eq_true] at h
      simpa using ih h.2

theorem pstarts_of_append_right (p q r : Path) (h : pstarts p q = true) :
    pstarts p (q ++ r) = true :=
  pstarts_trans h (pstarts_append q r)

theorem pathLe_of_pstarts {p q : Path} (h : pstarts p q = true) :
    pathLe p q = true := by
  induction p generalizing q with
  | nil => rfl
  | cons a p ih =>
    cases q with
    | nil => simp [pstarts] at h
    | cons b q =>
      simp only [pstarts, Bool.and_eq_true, decide_eq_true_eq] at h
      simp [pathLe, h.1, ih h.2]

@[simp] theorem alookup_nil {κ α : Type} [DecidableEq κ] (k : κ) :
    alookup ([] : List (κ × α)) k = none := rfl

theorem alookup_aset_self {κ α : Type} [DecidableEq κ]
    (m : List (κ × α)) (k : κ) (v : α) : alookup (aset m k v) k = some v := by
  induction m with
  | nil => simp [aset, alookup]
  | cons e t ih =>
    by_cases h : e.1 = k
    · simp [aset, h, alookup]
    · simp [aset, h, alookup, ih]

theorem alookup_aset_ne {κ α : Type} [DecidableEq κ]
    (m : List (κ × α)) (k k' : κ) (v : α) (h : k ≠ k') :
    alookup (aset m k v) k' = alookup m k' := by
  induction m with
  | nil => simp [aset, alookup, h]
  | cons e t ih =>
    by_cases he : e.1 = k
    · simp [aset, he, alookup, h]
    · by_cases he' : e.1 = k'
      · simp [aset, he, alookup, he', Ne.symm h]
      · simp [aset, he, alookup, he', ih]

theorem mem_of_alookup {κ α : Type} [DecidableEq κ]
    {m : List (κ × α)} {k : κ} {v : α} (h : alookup m k = some v) :
    (k, v) ∈ m := by
  induction m with
  | nil => simp [alookup] at h
  | cons e t ih =>
    by_cases he : e.1 = k
    · simp only [alookup, if_pos he] at h
      have he2 : e = (k, v) := by
        cases e
        simp only [Option.some.injEq] at h
        simp_all
      exact List.mem_cons.mpr (Or.inl he2.symm)
    · simp only [alookup, if_neg he] at h
      exact List.mem_cons_of_mem _ (ih h)

theorem alookup_of_mem_of_nodup {κ α : Type} [DecidableEq κ]
    {m : List (κ × α)} {k : κ} {v : α}
    (hn : (m.map Prod.fst).Nodup) (h : (k, v) ∈ m) :
    alookup m k = some v := by
  induction m with
  | nil => simp at h
  | cons e t ih =>
    simp only [List.map_cons, List.nodup_cons] at hn
    rcases List.mem_cons.mp h with h | h
    · subst h; simp [alookup]
    · have hk : e.1 ≠ k := by
        intro he
        exact hn.1 (he ▸ (List.mem_map.mpr ⟨(k, v), h, rfl⟩))
      simp [alookup, hk, ih hn.2 h]

theorem alookup_append {κ α : Type} [DecidableEq κ]
    (m m' : List (κ × α)) (k : κ) :
    alookup (m ++ m') k =
      (alookup m k).elim (alookup m' k) some := by
  induction m with
  | nil => simp [alookup]
  | cons e t ih =>
    by_cases he : e.1 = k
    · simp [alookup, he]
    · simp [alookup, he, ih]

theorem alookup_isSome_of_mem_keys {κ α : Type} [DecidableEq κ]
    {m : List (κ × α)} {k : κ} (h : k ∈ m.map Prod.fst) :
    (alookup m k).isSome = true := by
  induction m with
  | nil => simp at h
  | cons e t ih =>
    by_cases he : e.1 = k
    · simp [alookup, he]
    · simp only [List.map_cons, List.mem_cons] at h
      rcases h with h | h
      · exact absurd h.symm he
      · simp [alookup, he, ih h]

theorem mem_keys_of_alookup_isSome {κ α : Type} [DecidableEq κ]
    {m : List (κ × α)} {k : κ} (h : (alookup m k).isSome = true) :
    k ∈ m.map Prod.fst := by
  induction m with
  | nil => simp [alookup] at h
  | cons e t ih =>
    by_cases he : e.1 = k
    · simp [he.symm]
    · simp only [alookup, if_neg he] at h
      simp [ih h]

/-! ### Association-list lemmas for entry rewriting -/

theorem alookup_filter_key_self (m : List (Path × Nat)) (p : Path) :
    alookup (m.filter (fun e => e.1 ≠ p)) p = none := by
  induction m with
  | nil => rfl
  | cons e t ih =>
    by_cases he : e.1 = p
    · simpa [List.filter, he] using ih
    · simpa [List.filter, he, alookup] using ih

theorem alookup_filter_key_ne (m : List (Path × Nat)) (p q : Path)
    (h : q ≠ p) : alookup (m.filter (fun e => e.1 ≠ p)) q = alookup m q := by
  induction m with
  | nil => rfl
  | cons e t ih =>
    by_cases he : e.1 = p
    · subst he
      simpa [List.filter, alookup, Ne.symm h] using ih
    · by_cases heq : e.1 = q
      · simp [List.filter, he, alookup, heq, h]
      · simpa [List.filter, he, alookup, heq] using ih

theorem alookup_filter_sub_self (m : List (Path × Nat)) (p q : Path)
    (h : pstarts p q = true) :
    alookup (m.filter (fun e => ¬ pstarts p e.1)) q = none := by
  induction m with
  | nil => rfl
  | cons e t ih =>
    by_cases he : pstarts p e.1
    · simpa [List.filter, he] using ih
    · have heq : e.1 ≠ q := fun hq => he (hq ▸ h)
      simpa [List.filter, he, alookup, heq] using ih

theorem alookup_filter_sub_ne (m : List (Path × Nat)) (p q : Path)
    (h : pstarts p q = false) :
    alookup (m.filter (fun e => ¬ pstarts p e.1)) q = alookup m q := by
  induction m with
  | nil => rfl
  | cons e t ih =>
    by_cases he : pstarts p e.1
    · have heq : e.1 ≠ q := fun hq => by rw [hq] at he; rw [he] at h; exact absurd h (by simp)
      simpa [List.filter, he, alookup, heq] using ih
    · by_cases heq : e.1 = q
      · simp [List.filter, he, alookup, heq, heq ▸ he]
      · simpa [List.filter, he, alookup, heq] using ih

theorem alookup_move_new (m : List (Path × Nat)) (oldP newP : Path)
    (hsub : ∀ e ∈ m, pstarts oldP e.1 = true → e.1 = oldP)
    (hnew : ∀ e ∈ m, e.1 ≠ newP) :
    alookup (m.map (moveFn oldP newP)) newP = alookup m oldP := by
  induction m with
  | nil => rfl
  | cons e t ih =>
    have ih' := ih (fun x hx => hsub x (List.mem_cons_of_mem _ hx))
      (fun x hx => hnew x (List.mem_cons_of_mem _ hx))
    cases he : pstarts oldP e.1 with
    | true =>
      have heo : e.1 = oldP := hsub e (List.mem_cons_self _ _) he
      simp [moveFn, he, alookup, heo, List.drop_length, pstarts_refl]
    | false =>
      have h1 : e.1 ≠ oldP := fun hq => by
        rw [hq, pstarts_refl] at he; exact absurd he (by simp)
      have h2 : e.1 ≠ newP := hnew e (List.mem_cons_self _ _)
      simpa [moveFn, he, alookup, h1, h2] using ih'

theorem alookup_move_other (m : List (Path × Nat)) (oldP newP q : Path)
    (hsub : ∀ e ∈ m, pstarts oldP e.1 = true → e.1 = oldP)
    (hq1 : q ≠ oldP) (hq2 : q ≠ newP) :
    alookup (m.map (moveFn oldP newP)) q = alookup m q := by
  induction m with
  | nil => rfl
  | cons e t ih =>
    have ih' := ih (fun x hx => hsub x (List.mem_cons_of_mem _ hx))
    cases he : pstarts oldP e.1 with
    | true =>
      have heo : e.1 = oldP := hsub e (List.mem_cons_self _ _) he
      simpa [moveFn, he, alookup, heo, List.drop_length, pstarts_refl,
        Ne.symm hq2, Ne.symm hq1] using ih'
    | false =>
      have hid : moveFn oldP newP e = e := by simp [moveFn, he]
      rw [List.map_cons, hid]
      by_cases heq : e.1 = q
      · simp [alookup, heq]
      · simp [alookup, heq, ih']

theorem alookup_move_old (m : List (Path × Nat)) (oldP newP : Path)
    (hsub : ∀ e ∈ m, pstarts oldP e.1 = true → e.1 = oldP)
    (hne : oldP ≠ newP) :
    alookup (m.map (moveFn oldP newP)) oldP = none := by
  induction m with
  | nil => rfl
  | cons e t ih =>
    have ih' := ih (fun x hx => hsub x (List.mem_cons_of_mem _ hx))
    cases he : pstarts oldP e.1 with
    | true =>
      have heo : e.1 = oldP := hsub e (List.mem_cons_self _ _) he
      simpa [moveFn, he, alookup, heo, List.drop_length, pstarts_refl,
        Ne.symm hne] using ih'
    | false =>
      have h1 : e.1 ≠ oldP := fun hq => by
        rw [hq, pstarts_refl] at he; exact absurd he (by simp)
      simpa [moveFn, he, alookup, h1] using ih'

/-! ### Effects of the filesystem primitives -/

namespace FS

@[simp] theorem find_addOp (fs : FS) (o : Op) (q : Path) :
    (fs.addOp o).find q = fs.find q := rfl

@[simp] theorem getIno_addOp (fs : FS) (o : Op) (i : Nat) :
    (fs.addOp o).getIno i = fs.getIno i := rfl

@[simp] theorem lstat_addOp (fs : FS) (o : Op) (q : Path) :
    (fs.addOp o).lstat q = fs.lstat q := rfl

@[simp] theorem stat_addOp (fs : FS) (o : Op) (q : Path) :
    (fs.addOp o).stat q = fs.stat q := rfl

@[simp] theorem statNT_addOp (fs : FS) (o : Op) (q : Path) :
    (fs.addOp o).statNT q = fs.statNT q := rfl

@[simp] theorem trace_addOp (fs : FS) (o : Op) :
    (fs.addOp o).trace = fs.trace ++ [o] := rfl

@[simp] theorem entries_addOp (fs : FS) (o : Op) :
    (fs.addOp o).entries = fs.entries := rfl

@[simp] theorem nextIno_addOp (fs : FS) (o : Op) :
    (fs.addOp o).nextIno = fs.nextIno := rfl

@[simp] theorem find_setIno (fs : FS) (i : Nat) (d : InodeData) (q : Path) :
    (fs.setIno i d).find q = fs.find q := rfl

@[simp] theorem trace_setIno (fs : FS) (i : Nat) (d : InodeData) :
    (fs.setIno i d).trace = fs.trace := rfl

@[simp] theorem entries_setIno (fs : FS) (i : Nat) (d : InodeData) :
    (fs.setIno i d).entries = fs.entries := rfl

@[simp] theorem nextIno_setIno (fs : FS) (i : Nat) (d : InodeData) :
    (fs.setIno i d).nextIno = fs.nextIno := rfl

theorem getIno_setIno_self (fs : FS) (i : Nat) (d : InodeData) :
    (fs.setIno i d).getIno i = some d := by
  simpa [setIno, getIno] using alookup_aset_self fs.inodes i d

theorem getIno_setIno_ne (fs : FS) (i : Nat) (d : InodeData) (j : Nat)
    (h : i ≠ j) : (fs.setIno i d).getIno j = fs.getIno j := by
  simpa [setIno, getIno] using alookup_aset_ne fs.inodes i j d h

theorem stat_eq_getIno_of_find {fs : FS} {q : Path} {i : Nat}
    (h : fs.find q = some i) : fs.stat q = fs.getIno i := by
  simp only [stat, lstat, h]
  cases fs.getIno i <;> simp

theorem stat_eq_none_of_find {fs : FS} {q : Path}
    (h : fs.find q = none) : fs.stat q = none := by
  simp [stat, lstat, h]

/-- `touchParent` changes no entry bindings and no trace. -/
theorem find_touchParent (fs : FS) (p q : Path) :
    (fs.touchParent p).find q = fs.find q := by
  unfold touchParent
  cases h : fs.lstat p.dropLast with
  | none => rfl
  | some e =>
    by_cases hk : e.2.kind = FKind.dir <;> simp [hk]

theorem trace_touchParent (fs : FS) (p : Path) :
    (fs.touchParent p).trace = fs.trace := by
  unfold touchParent
  cases h : fs.lstat p.dropLast with
  | none => rfl
  | some e =>
    by_cases hk : e.2.kind = FKind.dir <;> simp [hk]

theorem entries_touchParent (fs : FS) (p : Path) :
    (fs.touchParent p).entries = fs.entries := by
  unfold touchParent
  cases h : fs.lstat p.dropLast with
  | none => rfl
  | some e =>
    by_cases hk : e.2.kind = FKind.dir <;> simp [hk]

theorem nextIno_touchParent (fs : FS) (p : Path) :
    (fs.touchParent p).nextIno = fs.nextIno := by
  unfold touchParent
  cases h : fs.lstat p.dropLast with
  | none => rfl
  | some e =>
    by_cases hk : e.2.kind = FKind.dir <;> simp [hk]

theorem lstat_eq_some_iff {fs : FS} {q : Path} {i : Nat} {d : InodeData} :
    fs.lstat q = some (i, d) ↔ fs.find q = some i ∧ fs.getIno i = some d := by
  unfold lstat
  cases hf : fs.find q with
  | none => simp
  | some j =>
    constructor
    · intro h
      dsimp only at h
      cases hg : fs.getIno j with
      | none => rw [hg] at h; simp at h
      | some dj =>
        rw [hg] at h
        simp only [Option.map, Option.bind, Option.some.injEq, Prod.mk.injEq] at h
        obtain ⟨rfl, rfl⟩ := h
        exact ⟨rfl, hg⟩
    · rintro ⟨h1, h2⟩
      injection h1 with h1
      subst h1
      dsimp only
      rw [h2]
      rfl

theorem stat_setIno_of_find_ne {fs : FS} {q : Path} {j : Nat}
    (i : Nat) (d : InodeData) (hq : fs.find q = some j) (hj : i ≠ j) :
    (fs.setIno i d).stat q = fs.stat q := by
  rw [stat_eq_getIno_of_find (by rw [find_setIno]; exact hq),
      stat_eq_getIno_of_find hq, getIno_setIno_ne fs i d j hj]

theorem stat_setIno_of_find_eq {fs : FS} {q : Path}
    (i : Nat) (d : InodeData) (hq : fs.find q = some i) :
    (fs.setIno i d).stat q = some d := by
  rw [stat_eq_getIno_of_find (by rw [find_setIno]; exact hq),
      getIno_setIno_self]

/-- `touchParent` changes at most timestamps. -/
theorem statNT_touchParent (fs : FS) (p q : Path) :
    (fs.touchParent p).statNT q = fs.statNT q := by
  unfold touchParent
  cases h : fs.lstat p.dropLast with
  | none => rfl
  | some e =>
    obtain ⟨i, d⟩ := e
    obtain ⟨hfind, hget⟩ := lstat_eq_some_iff.mp h
    dsimp only
    by_cases hk : d.kind = FKind.dir
    · rw [if_pos hk]
      unfold statNT
      cases hq : fs.find q with
      | none =>
        rw [stat_eq_none_of_find hq,
            @stat_eq_none_of_find (fs.setIno i _) q (by rw [find_setIno]; exact hq)]
      | some j =>
        by_cases hj : i = j
        · subst hj
          rw [stat_setIno_of_find_eq i _ hq,
              stat_eq_getIno_of_find hq, hget]
          simp [InodeData.sansTimes]
        · rw [stat_setIno_of_find_ne i _ hq hj]
    · rw [if_neg hk]

/-- An entry whose data is not a directory is fully preserved by
`touchParent` (only a directory inode can be the parent's). -/
theorem stat_touchParent_nondir {fs : FS} (p : Path) {q : Path}
    {dq : InodeData} (h : fs.stat q = some dq) (hk : dq.kind ≠ FKind.dir) :
    (fs.touchParent p).stat q = some dq := by
  unfold touchParent
  cases hp : fs.lstat p.dropLast with
  | none => exact h
  | some e =>
    obtain ⟨i, d⟩ := e
    obtain ⟨hfind, hget⟩ := lstat_eq_some_iff.mp hp
    dsimp only
    by_cases hdk : d.kind = FKind.dir
    · rw [if_pos hdk]
      cases hq : fs.find q with
      | none =>
        rw [stat_eq_none_of_find hq] at h
        exact absurd h (by simp)
      | some j =>
        have hsq : fs.getIno j = some dq := by
          rw [stat_eq_getIno_of_find hq] at h
          exact h
        by_cases hj : i = j
        · subst hj
          rw [hget] at hsq
          injection hsq with hsq
          exact absurd (hsq ▸ hdk) hk
        · rw [stat_setIno_of_find_ne i _ hq hj]
          exact h
    · rw [if_neg hdk]
      exact h

@[simp] theorem trace_alloc (fs : FS) (p : Path) (d : InodeData) :
    (fs.alloc p d).trace = fs.trace := rfl

@[simp] theorem nextIno_alloc (fs : FS) (p : Path) (d : InodeData) :
    (fs.alloc p d).nextIno = fs.nextIno + 1 := rfl

theorem find_alloc_self {fs : FS} {p : Path} (d : InodeData)
    (h : fs.find p = none) : (fs.alloc p d).find p = some fs.nextIno := by
  unfold alloc find at *
  rw [alookup_append, h]
  simp [alookup]

theorem find_alloc_ne (fs : FS) (p : Path) (d : InodeData) (q : Path)
    (h : q ≠ p) : (fs.alloc p d).find q = fs.find q := by
  unfold alloc find
  rw [alookup_append]
  cases hq : alookup fs.entries q with
  | none => simp [alookup, Ne.symm h]
  | some v => simp

theorem getIno_alloc_self (fs : FS) (p : Path) (d : InodeData) :
    (fs.alloc p d).getIno fs.nextIno = some d := by
  unfold alloc getIno
  exact alookup_aset_self fs.inodes fs.nextIno d

theorem getIno_alloc_ne (fs : FS) (p : Path) (d : InodeData) (j : Nat)
    (h : j ≠ fs.nextIno) : (fs.alloc p d).getIno j = fs.getIno j := by
  unfold alloc getIno
  exact alookup_aset_ne fs.inodes fs.nextIno j d (Ne.symm h)

theorem stat_alloc_self {fs : FS} {p : Path} (d : InodeData)
    (h : fs.find p = none) : (fs.alloc p d).stat p = some d := by
  rw [stat_eq_getIno_of_find (find_alloc_self d h), getIno_alloc_self]

theorem stat_alloc_ne {fs : FS} {p : Path} (d : InodeData) {q : Path}
    (hq : q ≠ p) (hbound : ∀ j, fs.find q = some j → j ≠ fs.nextIno) :
    (fs.alloc p d).stat q = fs.stat q := by
  cases hf : fs.find q with
  | none =>
    rw [stat_eq_none_of_find hf,
        stat_eq_none_of_find ((find_alloc_ne fs p d q hq).trans hf)]
  | some j =>
    rw [stat_eq_getIno_of_find ((find_alloc_ne fs p d q hq).trans hf),
        stat_eq_getIno_of_find hf, getIno_alloc_ne fs p d j (hbound j hf)]

/-- Outcome analysis for `openCreate`. -/
theorem openCreate_cases {fs : FS} {p : Path} {m : Nat} {fs' : FS}
    (h : fs.openCreate p m = .ok fs') :
    (∃ i d, fs.lstat p = some (i, d) ∧ d.kind ≠ FKind.dir ∧
        fs' = fs.addOp (.create p)) ∨
    (fs.lstat p = none ∧ fs.parentIsDir p = true ∧
      fs' = ((fs.alloc p
          { kind := .file, mode := m,
            times := { atime := fs.now, mtime := fs.now } }).addOp
          (.create p)).touchParent p) := by
  unfold openCreate at h
  cases hl : fs.lstat p with
  | some e =>
    obtain ⟨i, d⟩ := e
    rw [hl] at h
    dsimp only at h
    by_cases hk : d.kind = FKind.dir
    · rw [if_pos hk] at h; exact absurd h (by simp)
    · rw [if_neg hk] at h
      injection h with h
      exact Or.inl ⟨i, d, rfl, hk, h.symm⟩
  | none =>
    rw [hl] at h
    dsimp only at h
    by_cases hp : fs.parentIsDir p
    · rw [if_pos hp] at h
      injection h with h
      exact Or.inr ⟨rfl, hp, h.symm⟩
    · rw [if_neg hp] at h; exact absurd h (by simp)

theorem openCreate_trace {fs : FS} {p : Path} {m : Nat} {fs' : FS}
    (h : fs.openCreate p m = .ok fs') :
    fs'.trace = fs.trace ++ [Op.create p] := by
  rcases openCreate_cases h with ⟨i, d, _, _, rfl⟩ | ⟨_, _, rfl⟩
  · simp
  · rw [trace_touchParent]; simp

theorem openCreate_find_ne {fs : FS} {p : Path} {m : Nat} {fs' : FS}
    (h : fs.openCreate p m = .ok fs') {q : Path} (hq : q ≠ p) :
    fs'.find q = fs.find q := by
  rcases openCreate_cases h with ⟨i, d, _, _, rfl⟩ | ⟨_, _, rfl⟩
  · simp
  · rw [find_touchParent, find_addOp, find_alloc_ne _ _ _ _ hq]

theorem openCreate_statNT_ne {fs : FS} {p : Path} {m : Nat} {fs' : FS}
    (h : fs.openCreate p m = .ok fs') {q : Path} (hq : q ≠ p)
    (hbound : ∀ j, fs.find q = some j → j ≠ fs.nextIno) :
    fs'.statNT q = fs.statNT q := by
  rcases openCreate_cases h with ⟨i, d, _, _, rfl⟩ | ⟨_, _, rfl⟩
  · simp
  · rw [statNT_touchParent]
    unfold statNT
    rw [stat_addOp, stat_alloc_ne _ hq hbound]

theorem openCreate_stat_ne_nondir {fs : FS} {p : Path} {m : Nat} {fs' : FS}
    (h : fs.openCreate p m = .ok fs') {q : Path} (hq : q ≠ p) {dq : InodeData}
    (hs : fs.stat q = some dq) (hk : dq.kind ≠ FKind.dir)
    (hbound : ∀ j, fs.find q = some j → j ≠ fs.nextIno) :
    fs'.stat q = some dq := by
  rcases openCreate_cases h with ⟨i, d, _, _, rfl⟩ | ⟨_, _, rfl⟩
  · simpa using hs
  · refine stat_touchParent_nondir p ?_ hk
    rw [stat_addOp, stat_alloc_ne _ hq hbound]
    exact hs

theorem openCreate_missing_stat {fs : FS} {p : Path} {m : Nat} {fs' : FS}
    (h : fs.openCreate p m = .ok fs') (hmiss : fs.find p = none)
    (hroot : p ≠ []) :
    fs'.stat p = some ({ kind := .file, mode := m,
                         times := { atime := fs.now, mtime := fs.now } } : InodeData) ∧
    fs'.find p = some fs.nextIno := by
  rcases openCreate_cases h with ⟨i, d, hl, _, rfl⟩ | ⟨_, _, rfl⟩
  · rw [lstat_eq_some_iff] at hl
    rw [hl.1] at hmiss
    exact absurd hmiss (by simp)
  · constructor
    · have hne : p.dropLast ≠ p := by
        intro hcontra
        have := congrArg List.length hcontra
        cases hp : p with
        | nil => exact hroot hp
        | cons a t =>
          rw [hp] at this
          simp [List.length_dropLast] at this
      refine (stat_touchParent_nondir p ?_ (by simp)).trans rfl
      rw [stat_addOp, stat_alloc_self _ hmiss]
    · rw [find_touchParent, find_addOp, find_alloc_self _ hmiss]

/-- Outcome analysis for `write`. -/
theorem write_cases {fs : FS} {p : Path} {content : List Nat} {fs' : FS}
    (h : fs.write p content = .ok fs') :
    ∃ i d, fs.lstat p = some (i, d) ∧
      fs' = (fs.setIno i
        { d with content := content ++ d.content.drop content.length,
                 times := { d.times with mtime := fs.now } }).addOp (.write p) := by
  unfold write at h
  cases hl : fs.lstat p with
  | none => rw [hl] at h; exact absurd h (by simp)
  | some e =>
    obtain ⟨i, d⟩ := e
    rw [hl] at h
    injection h with h
    exact ⟨i, d, rfl, h.symm⟩

theorem write_trace {fs : FS} {p : Path} {content : List Nat} {fs' : FS}
    (h : fs.write p content = .ok fs') :
    fs'.trace = fs.trace ++ [Op.write p] := by
  obtain ⟨i, d, _, rfl⟩ := write_cases h
  simp

theorem write_find {fs : FS} {p : Path} {content : List Nat} {fs' : FS}
    (h : fs.write p content = .ok fs') (q : Path) :
    fs'.find q = fs.find q := by
  obtain ⟨i, d, _, rfl⟩ := write_cases h
  simp

theorem write_stat_self {fs : FS} {p : Path} {content : List Nat} {fs' : FS}
    {i : Nat} {d : InodeData}
    (h : fs.write p content = .ok fs') (hl : fs.lstat p = some (i, d)) :
    fs'.stat p = some { d with
      content := content ++ d.content.drop content.length,
      times := { d.times with mtime := fs.now } } := by
  obtain ⟨i', d', hl', rfl⟩ := write_cases h
  rw [hl] at hl'
  injection hl' with hl'
  rw [Prod.mk.injEq] at hl'
  obtain ⟨rfl, rfl⟩ := hl'
  rw [stat_addOp, stat_setIno_of_find_eq i _ (lstat_eq_some_iff.mp hl).1]

theorem write_stat_other {fs : FS} {p : Path} {content : List Nat} {fs' : FS}
    {q : Path} {j : Nat}
    (h : fs.write p content = .ok fs') (hq : fs.find q = some j)
    (hne : fs.find p ≠ some j) : fs'.stat q = fs.stat q := by
  obtain ⟨i, d, hl, rfl⟩ := write_cases h
  have hij : i ≠ j := fun hc => hne (hc ▸ (lstat_eq_some_iff.mp hl).1)
  rw [stat_addOp, stat_setIno_of_find_ne i _ hq hij]

theorem write_stat_none {fs : FS} {p : Path} {content : List Nat} {fs' : FS}
    {q : Path}
    (h : fs.write p content = .ok fs') (hq : fs.find q = none) :
    fs'.stat q = none := by
  obtain ⟨i, d, hl, rfl⟩ := write_cases h
  rw [stat_addOp]
  exact stat_eq_none_of_find (by rw [find_setIno]; exact hq)

/-- Outcome analysis for `link`. -/
theorem link_cases {fs : FS} {oldP newP : Path} {fs' : FS}
    (h : fs.link oldP newP = .ok fs') :
    ∃ i d, fs.lstat oldP = some (i, d) ∧ d.kind ≠ FKind.dir ∧
      fs.find newP = none ∧ fs.parentIsDir newP = true ∧
      fs' = (({ fs with entries := fs.entries ++ [(newP, i)] }).addOp
          (.link oldP newP)).touchParent newP := by
  unfold link at h
  cases hl : fs.lstat oldP with
  | none => rw [hl] at h; exact absurd h (by simp)
  | some e =>
    obtain ⟨i, d⟩ := e
    rw [hl] at h
    dsimp only at h
    by_cases hk : d.kind = FKind.dir
    · rw [if_pos hk] at h; exact absurd h (by simp)
    · rw [if_neg hk] at h
      cases hf : fs.find newP with
      | some j => rw [hf] at h; simp at h
      | none =>
        rw [hf] at h
        simp only [Option.isSome_none, Bool.false_eq_true, if_false] at h
        by_cases hp : fs.parentIsDir newP = true
        · rw [if_neg (fun hc => hc hp)] at h
          injection h with h
          exact ⟨i, d, rfl, hk, rfl, hp, h.symm⟩
        · rw [if_pos hp] at h
          exact absurd h (by simp)

theorem link_trace {fs : FS} {oldP newP : Path} {fs' : FS}
    (h : fs.link oldP newP = .ok fs') :
    fs'.trace = fs.trace ++ [Op.link oldP newP] := by
  obtain ⟨i, d, _, _, _, _, rfl⟩ := link_cases h
  rw [trace_touchParent, trace_addOp]

theorem link_find_new {fs : FS} {oldP newP : Path} {fs' : FS}
    (h : fs.link oldP newP = .ok fs') :
    fs'.find newP = fs.find oldP := by
  obtain ⟨i, d, hl, _, hf, _, rfl⟩ := link_cases h
  rw [find_touchParent, find_addOp]
  show alookup (fs.entries ++ [(newP, i)]) newP = fs.find oldP
  rw [alookup_append]
  unfold find at hf
  rw [hf, (lstat_eq_some_iff.mp hl).1]
  simp [alookup]

theorem link_find_ne {fs : FS} {oldP newP : Path} {fs' : FS}
    (h : fs.link oldP newP = .ok fs') {q : Path} (hq : q ≠ newP) :
    fs'.find q = fs.find q := by
  obtain ⟨i, d, _, _, _, _, rfl⟩ := link_cases h
  rw [find_touchParent, find_addOp]
  show alookup (fs.entries ++ [(newP, i)]) q = fs.find q
  rw [alookup_append]
  cases hx : alookup fs.entries q with
  | none => simp [alookup, Ne.symm hq, find, hx]
  | some v => simp [find, hx]

theorem link_getIno {fs : FS} {oldP newP : Path} {fs' : FS}
    (h : fs.link oldP newP = .ok fs') {j : Nat} {dj : InodeData}
    (hg : fs.getIno j = some dj) (hk : dj.kind ≠ FKind.dir) :
    fs'.getIno j = some dj := by
  obtain ⟨i, d, _, _, _, _, rfl⟩ := link_cases h
  -- touchParent can only modify a directory inode
  unfold touchParent
  set fs1 : FS := ({ fs with entries := fs.entries ++ [(newP, i)] }).addOp
      (.link oldP newP) with hfs1
  have hg1 : fs1.getIno j = some dj := hg
  cases hp : fs1.lstat newP.dropLast with
  | none => exact hg1
  | some e =>
    obtain ⟨ip, dp⟩ := e
    obtain ⟨hfp, hgp⟩ := lstat_eq_some_iff.mp hp
    dsimp only
    by_cases hdk : dp.kind = FKind.dir
    · rw [if_pos hdk]
      have hij : ip ≠ j := by
        intro hc
        rw [hc, hg1] at hgp
        injection hgp with hgp
        exact hk (hgp ▸ hdk)
      rw [getIno_setIno_ne _ _ _ _ hij]
      exact hg1
    · rw [if_neg hdk]
      exact hg1

theorem link_statNT_ne {fs : FS} {oldP newP : Path} {fs' : FS}
    (h : fs.link oldP newP = .ok fs') {q : Path} (hq : q ≠ newP) :
    fs'.statNT q = fs.statNT q := by
  obtain ⟨i, d, _, _, _, _, rfl⟩ := link_cases h
  rw [statNT_touchParent]
  unfold statNT
  have hfq : (({ fs with entries := fs.entries ++ [(newP, i)] }).addOp
      (.link oldP newP)).find q = fs.find q := by
    rw [find_addOp]
    show alookup (fs.entries ++ [(newP, i)]) q = fs.find q
    rw [alookup_append]
    cases hx : alookup fs.entries q with
    | none => simp [alookup, Ne.symm hq, find, hx]
    | some v => simp [find, hx]
  cases hx : fs.find q with
  | none =>
    rw [stat_eq_none_of_find (hfq.trans hx), stat_eq_none_of_find hx]
  | some j =>
    rw [stat_eq_getIno_of_find (hfq.trans hx), stat_eq_getIno_of_find hx]
    rfl

/-- Outcome analysis for `symlink`. -/
theorem symlink_cases {fs : FS} {p target : Path} {fs' : FS}
    (h : fs.symlink p target = .ok fs') :
    fs.find p = none ∧ fs.parentIsDir p = true ∧
      fs' = ((fs.alloc p
          { kind := .symlink, target := target,
            times := { atime := fs.now, mtime := fs.now } }).addOp
          (.symlink p)).touchParent p := by
  unfold symlink at h
  cases hf : fs.find p with
  | some j => rw [hf] at h; simp at h
  | none =>
    rw [hf] at h
    simp only [Option.isSome_none, Bool.false_eq_true, if_false] at h
    by_cases hp : fs.parentIsDir p = true
    · rw [if_neg (fun hc => hc hp)] at h
      injection h with h
      exact ⟨rfl, hp, h.symm⟩
    · rw [if_pos hp] at h
      exact absurd h (by simp)

theorem symlink_trace {fs : FS} {p target : Path} {fs' : FS}
    (h : fs.symlink p target = .ok fs') :
    fs'.trace = fs.trace ++ [Op.symlink p] := by
  obtain ⟨_, _, rfl⟩ := symlink_cases h
  rw [trace_touchParent, trace_addOp, trace_alloc]

theorem symlink_find_ne {fs : FS} {p target : Path} {fs' : FS}
    (h : fs.symlink p target = .ok fs') {q : Path} (hq : q ≠ p) :
    fs'.find q = fs.find q := by
  obtain ⟨_, _, rfl⟩ := symlink_cases h
  rw [find_touchParent, find_addOp, find_alloc_ne _ _ _ _ hq]

theorem symlink_statNT_ne {fs : FS} {p target : Path} {fs' : FS}
    (h : fs.symlink p target = .ok fs') {q : Path} (hq : q ≠ p)
    (hbound : ∀ j, fs.find q = some j → j ≠ fs.nextIno) :
    fs'.statNT q = fs.statNT q := by
  obtain ⟨_, _, rfl⟩ := symlink_cases h
  rw [statNT_touchParent]
  unfold statNT
  rw [stat_addOp, stat_alloc_ne _ hq hbound]

/-- Outcome analysis for `rename`. -/
theorem rename_cases {fs : FS} {oldP newP : Path} {fs' : FS}
    (h : fs.rename oldP newP = .ok fs') :
    ∃ i od, fs.lstat oldP = some (i, od) ∧
      ((∃ j nd, fs.lstat newP = some (j, nd) ∧ od.kind ≠ FKind.dir ∧
          nd.kind ≠ FKind.dir ∧
          fs' =
            (({ fs with
                entries := (fs.entries.filter
                    (fun (e : Path × Nat) => e.1 ≠ newP)).map (moveFn oldP newP)
              }).addOp (.rename oldP newP)).touchParent newP) ∨
        (fs.lstat newP = none ∧ fs.parentIsDir newP = true ∧
          fs' =
            (({ fs with
                entries := fs.entries.map (moveFn oldP newP)
              }).addOp (.rename oldP newP)).touchParent newP)) := by
  unfold rename at h
  cases hl : fs.lstat oldP with
  | none => rw [hl] at h; exact absurd h (by simp)
  | some e =>
    obtain ⟨i, od⟩ := e
    rw [hl] at h
    dsimp only at h
    cases hn : fs.lstat newP with
    | some e' =>
      obtain ⟨j, nd⟩ := e'
      rw [hn] at h
      dsimp only at h
      by_cases hk : od.kind = FKind.dir ∨ nd.kind = FKind.dir
      · rw [if_pos hk] at h; exact absurd h (by simp)
      · rw [if_neg hk] at h
        injection h with h
        push_neg at hk
        exact ⟨i, od, rfl, Or.inl ⟨j, nd, rfl, hk.1, hk.2, h.symm⟩⟩
    | none =>
      rw [hn] at h
      dsimp only at h
      by_cases hp : fs.parentIsDir newP = true
      · rw [if_pos hp] at h
        injection h with h
        exact ⟨i, od, rfl, Or.inr ⟨rfl, hp, h.symm⟩⟩
      · rw [if_neg hp] at h
        exact absurd h (by simp)

theorem rename_trace {fs : FS} {oldP newP : Path} {fs' : FS}
    (h : fs.rename oldP newP = .ok fs') :
    fs'.trace = fs.trace ++ [Op.rename oldP newP] := by
  obtain ⟨i, od, _, hcase⟩ := rename_cases h
  rcases hcase with ⟨j, nd, _, _, _, rfl⟩ | ⟨_, _, rfl⟩ <;>
    rw [trace_touchParent, trace_addOp]

/-- Outcome analysis for `remove`. -/
theorem remove_cases {fs : FS} {p : Path} {fs' : FS}
    (h : fs.remove p = .ok fs') :
    (fs.lstat p).isSome = true ∧
    (fs.entries.any (fun e => e.1 ≠ p ∧ pstarts p e.1)) = false ∧
    fs' = (({ fs with entries := fs.entries.filter (fun e => e.1 ≠ p) }).addOp
        (.remove p)).touchParent p := by
  unfold remove at h
  cases hl : fs.lstat p with
  | none => rw [hl] at h; exact absurd h (by simp)
  | some e =>
    rw [hl] at h
    dsimp only at h
    cases ha : fs.entries.any (fun e => e.1 ≠ p ∧ pstarts p e.1) with
    | true => rw [ha] at h; simp at h
    | false =>
      rw [ha] at h
      simp only [Bool.false_eq_true, if_false] at h
      injection h with h
      exact ⟨by simp [hl], rfl, h.symm⟩

theorem remove_trace {fs : FS} {p : Path} {fs' : FS}
    (h : fs.remove p = .ok fs') :
    fs'.trace = fs.trace ++ [Op.remove p] := by
  obtain ⟨_, _, rfl⟩ := remove_cases h
  rw [trace_touchParent, trace_addOp]

theorem remove_find_self {fs : FS} {p : Path} {fs' : FS}
    (h : fs.remove p = .ok fs') : fs'.find p = none := by
  obtain ⟨_, _, rfl⟩ := remove_cases h
  rw [find_touchParent, find_addOp]
  exact alookup_filter_key_self fs.entries p

theorem remove_find_ne {fs : FS} {p : Path} {fs' : FS}
    (h : fs.remove p = .ok fs') {q : Path} (hq : q ≠ p) :
    fs'.find q = fs.find q := by
  obtain ⟨_, _, rfl⟩ := remove_cases h
  rw [find_touchParent, find_addOp]
  exact alookup_filter_key_ne fs.entries p q hq

theorem remove_statNT_ne {fs : FS} {p : Path} {fs' : FS}
    (h : fs.remove p = .ok fs') {q : Path} (hq : q ≠ p) :
    fs'.statNT q = fs.statNT q := by
  obtain ⟨_, _, rfl⟩ := remove_cases h
  rw [statNT_touchParent]
  unfold statNT
  rw [stat_addOp]
  have hf : (({ fs with entries := fs.entries.filter (fun e => e.1 ≠ p) }) : FS).find q
      = fs.find q := alookup_filter_key_ne fs.entries p q hq
  cases hx : fs.find q with
  | none => rw [stat_eq_none_of_find (hf.trans hx), stat_eq_none_of_find hx]
  | some j =>
    rw [stat_eq_getIno_of_find (hf.trans hx), stat_eq_getIno_of_find hx]
    rfl

@[simp] theorem trace_removeAll (fs : FS) (p : Path) :
    (fs.removeAll p).trace = fs.trace ++ [Op.removeAll p] := by
  unfold removeAll
  rw [trace_touchParent, trace_addOp]

theorem find_removeAll_in {fs : FS} {p q : Path} (h : pstarts p q = true) :
    (fs.removeAll p).find q = none := by
  unfold removeAll
  rw [find_touchParent, find_addOp]
  exact alookup_filter_sub_self fs.entries p q h

theorem find_removeAll_out {fs : FS} {p q : Path} (h : pstarts p q = false) :
    (fs.removeAll p).find q = fs.find q := by
  unfold removeAll
  rw [find_touchParent, find_addOp]
  exact alookup_filter_sub_ne fs.entries p q h

theorem statNT_removeAll_out {fs : FS} {p q : Path} (h : pstarts p q = false) :
    (fs.removeAll p).statNT q = fs.statNT q := by
  unfold removeAll
  rw [statNT_touchParent]
  unfold statNT
  rw [stat_addOp]
  have hf : (({ fs with entries := fs.entries.filter (fun e => ¬ pstarts p e.1) }) : FS).find q
      = fs.find q := alookup_filter_sub_ne fs.entries p q h
  cases hx : fs.find q with
  | none => rw [stat_eq_none_of_find (hf.trans hx), stat_eq_none_of_find hx]
  | some j =>
    rw [stat_eq_getIno_of_find (hf.trans hx), stat_eq_getIno_of_find hx]
    rfl

/-- The inode data a successful `resolve` returns is in the inode table. -/
theorem resolve_getIno {fs : FS} {p : Path} {i : Nat} {d : InodeData}
    {fuel : Nat} (hr : fs.resolve fuel p = some (i, d)) :
    fs.getIno i = some d := by
  induction fuel generalizing p with
  | zero => exact absurd hr (by simp [resolve])
  | succ n ih =>
    rw [resolve] at hr
    cases hl : fs.lstat p with
    | none => rw [hl] at hr; exact absurd hr (by simp)
    | some e' =>
      obtain ⟨i', d'⟩ := e'
      rw [hl] at hr
      dsimp only at hr
      by_cases hk : d'.kind = FKind.symlink
      · rw [if_pos hk] at hr
        exact ih hr
      · rw [if_neg hk] at hr
        injection hr with hr
        rw [Prod.mk.injEq] at hr
        obtain ⟨rfl, rfl⟩ := hr
        exact (lstat_eq_some_iff.mp hl).2

/-- Outcome analysis for `chtimes`. -/
theorem chtimes_cases {fs : FS} {p : Path} {t : Times} {fs' : FS}
    (h : fs.chtimes p t = .ok fs') :
    ∃ i d, fs.resolve resolveFuel p = some (i, d) ∧
      fs' = (fs.setIno i { d with times := t }).addOp (.chtimes p) := by
  unfold chtimes at h
  cases hr : fs.resolve resolveFuel p with
  | none => rw [hr] at h; exact absurd h (by simp)
  | some e =>
    obtain ⟨i, d⟩ := e
    rw [hr] at h
    injection h with h
    exact ⟨i, d, rfl, h.symm⟩

theorem chtimes_trace {fs : FS} {p : Path} {t : Times} {fs' : FS}
    (h : fs.chtimes p t = .ok fs') :
    fs'.trace = fs.trace ++ [Op.chtimes p] := by
  obtain ⟨i, d, _, rfl⟩ := chtimes_cases h
  simp

theorem chtimes_find {fs : FS} {p : Path} {t : Times} {fs' : FS}
    (h : fs.chtimes p t = .ok fs') (q : Path) : fs'.find q = fs.find q := by
  obtain ⟨i, d, _, rfl⟩ := chtimes_cases h
  simp

theorem chtimes_statNT {fs : FS} {p : Path} {t : Times} {fs' : FS}
    (h : fs.chtimes p t = .ok fs') (q : Path) : fs'.statNT q = fs.statNT q := by
  obtain ⟨i, d, hr, rfl⟩ := chtimes_cases h
  rw [statNT_addOp]
  unfold statNT
  cases hx : fs.find q with
  | none =>
    rw [@stat_eq_none_of_find (fs.setIno i _) q (by rw [find_setIno]; exact hx),
        stat_eq_none_of_find hx]
  | some j =>
    by_cases hj : i = j
    · subst hj
      rw [stat_setIno_of_find_eq i _ hx, stat_eq_getIno_of_find hx]
      rw [resolve_getIno hr]
      simp [InodeData.sansTimes]
    · rw [stat_setIno_of_find_ne i _ hx hj, stat_eq_getIno_of_find hx]

/-- Outcome analysis for `chown`. -/
theorem chown_cases {fs : FS} {p : Path} {uid gid : Nat} {fs' : FS}
    (h : fs.chown p uid gid = .ok fs') :
    ∃ i d, fs.resolve resolveFuel p = some (i, d) ∧
      fs' = (fs.setIno i { d with uid := uid, gid := gid }).addOp (.chown p) := by
  unfold chown at h
  cases hr : fs.resolve resolveFuel p with
  | none => rw [hr] at h; exact absurd h (by simp)
  | some e =>
    obtain ⟨i, d⟩ := e
    rw [hr] at h
    injection h with h
    exact ⟨i, d, rfl, h.symm⟩

theorem chown_trace {fs : FS} {p : Path} {uid gid : Nat} {fs' : FS}
    (h : fs.chown p uid gid = .ok fs') :
    fs'.trace = fs.trace ++ [Op.chown p] := by
  obtain ⟨i, d, _, rfl⟩ := chown_cases h
  simp

theorem chown_find {fs : FS} {p : Path} {uid gid : Nat} {fs' : FS}
    (h : fs.chown p uid gid = .ok fs') (q : Path) : fs'.find q = fs.find q := by
  obtain ⟨i, d, _, rfl⟩ := chown_cases h
  simp

theorem resolve_of_nonsymlink {fs : FS} {p : Path} {i : Nat} {d : InodeData}
    (h : fs.lstat p = some (i, d)) (hk : d.kind ≠ FKind.symlink) :
    fs.resolve resolveFuel p = some (i, d) := by
  show fs.resolve (39 + 1) p = some (i, d)
  rw [resolve, h]
  dsimp only
  rw [if_neg hk]

theorem sha1_of_file {fs : FS} {p : Path} {i : Nat} {d : InodeData}
    (h : fs.lstat p = some (i, d)) (hf : d.kind = FKind.file)
    (hr : d.readFails = false) : fs.sha1 p = .ok d.content := by
  unfold sha1
  rw [resolve_of_nonsymlink h (by rw [hf]; simp)]
  dsimp only
  simp only [hf]
  simp [hr]

end FS

open FS

/-! ### Localized-effect lemmas for the materialization helpers -/

theorem preservesOutside_refl (fs : FS) (t : Path) : PreservesOutside fs fs t :=
  ⟨le_refl _, ⟨[], by simp, by simp⟩, fun _ _ => rfl, fun _ _ _ => rfl⟩

theorem preservesOutside_trans {fs1 fs2 fs3 : FS} {t : Path}
    (h12 : PreservesOutside fs1 fs2 t) (h23 : PreservesOutside fs2 fs3 t) :
    PreservesOutside fs1 fs3 t := by
  obtain ⟨m12, ⟨d1, ht1, htt1⟩, hf12, hs12⟩ := h12
  obtain ⟨m23, ⟨d2, ht2, htt2⟩, hf23, hs23⟩ := h23
  refine ⟨le_trans m12 m23,
    ⟨d1 ++ d2, by rw [ht2, ht1, List.append_assoc], ?_⟩,
    fun q hq => (hf23 q hq).trans (hf12 q hq), fun q hq hb => ?_⟩
  · intro o ho
    rcases List.mem_append.mp ho with h | h
    exacts [htt1 o h, htt2 o h]
  · refine (hs23 q hq ?_).trans (hs12 q hq hb)
    intro j hj
    rw [hf12 q hq] at hj
    exact lt_of_lt_of_le (hb j hj) m12

theorem link_preservesOutside {fs : FS} {oldP newP : Path} {fs' : FS}
    (h : fs.link oldP newP = .ok fs') : PreservesOutside fs fs' newP := by
  refine ⟨?_, ⟨[.link oldP newP], link_trace h, ?_⟩,
    fun q hq => link_find_ne h hq, fun q hq _ => link_statNT_ne h hq⟩
  · obtain ⟨i, d, _, _, _, _, rfl⟩ := link_cases h
    rw [nextIno_touchParent, nextIno_addOp]
  · intro o ho q hq
    rw [List.mem_singleton] at ho
    subst ho
    simp only [Op.touches, decide_eq_true_eq] at hq
    exact hq.symm

theorem symlink_preservesOutside {fs : FS} {p target : Path} {fs' : FS}
    (h : fs.symlink p target = .ok fs') : PreservesOutside fs fs' p := by
  refine ⟨?_, ⟨[.symlink p], symlink_trace h, ?_⟩,
    fun q hq => symlink_find_ne h hq,
    fun q hq hb => symlink_statNT_ne h hq (fun j hj => Nat.ne_of_lt (hb j hj))⟩
  · obtain ⟨_, _, rfl⟩ := symlink_cases h
    rw [nextIno_touchParent, nextIno_addOp, nextIno_alloc]
    exact Nat.le_succ _
  · intro o ho q hq
    rw [List.mem_singleton] at ho
    subst ho
    simp only [Op.touches, decide_eq_true_eq] at hq
    exact hq.symm

theorem openCreate_preservesOutside {fs : FS} {p : Path} {m : Nat} {fs' : FS}
    (h : fs.openCreate p m = .ok fs') : PreservesOutside fs fs' p := by
  refine ⟨?_, ⟨[.create p], openCreate_trace h, ?_⟩,
    fun q hq => openCreate_find_ne h hq,
    fun q hq hb => openCreate_statNT_ne h hq (fun j hj => Nat.ne_of_lt (hb j hj))⟩
  · rcases openCreate_cases h with ⟨i, d, _, _, rfl⟩ | ⟨_, _, rfl⟩
    · rw [nextIno_addOp]
    · rw [nextIno_touchParent, nextIno_addOp, nextIno_alloc]
      exact Nat.le_succ _
  · intro o ho q hq
    rw [List.mem_singleton] at ho
    subst ho
    simp only [Op.touches, decide_eq_true_eq] at hq
    exact hq.symm

/-- Every outcome of `copyFileContent` with a not-yet-existing destination
only affects the destination path. -/
theorem copyFileContent_preservesOutside (s : FsSyncer) {fs : FS}
    {srcP dstP : Path} {mode : Nat} {r : Except SyncErr Int} {fs' : FS}
    (h : s.copyFileContent fs srcP dstP mode = (r, fs'))
    (hmiss : fs.find dstP = none) : PreservesOutside fs fs' dstP := by
  unfold FsSyncer.copyFileContent at h
  cases hres : fs.resolve FS.resolveFuel srcP with
  | none =>
    rw [hres] at h
    injection h with _ h2
    subst h2
    exact preservesOutside_refl fs dstP
  | some e =>
    obtain ⟨i, d⟩ := e
    rw [hres] at h
    dsimp only at h
    cases hoc : fs.openCreate dstP mode with
    | error e' =>
      rw [hoc] at h
      injection h with _ h2
      subst h2
      exact preservesOutside_refl fs dstP
    | ok fs1 =>
      rw [hoc] at h
      dsimp only at h
      have hstep1 : PreservesOutside fs fs1 dstP := openCreate_preservesOutside hoc
      by_cases hbuf : s.bufferSize ≤ 0
      · rw [if_pos hbuf] at h
        injection h with _ h2
        subst h2
        exact hstep1
      · rw [if_neg hbuf] at h
        by_cases hbad : d.kind = FKind.dir ∨ d.readFails = true
        · rw [if_pos hbad] at h
          injection h with _ h2
          subst h2
          exact hstep1
        · rw [if_neg hbad] at h
          cases hw : fs1.write dstP d.content with
          | error e' =>
            rw [hw] at h
            injection h with _ h2
            subst h2
            exact hstep1
          | ok fs2 =>
            rw [hw] at h
            injection h with _ h2
            subst h2
            have hnext2 : fs2.nextIno = fs1.nextIno := by
              obtain ⟨_, _, _, rfl⟩ := write_cases hw
              rw [nextIno_addOp, nextIno_setIno]
            refine ⟨?_, ⟨[.create dstP, .write dstP], ?_, ?_⟩,
              fun q hq => (write_find hw q).trans (openCreate_find_ne hoc hq),
              fun q hq hb => ?_⟩
            · rw [hnext2]
              exact hstep1.1
            · rw [write_trace hw, openCreate_trace hoc, List.append_assoc]
              rfl
            · intro o ho q hq
              rcases List.mem_cons.mp ho with rfl | ho
              · simp only [Op.touches, decide_eq_true_eq] at hq
                exact hq.symm
              · rw [List.mem_singleton] at ho
                subst ho
                simp only [Op.touches, decide_eq_true_eq] at hq
                exact hq.symm
            · -- the write hits the freshly created inode, disjoint from q's
              have hdst1 : fs1.find dstP = some fs.nextIno := by
                rcases openCreate_cases hoc with ⟨i', d', hl', _, rfl⟩ | ⟨_, _, rfl⟩
                · rw [(lstat_eq_some_iff.mp hl').1] at hmiss
                  exact absurd hmiss (by simp)
                · rw [find_touchParent, find_addOp, find_alloc_self _ hmiss]
              have hoc_stat := openCreate_statNT_ne hoc hq
                (fun j hj => Nat.ne_of_lt (hb j hj))
              have hwrite_stat : fs2.statNT q = fs1.statNT q := by
                cases hfq : fs1.find q with
                | none =>
                  unfold FS.statNT
                  rw [stat_eq_none_of_find ((write_find hw q).trans hfq),
                      stat_eq_none_of_find hfq]
                | some j =>
                  have hjlt : j < fs.nextIno := by
                    have := (openCreate_find_ne hoc hq).symm.trans hfq
                    exact hb j this
                  have hne : fs1.find dstP ≠ some j := by
                    rw [hdst1]
                    intro hc
                    injection hc with hc
                    exact absurd hc.symm (Nat.ne_of_lt hjlt)
                  unfold FS.statNT
                  rw [write_stat_other hw hfq hne]
              exact hwrite_stat.trans hoc_stat

/-- Every outcome of `syncUnexistingFile` for a non-directory source entry
  with a not-yet-existing destination only affects the destination path,
  and never touches `timesMap` or the report. -/
theorem syncUnexistingFile_preservesOutside (s : FsSyncer)
    {src dst : SyncInfo} {c : SyncCtx}
    {r : Except SyncErr UnexistingFileRes} {c' : SyncCtx}
    (h : s.syncUnexistingFile src dst c = (r, c'))
    (hnd : src.data.kind ≠ FKind.dir)
    (hmiss : c.fs.find dst.path = none) :
    PreservesOutside c.fs c'.fs dst.path ∧
    c'.timesMap = c.timesMap ∧ c'.report = c.report := by
  unfold FsSyncer.syncUnexistingFile at h
  cases hhit : alookup c.inoMap src.ino with
  | some existingLink =>
    rw [hhit] at h
    dsimp only at h
    cases hl : c.fs.link existingLink dst.path with
    | error e' =>
      rw [hl] at h
      injection h with _ h2
      subst h2
      exact ⟨preservesOutside_refl _ _, rfl, rfl⟩
    | ok fs' =>
      rw [hl] at h
      injection h with _ h2
      subst h2
      exact ⟨link_preservesOutside hl, rfl, rfl⟩
  | none =>
    rw [hhit] at h
    dsimp only at h
    rw [if_neg hnd] at h
    by_cases hsym : src.data.kind = FKind.symlink
    · rw [if_pos hsym] at h
      cases hrl : c.fs.readlink src.path with
      | error e' =>
        rw [hrl] at h
        injection h with _ h2
        subst h2
        exact ⟨preservesOutside_refl _ _, rfl, rfl⟩
      | ok linkDst =>
        rw [hrl] at h
        dsimp only at h
        cases hsl : c.fs.symlink dst.path
            (if containsOcc linkDst src.base then replaceOcc linkDst src.base dst.base
             else linkDst) with
        | error e' =>
          rw [hsl] at h
          injection h with _ h2
          subst h2
          exact ⟨preservesOutside_refl _ _, rfl, rfl⟩
        | ok fs' =>
          rw [hsl] at h
          injection h with _ h2
          subst h2
          exact ⟨symlink_preservesOutside hsl, rfl, rfl⟩
    · rw [if_neg hsym] at h
      cases hcp : s.copyFileContent c.fs src.path dst.path src.data.mode with
      | mk rr fs' =>
        rw [hcp] at h
        cases rr with
        | error e' =>
          dsimp only at h
          injection h with _ h2
          subst h2
          exact ⟨copyFileContent_preservesOutside s hcp hmiss, rfl, rfl⟩
        | ok n =>
          dsimp only at h
          injection h with _ h2
          subst h2
          exact ⟨copyFileContent_preservesOutside s hcp hmiss, rfl, rfl⟩

/-! ### Claim C9 (buffer size) -/

/-- Counterexample for claim C9: constructing a syncer with
`WithBufferSize(0)` does *not* fall back to the 512 KiB default; the option
stores 0 unconditionally, so the copier's buffer is empty. -/
theorem C9_counterexample :
    (New [WithBufferSize 0]).bufferSize = 0 ∧
    (New [WithBufferSize 0]).bufferSize ≠ 512 * 1024 := by
  constructor
  · rfl
  · decide

/-- Claim C9, amended: the 512×1024-byte default applies exactly when no
`WithBufferSize` option is supplied; `WithBufferSize(n)` stores `n`
unconditionally (no positivity validation), so `WithBufferSize(0)` yields a
syncer whose copy loop cannot make progress (an empty buffer; the real loop
never terminates, modelled as an error).  The CLI wrapper preserves the
default by only passing the option when its flag is nonzero. -/
theorem C9_buffer_size_amended :
    (New []).bufferSize = 512 * 1024 ∧
    (∀ n : Int, (New [WithBufferSize n]).bufferSize = n) ∧
    ((New [WithBufferSize 0]).copyFileContent fsBasic ["s", "a"] ["d", "a"] 420).1 =
      .error (.failure "copy loop makes no progress with empty buffer") := by
  refine ⟨rfl, fun n => rfl, ?_⟩
  rfl

/-! ### Claim C8 (missing detailed stat metadata) -/

/-- Claim C8 is contradicted by the code: when `info.Sys()` is not a
`*syscall.Stat_t` the callback executes `return errors.Wrapf(err, ...)`
with `err == nil`, and `errors.Wrapf` returns nil on a nil error — so the
entry is silently skipped instead of aborting the sync.  Here the source
entry `s/x` has no detailed stat data: `Sync` succeeds, reports nothing,
and never materializes `d/x`. -/
theorem C8_missing_stat_silently_skipped :
    wrapf none "fail to get detailed stat info" = none ∧
    (syncerDefault.Sync fsNoSys ["s"] ["d"]).err = none ∧
    (syncerDefault.Sync fsNoSys ["s"] ["d"]).fs.find ["d", "x"] = none ∧
    (syncerDefault.Sync fsNoSys ["s"] ["d"]).report.ChangeCount = 0 := by
  refine ⟨rfl, ?_, ?_, ?_⟩ <;> decide

/-! ### Claim C5 (type mismatch between existing counterparts) -/

/-- Claim C5 fails in checksum mode: after the type mismatch deletes the
destination subtree, the code falls into the checksum comparison and tries
to hash the just-deleted destination path (and, in the converse case, the
source directory), so `Sync` aborts with a SHA1 error instead of
materializing the entry; nothing is reported and the destination subtree
is left deleted. -/
theorem C5_checksum_type_mismatch_fatal :
    (syncerChecksum.Sync fsMismatch ["s"] ["d"]).err =
      some (.failure "fail to compute SHA1 of dst") ∧
    (syncerChecksum.Sync fsMismatch ["s"] ["d"]).fs.find ["d", "a"] = none ∧
    (syncerChecksum.Sync fsMismatch ["s"] ["d"]).report.HasChanged ["d", "a"] = false := by
  refine ⟨?_, ?_, ?_⟩ <;> decide

/-! ### Claim C1 (idempotence), counterexample -/

/-- Counterexample for claim C1: a source tree containing a symlink is
re-reported on every run.  The first sync succeeds and creates the
destination symlink with a fresh timestamp; symlinks are never entered in
`timesMap` (`syncUnexistingFile` returns `shouldUpdateTimes = false` for
them), so on the second run the lstat mtimes differ, the symlink is
replaced again, and `ChangeCount() = 1 ≠ 0`. -/
theorem C1_counterexample :
    (syncerDefault.Sync fsSymlink ["s"] ["d"]).err = none ∧
    (syncerDefault.Sync (syncerDefault.Sync fsSymlink ["s"] ["d"]).fs
        ["s"] ["d"]).err = none ∧
    (syncerDefault.Sync (syncerDefault.Sync fsSymlink ["s"] ["d"]).fs
        ["s"] ["d"]).report.ChangeCount = 1 := by
  refine ⟨?_, ?_, ?_⟩ <;> decide

/-! ### Branch lemmas for the change detector -/

/-- Checksum mode, both counterparts non-directories, equal digests:
schedule times, do not report, change nothing else. -/
theorem syncExistingFile_checksum_equal (s : FsSyncer) (src dst : SyncInfo)
    (c : SyncCtx) {A B : List Nat}
    (hcs : s.checkChecksum = true)
    (hsk : src.data.kind ≠ FKind.dir) (hdk : dst.data.kind ≠ FKind.dir)
    (hshaS : c.fs.sha1 src.path = .ok A)
    (hshaD : c.fs.sha1 dst.path = .ok B) (hAB : A = B) :
    s.syncExistingFile src dst c = (.ok { shouldUpdateTimes := true }, c) := by
  unfold FsSyncer.syncExistingFile
  have hbd : (src.data.kind = FKind.dir ∧ dst.data.kind = FKind.dir) = False :=
    eq_false (fun hc => hsk hc.1)
  have hmis : ((src.data.kind = FKind.dir ∧ dst.data.kind ≠ FKind.dir) ∨
      (src.data.kind ≠ FKind.dir ∧ dst.data.kind = FKind.dir)) = False :=
    eq_false (by rintro (⟨h1, _⟩ | ⟨_, h2⟩); exacts [hsk h1, hdk h2])
  simp only [hbd, hmis, if_false, hcs, eq_self_iff_true, if_true]
  rw [hshaS]
  dsimp only
  rw [hshaD]
  dsimp only
  rw [if_pos hAB]

/-- Default mode, both counterparts non-directories, identical size and
mtime: no action at all. -/
theorem syncExistingFile_default_equal (s : FsSyncer) (src dst : SyncInfo)
    (c : SyncCtx)
    (hcs : s.checkChecksum = false)
    (hsk : src.data.kind ≠ FKind.dir) (hdk : dst.data.kind ≠ FKind.dir)
    (hsize : src.data.size = dst.data.size)
    (hmtime : src.data.times.mtime = dst.data.times.mtime) :
    s.syncExistingFile src dst c = (.ok {}, c) := by
  unfold FsSyncer.syncExistingFile
  have hbd : (src.data.kind = FKind.dir ∧ dst.data.kind = FKind.dir) = False :=
    eq_false (fun hc => hsk hc.1)
  have hmis : ((src.data.kind = FKind.dir ∧ dst.data.kind ≠ FKind.dir) ∨
      (src.data.kind ≠ FKind.dir ∧ dst.data.kind = FKind.dir)) = False :=
    eq_false (by rintro (⟨h1, _⟩ | ⟨_, h2⟩); exacts [hsk h1, hdk h2])
  simp only [hbd, hmis, if_false, hcs, Bool.false_eq_true]
  rw [if_pos ⟨hsize, hmtime⟩]

/-- `applyTimes` only ever performs `chtimes` operations, and only on keys
of its times map. -/
theorem applyTimes_trace_shape (s : FsSyncer) (tm : List (Path × Times))
    (c : SyncCtx) :
    ∃ delta, (applyTimes s tm c).2.fs.trace = c.fs.trace ++ delta ∧
      ∀ o ∈ delta, ∃ k, k ∈ tm.map Prod.fst ∧ o = Op.chtimes k := by
  induction tm generalizing c with
  | nil =>
    exact ⟨[], (List.append_nil _).symm, fun o ho => absurd ho (List.not_mem_nil o)⟩
  | cons e rest ih =>
    obtain ⟨file, times⟩ := e
    unfold applyTimes
    cases hc : c.fs.chtimes file times with
    | error err =>
      dsimp only
      by_cases htol : isNotExistE err = true ∧ s.ignoreNotFound = true
      · rw [if_pos htol]
        obtain ⟨delta, h1, h2⟩ := ih c
        exact ⟨delta, h1, fun o ho => by
          obtain ⟨k, hk, rfl⟩ := h2 o ho
          exact ⟨k, List.mem_cons_of_mem _ hk, rfl⟩⟩
      · rw [if_neg htol]
        exact ⟨[], (List.append_nil _).symm, fun o ho => absurd ho (List.not_mem_nil o)⟩
    | ok fs' =>
      dsimp only
      obtain ⟨delta, h1, h2⟩ := ih { c with fs := fs' }
      refine ⟨Op.chtimes file :: delta, ?_, ?_⟩
      · rw [h1]
        show fs'.trace ++ delta = _
        rw [chtimes_trace hc, List.append_assoc]
        rfl
      · intro o ho
        rcases List.mem_cons.mp ho with rfl | ho
        · exact ⟨file, List.mem_cons_self _ _, rfl⟩
        · obtain ⟨k, hk, rfl⟩ := h2 o ho
          exact ⟨k, List.mem_cons_of_mem _ hk, rfl⟩

/-! ### Claim C3 (hardlink materialization) -/

/-- Claim C3: when the source inode is already recorded in `inoMap`, the
entry materializer creates a hardlink at the destination path pointing at
the recorded path, performs exactly one `link` operation (no content
copy), registers nothing new in `inoMap`, and the destination path gets
the recorded path's inode — so hardlinked source files stay hardlinked at
the destination. -/
theorem C3_hardlink_materialization (s : FsSyncer) (src dst : SyncInfo)
    (c : SyncCtx) {q0 : Path} {fs' : FS}
    (hhit : alookup c.inoMap src.ino = some q0)
    (hlink : c.fs.link q0 dst.path = .ok fs') :
    s.syncUnexistingFile src dst c =
      (.ok { shouldUpdateTimes := false }, { c with fs := fs' }) ∧
    fs'.trace = c.fs.trace ++ [Op.link q0 dst.path] ∧
    fs'.find dst.path = c.fs.find q0 ∧
    (c.fs.find q0).isSome = true ∧
    (∀ q, q ≠ dst.path → fs'.find q = c.fs.find q) := by
  refine ⟨?_, link_trace hlink, link_find_new hlink, ?_,
    fun q hq => link_find_ne hlink hq⟩
  · unfold FsSyncer.syncUnexistingFile
    rw [hhit]
    dsimp only
    rw [hlink]
  · obtain ⟨i, d, hl, _, _, _, _⟩ := link_cases hlink
    rw [(lstat_eq_some_iff.mp hl).1]
    rfl

/-- Witness for claim C3 at the hardlink fixture: materializing `d/b` for
source `s/b` (inode 1, already recorded as `d/a`). -/
theorem C3_hardlink_materialization_witness :
    (syncerDefault.syncUnexistingFile srcInfoHL dstInfoHL ctxHL).2.fs.find ["d", "b"] =
      ctxHL.fs.find ["d", "a"] ∧
    (syncerDefault.syncUnexistingFile srcInfoHL dstInfoHL ctxHL).2.inoMap =
      ctxHL.inoMap := by
  have h := @C3_hardlink_materialization syncerDefault srcInfoHL dstInfoHL ctxHL
    ["d", "a"] _ rfl rfl
  rw [h.1]
  exact ⟨h.2.2.1, rfl⟩

/-! ### Claim C10 (no pending times for hardlinked paths) -/

/-- Claim C10: a destination path created as a hardlink (source inode
found in `inoMap`) never gets a `timesMap` entry — the walk step returns
with `timesMap` unchanged — and phase C's `applyTimes` only performs
`chtimes` on keys of `timesMap`, so that path is never `setTimes`d
directly. -/
theorem C10_hardlink_no_pending_times (s : FsSyncer) (src dst : Path)
    (c : SyncCtx) (p : Path) {ino : Nat} {info : InodeData} {q0 : Path}
    {fs' : FS}
    (hs : c.fs.lstat p = some (ino, info))
    (hsys : info.sysOk = true)
    (hdst : c.fs.lstat (replacePrefix p src dst) = none)
    (hhit : alookup c.inoMap ino = some q0)
    (hlink : c.fs.link q0 (replacePrefix p src dst) = .ok fs')
    (hown : s.preserveOwnership = false) :
    s.walkStep src dst c p =
      (.ok (), { c with fs := fs',
                        report := reportMark c.report (replacePrefix p src dst) }) ∧
    (∀ (tm : List (Path × Times)) (c0 : SyncCtx) (q : Path),
        q ∉ tm.map Prod.fst →
        ∀ o ∈ (applyTimes s tm c0).2.fs.trace.drop c0.fs.trace.length,
          o ≠ Op.chtimes q) := by
  constructor
  · unfold FsSyncer.walkStep
    rw [hs]
    dsimp only
    rw [hsys]
    simp only [not_true, if_false]
    rw [hdst]
    dsimp only
    unfold FsSyncer.syncUnexistingFile
    rw [hhit]
    dsimp only
    rw [hlink]
    dsimp only
    rw [hown]
    simp only [Bool.false_eq_true, if_false]
  · intro tm c0 q hq o ho hchq
    subst hchq
    obtain ⟨delta, h1, h2⟩ := applyTimes_trace_shape s tm c0
    rw [h1, List.drop_left] at ho
    obtain ⟨k, hk, hko⟩ := h2 _ ho
    injection hko with hko
    exact hq (hko ▸ hk)

/-- Witness for claim C10 at the hardlink fixture. -/
theorem C10_hardlink_no_pending_times_witness :
    (syncerDefault.walkStep ["s"] ["d"] ctxHL ["s", "b"]).2.timesMap =
      ctxHL.timesMap := by
  have h := @C10_hardlink_no_pending_times syncerDefault ["s"] ["d"] ctxHL
    ["s", "b"] 1 (fileD [7] 6) ["d", "a"] _
    rfl rfl rfl rfl rfl rfl
  rw [h.1]

/-! ### Claim C6 (checksum mode, equal digests) -/

/-- Claim C6: in checksum mode, for two existing regular-file counterparts
with equal whole-file digests, the walk step schedules the destination's
times for restoration to the source's values and changes nothing else: no
content is rewritten, nothing is reported. -/
theorem C6_checksum_equal_schedules_times (s : FsSyncer) (src dst : Path)
    (c : SyncCtx) (p : Path) {ino dino : Nat} {info dinfo : InodeData}
    (hcs : s.checkChecksum = true)
    (hown : s.preserveOwnership = false)
    (hs : c.fs.lstat p = some (ino, info))
    (hsys : info.sysOk = true)
    (hkind : info.kind = FKind.file) (hread : info.readFails = false)
    (hd : c.fs.lstat (replacePrefix p src dst) = some (dino, dinfo))
    (hdsys : dinfo.sysOk = true)
    (hdkind : dinfo.kind = FKind.file) (hdread : dinfo.readFails = false)
    (heq : info.content = dinfo.content) :
    s.walkStep src dst c p =
      (.ok (), { c with
                 timesMap := aset c.timesMap (replacePrefix p src dst) info.times }) := by
  unfold FsSyncer.walkStep
  rw [hs]
  dsimp only
  rw [hsys]
  simp only [not_true, if_false]
  rw [hd]
  dsimp only
  rw [hdsys]
  simp only [not_true, if_false]
  rw [syncExistingFile_checksum_equal s _ _ c hcs
    (by dsimp only; rw [hkind]; simp)
    (by dsimp only; rw [hdkind]; simp)
    (sha1_of_file hs hkind hread)
    (sha1_of_file hd hdkind hdread) heq]
  dsimp only
  rw [hown]
  simp only [Bool.false_eq_true, if_false]
  rw [if_pos trivial]

/-- Witness for claim C6 at the same-content fixture (identical bytes,
different mtimes, checksum mode). -/
theorem C6_checksum_equal_schedules_times_witness :
    (syncerChecksum.walkStep ["s"] ["d"] ctxSame ["s", "a"]).2.timesMap =
      aset ctxSame.timesMap ["d", "a"] (fileD [7, 8] 6).times ∧
    (syncerChecksum.walkStep ["s"] ["d"] ctxSame ["s", "a"]).2.report =
      ctxSame.report := by
  have h := @C6_checksum_equal_schedules_times syncerChecksum ["s"] ["d"]
    ctxSame ["s", "a"] 1 3 (fileD [7, 8] 6) (fileD [7, 8] 77)
    rfl rfl rfl rfl rfl rfl rfl rfl rfl rfl rfl
  rw [h]
  exact ⟨rfl, rfl⟩

/-! ### Consequences of well-formedness -/

theorem alookup_none_forall {κ α : Type} [DecidableEq κ]
    {m : List (κ × α)} {k : κ} (h : alookup m k = none) :
    ∀ e ∈ m, e.1 ≠ k := by
  induction m with
  | nil => intro e he; exact absurd he (List.not_mem_nil e)
  | cons e t ih =>
    intro x hx
    by_cases he : e.1 = k
    · simp [alookup, he] at h
    · simp only [alookup, if_neg he] at h
      rcases List.mem_cons.mp hx with rfl | hx
      · exact he
      · exact ih h x hx

theorem alookup_eq_none_forall {κ α : Type} [DecidableEq κ]
    {m : List (κ × α)} {k : κ} (h : ∀ e ∈ m, e.1 ≠ k) :
    alookup m k = none := by
  induction m with
  | nil => rfl
  | cons e t ih =>
    simp only [alookup, if_neg (h e (List.mem_cons_self e t))]
    exact ih (fun x hx => h x (List.mem_cons_of_mem _ hx))

/-- The six conjuncts of `WFb`, in propositional form. -/
theorem WFb_spec {fs : FS} (h : WFb fs = true) :
    (fs.entries.map Prod.fst).Nodup ∧
    (fs.inodes.map Prod.fst).Nodup ∧
    (∀ e ∈ fs.entries, (fs.getIno e.2).isSome = true) ∧
    (∀ e ∈ fs.entries, e.1.isEmpty = false) ∧
    (∀ e ∈ fs.entries, ∀ n ∈ List.range (e.1.length - 1),
      isDirAtB fs (e.1.take (n + 1)) = true) ∧
    (∀ e ∈ fs.inodes, e.1 < fs.nextIno) := by
  simp only [WFb, Bool.and_eq_true, decide_eq_true_eq, List.all_eq_true,
    Bool.not_eq_true'] at h
  tauto

/-- In a well-formed filesystem every bound inode number is below the
allocation counter. -/
theorem WFb_find_lt {fs : FS} (hwf : WFb fs = true) {q : Path} {j : Nat}
    (h : fs.find q = some j) : j < fs.nextIno := by
  obtain ⟨-, -, hino, -, -, hlt⟩ := WFb_spec hwf
  have hmem : (q, j) ∈ fs.entries := mem_of_alookup h
  have hk : j ∈ fs.inodes.map Prod.fst :=
    mem_keys_of_alookup_isSome (hino _ hmem)
  obtain ⟨e, he, rfl⟩ := List.mem_map.mp hk
  exact hlt e he

/-- In a well-formed filesystem every bound path has a full `lstat`. -/
theorem WFb_lstat_of_find {fs : FS} (hwf : WFb fs = true) {q : Path} {j : Nat}
    (h : fs.find q = some j) : ∃ d, fs.lstat q = some (j, d) := by
  obtain ⟨-, -, hino, -, -, -⟩ := WFb_spec hwf
  have hmem : (q, j) ∈ fs.entries := mem_of_alookup h
  obtain ⟨d, hd⟩ := Option.isSome_iff_exists.mp (hino _ hmem)
  refine ⟨d, ?_⟩
  unfold FS.lstat
  rw [h]
  dsimp only
  rw [hd]
  rfl

theorem stat_isSome_of_isDirAtB {fs : FS} {t : Path}
    (h : isDirAtB fs t = true) :
    ∃ d, fs.stat t = some d ∧ d.kind = FKind.dir := by
  unfold isDirAtB at h
  cases hs : fs.stat t with
  | none => rw [hs] at h; exact absurd h (by simp)
  | some d =>
    rw [hs] at h
    dsimp only at h
    exact ⟨d, rfl, of_decide_eq_true h⟩

theorem find_isSome_of_stat {fs : FS} {t : Path} {d : InodeData}
    (h : fs.stat t = some d) : (fs.find t).isSome = true := by
  unfold FS.stat FS.lstat at h
  cases hf : fs.find t with
  | none => rw [hf] at h; simp at h
  | some j => simp

/-- In a well-formed filesystem, every nonempty proper prefix of a bound
path is itself bound (as a directory). -/
theorem WFb_ancestor_isSome {fs : FS} (hwf : WFb fs = true)
    {q t : Path} {j : Nat} (hq : fs.find q = some j)
    (hpre : pstarts t q = true) (hne : t ≠ q) (htne : t ≠ []) :
    (fs.find t).isSome = true := by
  obtain ⟨-, -, -, -, hanc, -⟩ := WFb_spec hwf
  have hmem : (q, j) ∈ fs.entries := mem_of_alookup hq
  have hdecomp := eq_append_drop_of_pstarts hpre
  have hlt : t.length < q.length := by
    by_contra hcon
    push_neg at hcon
    have hdl : (q.drop t.length).length = 0 := by
      rw [List.length_drop]; omega
    have hnil : q.drop t.length = [] := List.length_eq_zero.mp hdl
    rw [hnil, List.append_nil] at hdecomp
    exact hne hdecomp.symm
  have htl : 1 ≤ t.length := by
    cases ht : t with
    | nil => exact absurd ht htne
    | cons a b => simp
  have hnmem : t.length - 1 ∈ List.range (q.length - 1) := by
    rw [List.mem_range]; omega
  have hdir := hanc (q, j) hmem (t.length - 1) hnmem
  have htake : q.take (t.length - 1 + 1) = t := by
    have h1 : t.length - 1 + 1 = t.length := by omega
    rw [h1, hdecomp]
    exact List.take_left t _
  rw [htake] at hdir
  obtain ⟨d, hd, -⟩ := stat_isSome_of_isDirAtB hdir
  exact find_isSome_of_stat hd

/-- `touchParent` keeps every non-directory inode's data intact. -/
theorem getIno_touchParent_nondir (fs : FS) (p : Path) {j : Nat}
    {d : InodeData} (hj : fs.getIno j = some d) (hnd : d.kind ≠ FKind.dir) :
    (fs.touchParent p).getIno j = some d := by
  unfold touchParent
  cases hl : fs.lstat p.dropLast with
  | none => exact hj
  | some e =>
    obtain ⟨i, di⟩ := e
    dsimp only
    by_cases hk : di.kind = FKind.dir
    · rw [if_pos hk]
      have hget : fs.getIno i = some di := (lstat_eq_some_iff.mp hl).2
      have hij : i ≠ j := by
        intro hc
        subst hc
        rw [hj] at hget
        injection hget with hget
        rw [← hget] at hk
        exact hnd hk
      rw [getIno_setIno_ne fs i _ j hij]
      exact hj
    · rw [if_neg hk]
      exact hj

/-- `touchParent` keeps every inode present. -/
theorem getIno_touchParent_isSome (fs : FS) (p : Path) {j : Nat}
    (h : (fs.getIno j).isSome = true) :
    ((fs.touchParent p).getIno j).isSome = true := by
  unfold touchParent
  cases hl : fs.lstat p.dropLast with
  | none => exact h
  | some e =>
    obtain ⟨i, di⟩ := e
    dsimp only
    by_cases hk : di.kind = FKind.dir
    · rw [if_pos hk]
      by_cases hij : i = j
      · subst hij
        rw [getIno_setIno_self]
        rfl
      · rw [getIno_setIno_ne fs i _ j hij]
        exact h
    · rw [if_neg hk]
      exact h

theorem lstat_isSome_of_parts {fs : FS} {q : Path} {j : Nat}
    (h1 : fs.find q = some j) (h2 : (fs.getIno j).isSome = true) :
    (fs.lstat q).isSome = true := by
  obtain ⟨d, hd⟩ := Option.isSome_iff_exists.mp h2
  rw [lstat_eq_some_iff.mpr ⟨h1, hd⟩]
  rfl

/-- What a successful `tmpFileName` guarantees: a fresh name of the
candidate shape inside `dir`. -/
theorem tmpFileName_spec {fs : FS} {dir : Path} {base : String} {tmp : Path}
    (h : tmpFileName fs dir base = some tmp) :
    fs.find tmp = none ∧ ∃ k, tmp = tmpNameCand dir base k := by
  unfold tmpFileName at h
  constructor
  · have hp := List.find?_some h
    simpa using hp
  · have hmem := List.mem_of_find?_eq_some h
    obtain ⟨k, hk, hkeq⟩ := List.mem_map.mp hmem
    exact ⟨k, hkeq.symm⟩

theorem tmpNameCand_ne_nil (dir : Path) (base : String) (k : Nat) :
    tmpNameCand dir base k ≠ [] := by
  unfold tmpNameCand
  simp

theorem lstat_isSome_of_stat {fs : FS} {q : Path} {d : InodeData}
    (h : fs.stat q = some d) : (fs.lstat q).isSome = true := by
  unfold FS.stat at h
  cases hl : fs.lstat q with
  | none => rw [hl] at h; simp at h
  | some e => rfl

/-- A successful `copyFileContent` onto a missing destination creates one
fresh file entry there carrying the resolved source content. -/
theorem copyFileContent_ok_state (s : FsSyncer) {fs : FS}
    {srcP dstP : Path} {mode : Nat} {n : Int} {fs' : FS}
    (h : s.copyFileContent fs srcP dstP mode = (.ok n, fs'))
    (hmiss : fs.find dstP = none) (hroot : dstP ≠ []) :
    ∃ isrc dsrc dfin,
      fs.resolve FS.resolveFuel srcP = some (isrc, dsrc) ∧
      fs'.entries = fs.entries ++ [(dstP, fs.nextIno)] ∧
      fs'.find dstP = some fs.nextIno ∧
      fs'.getIno fs.nextIno = some dfin ∧
      dfin.kind = FKind.file ∧ dfin.content = dsrc.content := by
  unfold FsSyncer.copyFileContent at h
  cases hres : fs.resolve FS.resolveFuel srcP with
  | none =>
    rw [hres] at h
    injection h with h1 h2
    exact absurd h1 (by simp)
  | some e =>
    obtain ⟨i, d⟩ := e
    rw [hres] at h
    dsimp only at h
    cases hoc : fs.openCreate dstP mode with
    | error e' =>
      rw [hoc] at h
      injection h with h1 h2
      exact absurd h1 (by simp)
    | ok fs1 =>
      rw [hoc] at h
      dsimp only at h
      by_cases hbuf : s.bufferSize ≤ 0
      · rw [if_pos hbuf] at h
        injection h with h1 h2
        exact absurd h1 (by simp)
      · rw [if_neg hbuf] at h
        by_cases hbad : d.kind = FKind.dir ∨ d.readFails = true
        · rw [if_pos hbad] at h
          injection h with h1 h2
          exact absurd h1 (by simp)
        · rw [if_neg hbad] at h
          cases hw : fs1.write dstP d.content with
          | error e' =>
            rw [hw] at h
            injection h with h1 h2
            exact absurd h1 (by simp)
          | ok fs2 =>
            rw [hw] at h
            injection h with h1 h2
            subst h2
            obtain ⟨hstat1, hfind1⟩ := openCreate_missing_stat hoc hmiss hroot
            have hget1 : fs1.getIno fs.nextIno =
                some { kind := .file, mode := mode,
                       times := { atime := fs.now, mtime := fs.now } } := by
              rw [← stat_eq_getIno_of_find hfind1]
              exact hstat1
            have hlst1 : fs1.lstat dstP = some (fs.nextIno,
                { kind := .file, mode := mode,
                  times := { atime := fs.now, mtime := fs.now } }) :=
              lstat_eq_some_iff.mpr ⟨hfind1, hget1⟩
            have hent1 : fs1.entries = fs.entries ++ [(dstP, fs.nextIno)] := by
              rcases openCreate_cases hoc with ⟨i', d', hl', _, rfl⟩ | ⟨_, _, rfl⟩
              · rw [(lstat_eq_some_iff.mp hl').1] at hmiss
                exact absurd hmiss (by simp)
              · rw [entries_touchParent, entries_addOp]
                rfl
            have hfind2 : fs2.find dstP = some fs.nextIno :=
              (write_find hw dstP).trans hfind1
            have hent2 : fs2.entries = fs.entries ++ [(dstP, fs.nextIno)] := by
              obtain ⟨i3, d3, -, rfl⟩ := write_cases hw
              rw [entries_addOp, entries_setIno]
              exact hent1
            have hstat2 := write_stat_self hw hlst1
            have hget2 := (stat_eq_getIno_of_find hfind2).symm.trans hstat2
            exact ⟨i, d, _, rfl, hent2, hfind2, hget2, rfl, by simp⟩

/-- Renaming a freshly appended entry over an existing non-directory
destination binds the destination to the fresh inode with its data
intact. -/
theorem rename_fresh_onto_existing {fs : FS} {tmp newP : Path} {fs' : FS}
    {ino' : Nat} {d : InodeData} {E : List (Path × Nat)}
    (h : fs.rename tmp newP = .ok fs')
    (hent : fs.entries = E ++ [(tmp, ino')])
    (hold : ∀ e ∈ E, e.1 ≠ tmp)
    (hsub : ∀ e ∈ E, pstarts tmp e.1 = true → e.1 = tmp)
    (hdata : fs.getIno ino' = some d) (hnd : d.kind ≠ FKind.dir)
    (hnewex : (fs.lstat newP).isSome = true)
    (htmpnew : tmp ≠ newP) :
    fs'.find newP = some ino' ∧ fs'.stat newP = some d := by
  obtain ⟨i, od, hlo, hcase⟩ := rename_cases h
  rcases hcase with ⟨jn, nd, hln, hodk, hndk, rfl⟩ | ⟨hln, -, rfl⟩
  · have hsubAll : ∀ e ∈ fs.entries, pstarts tmp e.1 = true → e.1 = tmp := by
      intro e he hp
      rw [hent] at he
      rcases List.mem_append.mp he with h1 | h1
      · exact hsub e h1 hp
      · have h2 : e = (tmp, ino') := by simpa using h1
        rw [h2]
    have hsubf : ∀ e ∈ fs.entries.filter (fun (x : Path × Nat) => x.1 ≠ newP),
        pstarts tmp e.1 = true → e.1 = tmp := by
      intro e he hp
      exact hsubAll e (List.mem_filter.mp he).1 hp
    have hnewf : ∀ e ∈ fs.entries.filter (fun (x : Path × Nat) => x.1 ≠ newP),
        e.1 ≠ newP := by
      intro e he
      have h2 := (List.mem_filter.mp he).2
      simpa using h2
    have hfindX : alookup ((fs.entries.filter
        (fun (x : Path × Nat) => x.1 ≠ newP)).map (moveFn tmp newP)) newP
        = some ino' := by
      rw [alookup_move_new _ tmp newP hsubf hnewf,
          alookup_filter_key_ne _ _ _ htmpnew, hent, alookup_append,
          alookup_eq_none_forall hold]
      simp [alookup]
    have hfind' : (((({ fs with
        entries := (fs.entries.filter
          (fun (x : Path × Nat) => x.1 ≠ newP)).map (moveFn tmp newP)
          } : FS)).addOp (.rename tmp newP)).touchParent newP).find newP
        = some ino' := by
      rw [find_touchParent, find_addOp]
      exact hfindX
    refine ⟨hfind', ?_⟩
    rw [stat_eq_getIno_of_find hfind']
    refine getIno_touchParent_nondir _ newP ?_ hnd
    exact hdata
  · rw [hln] at hnewex
    exact absurd hnewex (by simp)

/-! ### Reduction of `syncExistingFile` to its replacement continuation -/

/-- Default mode with differing size or mtime goes to the replacement
continuation. -/
theorem syncExistingFile_default_differ_eq (s : FsSyncer) (src dst : SyncInfo)
    (c : SyncCtx)
    (hcs : s.checkChecksum = false)
    (hsk : src.data.kind ≠ FKind.dir) (hdk : dst.data.kind ≠ FKind.dir)
    (hne : ¬(src.data.size = dst.data.size ∧
      src.data.times.mtime = dst.data.times.mtime)) :
    s.syncExistingFile src dst c = s.sefCont src dst c := by
  unfold FsSyncer.syncExistingFile
  have hbd : (src.data.kind = FKind.dir ∧ dst.data.kind = FKind.dir) = False :=
    eq_false (fun hc => hsk hc.1)
  have hmis : ((src.data.kind = FKind.dir ∧ dst.data.kind ≠ FKind.dir) ∨
      (src.data.kind ≠ FKind.dir ∧ dst.data.kind = FKind.dir)) = False :=
    eq_false (by rintro (⟨h1, _⟩ | ⟨_, h2⟩); exacts [hsk h1, hdk h2])
  simp only [hbd, hmis, if_false, hcs, Bool.false_eq_true]
  rw [if_neg hne]

/-- A success of `syncExistingFile` that reports a content change came out
of the replacement continuation. -/
theorem syncExistingFile_changed_via_cont (s : FsSyncer) (src dst : SyncInfo)
    (c : SyncCtx) {r : ExistingFileRes} {c' : SyncCtx}
    (hsk : src.data.kind ≠ FKind.dir) (hdk : dst.data.kind ≠ FKind.dir)
    (h : s.syncExistingFile src dst c = (.ok r, c'))
    (hch : r.hasContentChanged = true) :
    s.sefCont src dst c = (.ok r, c') := by
  unfold FsSyncer.syncExistingFile at h
  have hbd : (src.data.kind = FKind.dir ∧ dst.data.kind = FKind.dir) = False :=
    eq_false (fun hc => hsk hc.1)
  have hmis : ((src.data.kind = FKind.dir ∧ dst.data.kind ≠ FKind.dir) ∨
      (src.data.kind ≠ FKind.dir ∧ dst.data.kind = FKind.dir)) = False :=
    eq_false (by rintro (⟨h1, _⟩ | ⟨_, h2⟩); exacts [hsk h1, hdk h2])
  simp only [hbd, hmis, if_false] at h
  cases hcs : s.checkChecksum with
  | true =>
    rw [hcs, if_pos rfl] at h
    cases hsha1 : c.fs.sha1 src.path with
    | error e1 =>
      rw [hsha1] at h
      dsimp only at h
      injection h with h1 h2
      exact absurd h1 (by simp)
    | ok A =>
      rw [hsha1] at h
      dsimp only at h
      cases hsha2 : c.fs.sha1 dst.path with
      | error e2 =>
        rw [hsha2] at h
        dsimp only at h
        injection h with h1 h2
        exact absurd h1 (by simp)
      | ok B =>
        rw [hsha2] at h
        dsimp only at h
        by_cases hAB : A = B
        · rw [if_pos hAB] at h
          injection h with h1 h2
          injection h1 with h1
          rw [← h1] at hch
          exact absurd hch (by decide)
        · rw [if_neg hAB] at h
          exact h
  | false =>
    simp only [hcs, Bool.false_eq_true, if_false] at h
    by_cases heq : src.data.size = dst.data.size ∧
        src.data.times.mtime = dst.data.times.mtime
    · rw [if_pos heq] at h
      injection h with h1 h2
      injection h1 with h1
      rw [← h1] at hch
      exact absurd hch (by decide)
    · rw [if_neg heq] at h
      exact h

/-- An error of `syncExistingFile` on two non-directory counterparts
either left the state untouched (a digest failure) or came out of the
replacement continuation. -/
theorem syncExistingFile_error_cases (s : FsSyncer) (src dst : SyncInfo)
    (c : SyncCtx) {e : SyncErr} {c' : SyncCtx}
    (hsk : src.data.kind ≠ FKind.dir) (hdk : dst.data.kind ≠ FKind.dir)
    (h : s.syncExistingFile src dst c = (.error e, c')) :
    c' = c ∨ s.sefCont src dst c = (.error e, c') := by
  unfold FsSyncer.syncExistingFile at h
  have hbd : (src.data.kind = FKind.dir ∧ dst.data.kind = FKind.dir) = False :=
    eq_false (fun hc => hsk hc.1)
  have hmis : ((src.data.kind = FKind.dir ∧ dst.data.kind ≠ FKind.dir) ∨
      (src.data.kind ≠ FKind.dir ∧ dst.data.kind = FKind.dir)) = False :=
    eq_false (by rintro (⟨h1, _⟩ | ⟨_, h2⟩); exacts [hsk h1, hdk h2])
  simp only [hbd, hmis, if_false] at h
  cases hcs : s.checkChecksum with
  | true =>
    rw [hcs, if_pos rfl] at h
    cases hsha1 : c.fs.sha1 src.path with
    | error e1 =>
      rw [hsha1] at h
      dsimp only at h
      injection h with h1 h2
      exact Or.inl h2.symm
    | ok A =>
      rw [hsha1] at h
      dsimp only at h
      cases hsha2 : c.fs.sha1 dst.path with
      | error e2 =>
        rw [hsha2] at h
        dsimp only at h
        injection h with h1 h2
        exact Or.inl h2.symm
      | ok B =>
        rw [hsha2] at h
        dsimp only at h
        by_cases hAB : A = B
        · rw [if_pos hAB] at h
          injection h with h1 h2
          exact absurd h1 (by simp)
        · rw [if_neg hAB] at h
          exact Or.inr h
  | false =>
    simp only [hcs, Bool.false_eq_true, if_false] at h
    by_cases heq : src.data.size = dst.data.size ∧
        src.data.times.mtime = dst.data.times.mtime
    · rw [if_pos heq] at h
      injection h with h1 h2
      exact absurd h1 (by simp)
    · rw [if_neg heq] at h
      exact Or.inr h

/-- Any error of the replacement continuation leaves the destination
binding and (times apart) its data unchanged: the destination is only ever
touched by the final rename, which is the last step. -/
theorem sefCont_error_preserves (s : FsSyncer) (src dst : SyncInfo)
    (c : SyncCtx) {e : SyncErr} {c' : SyncCtx}
    (hwf : WFb c.fs = true)
    (hnd : src.data.kind ≠ FKind.dir)
    (hex : (c.fs.find dst.path).isSome = true)
    (h : s.sefCont src dst c = (.error e, c')) :
    c'.fs.find dst.path = c.fs.find dst.path ∧
    c'.fs.statNT dst.path = c.fs.statNT dst.path := by
  unfold FsSyncer.sefCont at h
  dsimp only at h
  cases htmp : tmpFileName c.fs dst.path.dropLast (dst.path.getLastD "") with
  | none =>
    rw [htmp] at h
    injection h with h1 h2
    subst h2
    exact ⟨rfl, rfl⟩
  | some tmp =>
    rw [htmp] at h
    dsimp only at h
    obtain ⟨hfresh, -⟩ := tmpFileName_spec htmp
    have htd : tmp ≠ dst.path := by
      intro hcontra
      rw [hcontra] at hfresh
      rw [hfresh] at hex
      exact absurd hex (by simp)
    cases hsuf : s.syncUnexistingFile src { base := dst.base, path := tmp } c with
    | mk rr c1 =>
      rw [hsuf] at h
      cases rr with
      | error e1 =>
        dsimp only at h
        injection h with h1 h2
        subst h2
        obtain ⟨hP, -, -⟩ := syncUnexistingFile_preservesOutside s hsuf hnd hfresh
        obtain ⟨-, -, hfindP, hstatP⟩ := hP
        refine ⟨hfindP dst.path (Ne.symm htd), hstatP dst.path (Ne.symm htd) ?_⟩
        intro j hj
        exact WFb_find_lt hwf hj
      | ok nres =>
        dsimp only at h
        cases hrn : c1.fs.rename tmp dst.path with
        | error e2 =>
          rw [hrn] at h
          dsimp only at h
          injection h with h1 h2
          subst h2
          obtain ⟨hP, -, -⟩ := syncUnexistingFile_preservesOutside s hsuf hnd hfresh
          obtain ⟨-, -, hfindP, hstatP⟩ := hP
          refine ⟨hfindP dst.path (Ne.symm htd), hstatP dst.path (Ne.symm htd) ?_⟩
          intro j hj
          exact WFb_find_lt hwf hj
        | ok fs2 =>
          rw [hrn] at h
          dsimp only at h
          injection h with h1 h2
          exact absurd h1 (by simp)

/-- Any success of the replacement continuation reports a content change,
went through a fresh temporary sibling touched by every new operation
before the final rename, and leaves `inoMap` pointing the source inode at
the destination path. -/
theorem sefCont_ok_shape (s : FsSyncer) (src dst : SyncInfo) (c : SyncCtx)
    {r : ExistingFileRes} {c' : SyncCtx}
    (hnd : src.data.kind ≠ FKind.dir)
    (hex : (c.fs.find dst.path).isSome = true)
    (h : s.sefCont src dst c = (.ok r, c')) :
    ∃ tmp pre, tmp ≠ dst.path ∧ c.fs.find tmp = none ∧
      c'.fs.trace = (c.fs.trace ++ pre) ++ [Op.rename tmp dst.path] ∧
      (∀ o ∈ pre, ∀ q, Op.touches o q = true → q = tmp) ∧
      alookup c'.inoMap src.ino = some dst.path ∧
      r.hasContentChanged = true := by
  unfold FsSyncer.sefCont at h
  dsimp only at h
  cases htmp : tmpFileName c.fs dst.path.dropLast (dst.path.getLastD "") with
  | none =>
    rw [htmp] at h
    injection h with h1 h2
    exact absurd h1 (by simp)
  | some tmp =>
    rw [htmp] at h
    dsimp only at h
    obtain ⟨hfresh, -⟩ := tmpFileName_spec htmp
    have htd : tmp ≠ dst.path := by
      intro hcontra
      rw [hcontra] at hfresh
      rw [hfresh] at hex
      exact absurd hex (by simp)
    cases hsuf : s.syncUnexistingFile src { base := dst.base, path := tmp } c with
    | mk rr c1 =>
      rw [hsuf] at h
      cases rr with
      | error e1 =>
        dsimp only at h
        injection h with h1 h2
        exact absurd h1 (by simp)
      | ok nres =>
        dsimp only at h
        cases hrn : c1.fs.rename tmp dst.path with
        | error e2 =>
          rw [hrn] at h
          dsimp only at h
          injection h with h1 h2
          exact absurd h1 (by simp)
        | ok fs2 =>
          rw [hrn] at h
          dsimp only at h
          injection h with h1 h2
          injection h1 with h1
          obtain ⟨hP, -, -⟩ := syncUnexistingFile_preservesOutside s hsuf hnd hfresh
          obtain ⟨-, ⟨Δ, hΔ, hΔt⟩, -, -⟩ := hP
          refine ⟨tmp, Δ, htd, hfresh, ?_, hΔt, ?_, ?_⟩
          · rw [← h2]
            show fs2.trace = _
            rw [rename_trace hrn, hΔ]
          · rw [← h2]
            show alookup (aset c1.inoMap src.ino dst.path) src.ino = some dst.path
            exact alookup_aset_self _ _ _
          · rw [← h1]

/-- When the source is a regular file whose inode is not yet in `inoMap`,
a successful replacement leaves the destination a regular file carrying
exactly the resolved source content. -/
theorem sefCont_ok_content (s : FsSyncer) (src dst : SyncInfo) (c : SyncCtx)
    {r : ExistingFileRes} {c' : SyncCtx}
    (hwf : WFb c.fs = true)
    (hex : (c.fs.find dst.path).isSome = true)
    (hfile : src.data.kind = FKind.file)
    (hmapmiss : alookup c.inoMap src.ino = none)
    (h : s.sefCont src dst c = (.ok r, c'))
    {isrc : Nat} {dsrc : InodeData}
    (hres : c.fs.resolve FS.resolveFuel src.path = some (isrc, dsrc)) :
    (c'.fs.stat dst.path).map (fun dd => (dd.kind, dd.content)) =
      some (FKind.file, dsrc.content) := by
  unfold FsSyncer.sefCont at h
  dsimp only at h
  cases htmp : tmpFileName c.fs dst.path.dropLast (dst.path.getLastD "") with
  | none =>
    rw [htmp] at h
    injection h with h1 h2
    exact absurd h1 (by simp)
  | some tmp =>
    rw [htmp] at h
    dsimp only at h
    obtain ⟨hfresh, k, hk⟩ := tmpFileName_spec htmp
    have htnil : tmp ≠ [] := by
      rw [hk]
      exact tmpNameCand_ne_nil _ _ _
    have htd : tmp ≠ dst.path := by
      intro hcontra
      rw [hcontra] at hfresh
      rw [hfresh] at hex
      exact absurd hex (by simp)
    cases hsuf : s.syncUnexistingFile src { base := dst.base, path := tmp } c with
    | mk rr c1 =>
      rw [hsuf] at h
      cases rr with
      | error e1 =>
        dsimp only at h
        injection h with h1 h2
        exact absurd h1 (by simp)
      | ok nres =>
        dsimp only at h
        unfold FsSyncer.syncUnexistingFile at hsuf
        rw [hmapmiss] at hsuf
        dsimp only at hsuf
        rw [if_neg (fun hc => by rw [hfile] at hc; exact FKind.noConfusion hc)] at hsuf
        rw [if_neg (fun hc => by rw [hfile] at hc; exact FKind.noConfusion hc)] at hsuf
        cases hcp : s.copyFileContent c.fs src.path tmp src.data.mode with
        | mk cr fsC =>
          rw [hcp] at hsuf
          cases cr with
          | error e2 =>
            dsimp only at hsuf
            injection hsuf with hok hc1
            exact absurd hok (by simp)
          | ok n2 =>
            dsimp only at hsuf
            injection hsuf with hok hc1
            obtain ⟨isrc2, dsrc2, dfin, hres2, hentC, hfindC, hgetC, hkind, hcont⟩ :=
              copyFileContent_ok_state s hcp hfresh htnil
            rw [hres] at hres2
            injection hres2 with hres2
            rw [Prod.mk.injEq] at hres2
            obtain ⟨hieq, hdeq⟩ := hres2
            cases hrn : c1.fs.rename tmp dst.path with
            | error e3 =>
              rw [hrn] at h
              dsimp only at h
              injection h with h1 h2
              exact absurd h1 (by simp)
            | ok fs2 =>
              rw [hrn] at h
              dsimp only at h
              injection h with h1 h2
              have hc1fs : c1.fs = fsC := by rw [← hc1]
              rw [hc1fs] at hrn
              have hold : ∀ e ∈ c.fs.entries, e.1 ≠ tmp :=
                alookup_none_forall hfresh
              have hsub : ∀ e ∈ c.fs.entries, pstarts tmp e.1 = true → e.1 = tmp := by
                intro e he hp
                by_cases heq : e.1 = tmp
                · exact heq
                · exfalso
                  obtain ⟨hnodup, -⟩ := WFb_spec hwf
                  have hfe : c.fs.find e.1 = some e.2 := by
                    show alookup c.fs.entries e.1 = some e.2
                    refine alookup_of_mem_of_nodup hnodup ?_
                    rw [Prod.mk.eta]
                    exact he
                  have hanc := WFb_ancestor_isSome hwf hfe hp
                    (fun hcontra => heq hcontra.symm) htnil
                  rw [hfresh] at hanc
                  exact absurd hanc (by simp)
              have hdnd : dfin.kind ≠ FKind.dir := by
                rw [hkind]
                intro hc
                exact FKind.noConfusion hc
              obtain ⟨j, hj⟩ := Option.isSome_iff_exists.mp hex
              obtain ⟨dd, hdd⟩ := WFb_lstat_of_find hwf hj
              have hPC := copyFileContent_preservesOutside s hcp hfresh
              have hfindCd : fsC.find dst.path = some j := by
                rw [hPC.2.2.1 dst.path (Ne.symm htd)]
                exact hj
              have hgetCd : (fsC.getIno j).isSome = true := by
                have hstatC := hPC.2.2.2 dst.path (Ne.symm htd)
                  (fun j2 hj2 => WFb_find_lt hwf hj2)
                have hsNT : c.fs.statNT dst.path = some dd.sansTimes := by
                  unfold FS.statNT
                  rw [show c.fs.stat dst.path = some dd from by
                    unfold FS.stat
                    rw [hdd]
                    rfl]
                  rfl
                rw [hsNT] at hstatC
                unfold FS.statNT at hstatC
                cases hsC : fsC.stat dst.path with
                | none =>
                  rw [hsC] at hstatC
                  exact absurd hstatC (by simp)
                | some ddC =>
                  rw [stat_eq_getIno_of_find hfindCd] at hsC
                  rw [hsC]
                  rfl
              have hlstC : (fsC.lstat dst.path).isSome = true :=
                lstat_isSome_of_parts hfindCd hgetCd
              obtain ⟨hfin2, hstat2⟩ :=
                rename_fresh_onto_existing hrn hentC hold hsub hgetC hdnd hlstC htd
              rw [← h2]
              show (fs2.stat dst.path).map _ = _
              rw [hstat2]
              simp only [Option.map_some']
              rw [hkind, hcont, ← hdeq]

theorem mem_reportMark_self (r : List Path) (p : Path) :
    p ∈ reportMark r p := by
  unfold reportMark
  by_cases h : p ∈ r
  · rw [if_pos h]
    exact h
  · rw [if_neg h]
    exact List.mem_append.mpr (Or.inr (List.mem_singleton.mpr rfl))

/-! ### Claim C2 (atomic replacement through a temporary sibling) -/

/-- Claim C2: when the change detector decides content differs (a success
of `syncExistingFile` on two existing non-directory counterparts that
reports `hasContentChanged`), the replacement went through a fresh
temporary sibling: every new operation before the final rename touches
only that temporary path, so an observer of the destination path sees the
old binding until the one atomic rename; on any error the destination's
binding and (timestamps apart) its data are unchanged; after the rename
`inoMap[src.ino]` holds the final destination path (corrected from the
temporary one), and for a regular-file source not yet in `inoMap` the
destination carries exactly the resolved source content. -/
theorem C2_atomic_replace (s : FsSyncer) (src dst : SyncInfo) (c : SyncCtx)
    (hwf : WFb c.fs = true)
    (hsk : src.data.kind ≠ FKind.dir) (hdk : dst.data.kind ≠ FKind.dir)
    (hex : (c.fs.find dst.path).isSome = true) :
    (∀ e c', s.syncExistingFile src dst c = (.error e, c') →
      c'.fs.find dst.path = c.fs.find dst.path ∧
      c'.fs.statNT dst.path = c.fs.statNT dst.path) ∧
    (∀ r c', s.syncExistingFile src dst c = (.ok r, c') →
      r.hasContentChanged = true →
      ∃ tmp pre, tmp ≠ dst.path ∧ c.fs.find tmp = none ∧
        c'.fs.trace = (c.fs.trace ++ pre) ++ [Op.rename tmp dst.path] ∧
        (∀ o ∈ pre, ∀ q, Op.touches o q = true → q = tmp) ∧
        alookup c'.inoMap src.ino = some dst.path) ∧
    (∀ r c', s.syncExistingFile src dst c = (.ok r, c') →
      r.hasContentChanged = true →
      src.data.kind = FKind.file →
      alookup c.inoMap src.ino = none →
      ∀ isrc dsrc, c.fs.resolve FS.resolveFuel src.path = some (isrc, dsrc) →
        (c'.fs.stat dst.path).map (fun dd => (dd.kind, dd.content)) =
          some (FKind.file, dsrc.content)) := by
  refine ⟨?_, ?_, ?_⟩
  · intro e c' h
    rcases syncExistingFile_error_cases s src dst c hsk hdk h with rfl | hc
    · exact ⟨rfl, rfl⟩
    · exact sefCont_error_preserves s src dst c hwf hsk hex hc
  · intro r c' h hch
    obtain ⟨tmp, pre, h1, h2, h3, h4, h5, -⟩ :=
      sefCont_ok_shape s src dst c hsk hex
        (syncExistingFile_changed_via_cont s src dst c hsk hdk h hch)
    exact ⟨tmp, pre, h1, h2, h3, h4, h5⟩
  · intro r c' h hch hfile hmiss isrc dsrc hres
    exact sefCont_ok_content s src dst c hwf hex hfile hmiss
      (syncExistingFile_changed_via_cont s src dst c hsk hdk h hch) hres

/-- Witness for claim C2 at the same-content fixture (a real replacement:
same bytes but different mtimes in default mode). -/
theorem C2_atomic_replace_witness :
    WFb ctxSame.fs = true ∧
    srcInfoSame.data.kind ≠ FKind.dir ∧
    dstInfoSame.data.kind ≠ FKind.dir ∧
    (ctxSame.fs.find dstInfoSame.path).isSome = true ∧
    (∀ r c', syncerDefault.syncExistingFile srcInfoSame dstInfoSame ctxSame =
        (.ok r, c') →
      r.hasContentChanged = true →
      ∃ tmp pre, tmp ≠ dstInfoSame.path ∧ ctxSame.fs.find tmp = none ∧
        c'.fs.trace = (ctxSame.fs.trace ++ pre) ++
          [Op.rename tmp dstInfoSame.path] ∧
        (∀ o ∈ pre, ∀ q, Op.touches o q = true → q = tmp) ∧
        alookup c'.inoMap srcInfoSame.ino = some dstInfoSame.path) :=
  ⟨by decide, by decide, by decide, by decide,
   (C2_atomic_replace syncerDefault srcInfoSame dstInfoSame ctxSame
     (by decide) (by decide) (by decide) (by decide)).2.1⟩

/-! ### Claim C4 (default-mode change detection) -/

/-- Claim C4: in default mode, for two existing non-directory counterparts
with detailed stat data, bit-exact equal size and mtime means the walk
step does nothing at all (identical context back: no content touched, no
times scheduled, nothing reported); differing size or mtime means every
success of the walk step reported the destination path as changed and
performed the atomic replacement (a rename onto the destination path). -/
theorem C4_default_detector (s : FsSyncer) (src dst : Path) (c : SyncCtx)
    (p : Path) {ino dino : Nat} {info dinfo : InodeData}
    (hcs : s.checkChecksum = false) (hown : s.preserveOwnership = false)
    (hs : c.fs.lstat p = some (ino, info)) (hsys : info.sysOk = true)
    (hkind : info.kind ≠ FKind.dir)
    (hd : c.fs.lstat (replacePrefix p src dst) = some (dino, dinfo))
    (hdsys : dinfo.sysOk = true) (hdkind : dinfo.kind ≠ FKind.dir) :
    (info.size = dinfo.size ∧ info.times.mtime = dinfo.times.mtime →
      s.walkStep src dst c p = (.ok (), c)) ∧
    (¬(info.size = dinfo.size ∧ info.times.mtime = dinfo.times.mtime) →
      ∀ c', s.walkStep src dst c p = (.ok (), c') →
        (replacePrefix p src dst) ∈ c'.report ∧
        ∃ tmp, tmp ≠ replacePrefix p src dst ∧
          Op.rename tmp (replacePrefix p src dst) ∈ c'.fs.trace) := by
  constructor
  · intro heq
    unfold FsSyncer.walkStep
    rw [hs]
    dsimp only
    rw [hsys]
    simp only [not_true, if_false]
    rw [hd]
    dsimp only
    rw [hdsys]
    simp only [not_true, if_false]
    rw [syncExistingFile_default_equal s _ _ c hcs
      (by dsimp only; exact hkind) (by dsimp only; exact hdkind)
      (by dsimp only; exact heq.1) (by dsimp only; exact heq.2)]
    dsimp only
    simp only [Bool.false_eq_true, if_false]
    rw [hown]
    simp only [Bool.false_eq_true, if_false]
  · intro hne c' hstep
    unfold FsSyncer.walkStep at hstep
    rw [hs] at hstep
    dsimp only at hstep
    rw [hsys] at hstep
    simp only [not_true, if_false] at hstep
    rw [hd] at hstep
    dsimp only at hstep
    rw [hdsys] at hstep
    simp only [not_true, if_false] at hstep
    cases hse : s.syncExistingFile { base := src, path := p, ino := ino, data := info }
        { base := dst, path := replacePrefix p src dst, ino := 0, data := dinfo } c with
    | mk u1 c1 =>
      rw [hse] at hstep
      cases u1 with
      | error e1 =>
        dsimp only at hstep
        injection hstep with h1 h2
        exact absurd h1 (by simp)
      | ok res =>
        dsimp only at hstep
        have hcont := (syncExistingFile_default_differ_eq s
          { base := src, path := p, ino := ino, data := info }
          { base := dst, path := replacePrefix p src dst, ino := 0, data := dinfo }
          c hcs (by dsimp only; exact hkind) (by dsimp only; exact hdkind)
          (by dsimp only; exact hne)).symm.trans hse
        obtain ⟨tmp, pre, htmpne, hfresh, htrace, hpres, hino, hch⟩ :=
          sefCont_ok_shape s _ _ c (by dsimp only; exact hkind)
            (by rw [show c.fs.find (replacePrefix p src dst) = some dino from
                (lstat_eq_some_iff.mp hd).1]; rfl) hcont
        have hmem : Op.rename tmp (replacePrefix p src dst) ∈ c1.fs.trace := by
          rw [htrace]
          exact List.mem_append.mpr (Or.inr (List.mem_singleton.mpr rfl))
        by_cases hsut : res.shouldUpdateTimes = true
        · rw [if_pos hsut, if_pos hch] at hstep
          rw [hown] at hstep
          simp only [Bool.false_eq_true, if_false] at hstep
          injection hstep with h1 h2
          rw [← h2]
          exact ⟨mem_reportMark_self _ _, tmp, htmpne, hmem⟩
        · rw [if_neg hsut, if_pos hch] at hstep
          rw [hown] at hstep
          simp only [Bool.false_eq_true, if_false] at hstep
          injection hstep with h1 h2
          rw [← h2]
          exact ⟨mem_reportMark_self _ _, tmp, htmpne, hmem⟩

/-- Witness for claim C4 at the same-content fixture (equal sizes,
different mtimes): the hypotheses hold, the fixture falls in the
differing-mtime branch, and the theorem applies. -/
theorem C4_default_detector_witness :
    syncerDefault.checkChecksum = false ∧
    ctxSame.fs.lstat ["s", "a"] = some (1, fileD [7, 8] 6) ∧
    ctxSame.fs.lstat ["d", "a"] = some (3, fileD [7, 8] 77) ∧
    ¬((fileD [7, 8] 6).size = (fileD [7, 8] 77).size ∧
      (fileD [7, 8] 6).times.mtime = (fileD [7, 8] 77).times.mtime) ∧
    (∀ c', syncerDefault.walkStep ["s"] ["d"] ctxSame ["s", "a"] =
        (.ok (), c') →
      ["d", "a"] ∈ c'.report ∧
      ∃ tmp, tmp ≠ ["d", "a"] ∧ Op.rename tmp ["d", "a"] ∈ c'.fs.trace) :=
  ⟨by decide, by decide, by decide, by decide,
   (@C4_default_detector syncerDefault ["s"] ["d"] ctxSame ["s", "a"]
     1 3 (fileD [7, 8] 6) (fileD [7, 8] 77)
     (by decide) (by decide) (by decide) (by decide) (by decide)
     (by decide) (by decide) (by decide)).2 (by decide)⟩

/-! ### List-splitting lemmas for trace ordering -/

/-- An occurrence that cannot lie in the prefix `X` lies in the suffix. -/
theorem split_in_suffix {α : Type} (P : α → Prop) :
    ∀ (X : List α) {Y T1 T2 : List α} {o : α},
      X ++ Y = T1 ++ o :: T2 → (∀ x ∈ X, P x) → ¬ P o →
      ∃ Y1 Y2, Y = Y1 ++ o :: Y2 ∧ T1 = X ++ Y1 := by
  intro X
  induction X with
  | nil =>
    intro Y T1 T2 o hL hX ho
    exact ⟨T1, T2, by simpa using hL, by simp⟩
  | cons a X ih =>
    intro Y T1 T2 o hL hX ho
    cases T1 with
    | nil =>
      rw [List.cons_append, List.nil_append] at hL
      injection hL with h1 h2
      exact absurd (h1 ▸ hX a (List.mem_cons_self a X)) ho
    | cons b T1 =>
      rw [List.cons_append, List.cons_append] at hL
      injection hL with h1 h2
      obtain ⟨Y1, Y2, hY, hT⟩ := ih h2
        (fun x hx => hX x (List.mem_cons_of_mem _ hx)) ho
      refine ⟨Y1, Y2, hY, ?_⟩
      rw [hT, h1]
      rfl

/-- An occurrence that cannot lie in the suffix `Y` lies in the prefix. -/
theorem split_in_prefix {α : Type} (P : α → Prop) :
    ∀ (T1 : List α) {X Y T2 : List α} {o : α},
      X ++ Y = T1 ++ o :: T2 → (∀ y ∈ Y, P y) → ¬ P o →
      ∃ X2, X = T1 ++ o :: X2 ∧ T2 = X2 ++ Y := by
  intro T1
  induction T1 with
  | nil =>
    intro X Y T2 o hL hY ho
    cases X with
    | nil =>
      rw [List.nil_append, List.nil_append] at hL
      refine absurd (hY o ?_) ho
      rw [hL]
      exact List.mem_cons_self o T2
    | cons a X =>
      rw [List.cons_append, List.nil_append] at hL
      injection hL with h1 h2
      subst h1
      exact ⟨X, rfl, h2.symm⟩
  | cons b T1 ih =>
    intro X Y T2 o hL hY ho
    cases X with
    | nil =>
      rw [List.nil_append, List.cons_append] at hL
      refine absurd (hY o ?_) ho
      rw [hL]
      exact List.mem_cons_of_mem _
        (List.mem_append.mpr (Or.inr (List.mem_cons_self o T2)))
    | cons a X =>
      rw [List.cons_append, List.cons_append] at hL
      injection hL with h1 h2
      obtain ⟨X2, hX, hT⟩ := ih h2 hY ho
      subst h1
      refine ⟨X2, ?_, hT⟩
      rw [hX]
      rfl

/-- Where a decomposition of `A ++ [x]` puts its distinguished element:
either it is the final `x`, or it sits inside `A`. -/
theorem append_singleton_cases {α : Type} :
    ∀ (P : List α) {A Q : List α} {x y : α},
      A ++ [x] = P ++ y :: Q →
      (Q = [] ∧ y = x ∧ A = P) ∨
      (∃ Q2, Q = Q2 ++ [x] ∧ A = P ++ y :: Q2) := by
  intro P
  induction P with
  | nil =>
    intro A Q x y hL
    rw [List.nil_append] at hL
    cases A with
    | nil =>
      rw [List.nil_append] at hL
      injection hL with h1 h2
      exact Or.inl ⟨h2.symm, h1.symm, rfl⟩
    | cons a A =>
      rw [List.cons_append] at hL
      injection hL with h1 h2
      subst h1
      exact Or.inr ⟨A, h2.symm, rfl⟩
  | cons b P ih =>
    intro A Q x y hL
    cases A with
    | nil =>
      rw [List.nil_append, List.cons_append] at hL
      injection hL with h1 h2
      simp at h2
    | cons a A =>
      rw [List.cons_append, List.cons_append] at hL
      injection hL with h1 h2
      subst h1
      rcases ih h2 with ⟨hQ, hy, hA⟩ | ⟨Q2, hQ, hA⟩
      · exact Or.inl ⟨hQ, hy, by rw [hA]⟩
      · refine Or.inr ⟨Q2, hQ, ?_⟩
        rw [hA]
        rfl

/-! ### The children-before-parents invariant of the deletion phases -/

theorem remove_entries {fs : FS} {p : Path} {fs' : FS}
    (h : fs.remove p = .ok fs') :
    fs'.entries = fs.entries.filter (fun e => e.1 ≠ p) := by
  obtain ⟨-, -, rfl⟩ := remove_cases h
  rw [entries_touchParent, entries_addOp]

/-- A successful `remove` extends a clean, well-ordered removal sequence
into a clean, well-ordered removal sequence. -/
theorem remove_extend_invariant {fs fs' : FS} {r : Path}
    (h : fs.remove r = .ok fs') {Δ : List Op}
    (I3 : RemovesClean fs Δ) (I4 : PairOKd Δ) :
    fs'.trace = fs.trace ++ [Op.remove r] ∧
    RemovesClean fs' (Δ ++ [Op.remove r]) ∧
    PairOKd (Δ ++ [Op.remove r]) := by
  obtain ⟨hls, hany, -⟩ := remove_cases h
  have hent := remove_entries h
  have hsubset : ∀ e, e ∈ fs'.entries → e ∈ fs.entries := by
    intro e he
    rw [hent] at he
    exact (List.mem_filter.mp he).1
  have hrmem : ∃ ir, (r, ir) ∈ fs.entries := by
    obtain ⟨e0, he0⟩ := Option.isSome_iff_exists.mp hls
    obtain ⟨i0, d0⟩ := e0
    exact ⟨i0, mem_of_alookup (lstat_eq_some_iff.mp he0).1⟩
  refine ⟨remove_trace h, ?_, ?_⟩
  · intro p hp e he hpe
    rcases List.mem_append.mp hp with hp | hp
    · exact I3 p hp e (hsubset e he) hpe
    · rw [List.mem_singleton] at hp
      injection hp with hp
      subst hp
      rw [hent] at he
      have hmem := (List.mem_filter.mp he).1
      have hneq : e.1 ≠ p := by simpa using (List.mem_filter.mp he).2
      exfalso
      have hx : fs.entries.any (fun e => e.1 ≠ p ∧ pstarts p e.1) = true := by
        rw [List.any_eq_true]
        refine ⟨e, hmem, ?_⟩
        simp only [decide_eq_true_eq]
        exact ⟨hneq, hpe⟩
      rw [hany] at hx
      exact absurd hx (by simp)
  · intro U1 U2 U3 p q hdec hpq
    have hdec' : Δ ++ [Op.remove r] =
        (U1 ++ Op.remove p :: U2) ++ Op.remove q :: U3 := by
      rw [hdec]
    rcases append_singleton_cases _ hdec' with ⟨hU3, hqr, hΔ⟩ | ⟨Q2, hU3, hΔ⟩
    · injection hqr with hqr
      subst hqr
      obtain ⟨ir, hir⟩ := hrmem
      have hpin : Op.remove p ∈ Δ := by
        rw [hΔ]
        exact List.mem_append.mpr (Or.inr (List.mem_cons_self _ _))
      exact (I3 p hpin (q, ir) hir hpq).symm
    · have hΔ2 : Δ = U1 ++ Op.remove p :: U2 ++ Op.remove q :: Q2 := by
        rw [hΔ]
      exact I4 U1 U2 Q2 p q hΔ2 hpq

/-- One phase-B step either leaves the filesystem untouched or performs a
single successful `remove`. -/
theorem phaseBStep_cases (src dst : Path) (c : SyncCtx) (dirs : List Path)
    (q : Path) {u : Except SyncErr Unit} {c1 : SyncCtx} {dirs1 : List Path}
    (h : phaseBStep src dst c dirs q = (u, c1, dirs1)) :
    c1.fs = c.fs ∨ ∃ fs', c.fs.remove q = .ok fs' ∧ c1.fs = fs' := by
  unfold phaseBStep at h
  dsimp only at h
  cases hls : c.fs.lstat (replacePrefix q dst src) with
  | some e =>
    rw [hls] at h
    dsimp only at h
    injection h with h1 h2
    injection h2 with h2 h3
    exact Or.inl (by rw [← h2])
  | none =>
    rw [hls] at h
    dsimp only at h
    cases hst : c.fs.stat q with
    | none =>
      rw [hst] at h
      dsimp only at h
      injection h with h1 h2
      injection h2 with h2 h3
      exact Or.inl (by rw [← h2])
    | some d =>
      rw [hst] at h
      dsimp only at h
      by_cases hdir : d.kind = FKind.dir
      · rw [if_pos hdir] at h
        injection h with h1 h2
        injection h2 with h2 h3
        exact Or.inl (by rw [← h2])
      · rw [if_neg hdir] at h
        cases hrm : c.fs.remove q with
        | error e1 =>
          rw [hrm] at h
          dsimp only at h
          injection h with h1 h2
          injection h2 with h2 h3
          exact Or.inl (by rw [← h2])
        | ok fs' =>
          rw [hrm] at h
          dsimp only at h
          injection h with h1 h2
          injection h2 with h2 h3
          exact Or.inr ⟨fs', rfl, by rw [← h2]⟩

/-- Phase B's destination walk only removes entries, cleanly and in
children-before-parents order, whatever its outcome. -/
theorem phaseBFold_invariant (src dst : Path) :
    ∀ (ps : List Path) (c : SyncCtx) (dirs : List Path) (Δ T0 : List Op),
      c.fs.trace = T0 ++ Δ →
      (∀ o ∈ Δ, ∃ p, o = Op.remove p) →
      RemovesClean c.fs Δ → PairOKd Δ →
      ∃ Δ2, (phaseBFold src dst ps c dirs).2.1.fs.trace = T0 ++ Δ2 ∧
        (∀ o ∈ Δ2, ∃ p, o = Op.remove p) ∧
        RemovesClean (phaseBFold src dst ps c dirs).2.1.fs Δ2 ∧
        PairOKd Δ2 := by
  intro ps
  induction ps with
  | nil =>
    intro c dirs Δ T0 h1 h2 h3 h4
    exact ⟨Δ, h1, h2, h3, h4⟩
  | cons q ps ih =>
    intro c dirs Δ T0 h1 h2 h3 h4
    have heq : phaseBFold src dst (q :: ps) c dirs =
        match phaseBStep src dst c dirs q with
        | (.error e, c', dirs') => (.error e, c', dirs')
        | (.ok _, c', dirs') => phaseBFold src dst ps c' dirs' := rfl
    rw [heq]
    cases hstep : phaseBStep src dst c dirs q with
    | mk u cd =>
      obtain ⟨c1, dirs1⟩ := cd
      rcases phaseBStep_cases src dst c dirs q hstep with hsame | ⟨fs', hrm, hfs1⟩
      · cases u with
        | error e =>
          dsimp only
          exact ⟨Δ, by rw [hsame, h1], h2, by rw [hsame]; exact h3, h4⟩
        | ok uu =>
          dsimp only
          exact ih c1 dirs1 Δ T0 (by rw [hsame, h1]) h2
            (by rw [hsame]; exact h3) h4
      · obtain ⟨htr2, hclean2, hpair2⟩ := remove_extend_invariant hrm h3 h4
        have h1n : c1.fs.trace = T0 ++ (Δ ++ [Op.remove q]) := by
          rw [hfs1, htr2, h1, List.append_assoc]
        have h2n : ∀ o ∈ Δ ++ [Op.remove q], ∃ p, o = Op.remove p := by
          intro o ho
          rcases List.mem_append.mp ho with ho | ho
          · exact h2 o ho
          · rw [List.mem_singleton] at ho
            exact ⟨q, ho⟩
        have h3n : RemovesClean c1.fs (Δ ++ [Op.remove q]) := by
          rw [hfs1]
          exact hclean2
        cases u with
        | error e =>
          dsimp only
          exact ⟨Δ ++ [Op.remove q], h1n, h2n, h3n, hpair2⟩
        | ok uu =>
          dsimp only
          exact ih c1 dirs1 (Δ ++ [Op.remove q]) T0 h1n h2n h3n hpair2

/-- The deferred directory deletions only remove entries, cleanly and in
children-before-parents order, whatever the outcome. -/
theorem removeDirsFold_invariant :
    ∀ (ds : List Path) (c : SyncCtx) (Δ T0 : List Op),
      c.fs.trace = T0 ++ Δ →
      (∀ o ∈ Δ, ∃ p, o = Op.remove p) →
      RemovesClean c.fs Δ → PairOKd Δ →
      ∃ Δ2, (removeDirsFold ds c).2.fs.trace = T0 ++ Δ2 ∧
        (∀ o ∈ Δ2, ∃ p, o = Op.remove p) ∧
        RemovesClean (removeDirsFold ds c).2.fs Δ2 ∧
        PairOKd Δ2 := by
  intro ds
  induction ds with
  | nil =>
    intro c Δ T0 h1 h2 h3 h4
    exact ⟨Δ, h1, h2, h3, h4⟩
  | cons d ds ih =>
    intro c Δ T0 h1 h2 h3 h4
    have heq : removeDirsFold (d :: ds) c =
        match c.fs.remove d with
        | .error _ => (.error (.failure "fail to delete"), c)
        | .ok fs' => removeDirsFold ds { c with fs := fs' } := rfl
    rw [heq]
    cases hrm : c.fs.remove d with
    | error e1 =>
      dsimp only
      exact ⟨Δ, h1, h2, h3, h4⟩
    | ok fs' =>
      dsimp only
      obtain ⟨htr2, hclean2, hpair2⟩ := remove_extend_invariant hrm h3 h4
      refine ih { c with fs := fs' } (Δ ++ [Op.remove d]) T0 ?_ ?_ hclean2 hpair2
      · show fs'.trace = _
        rw [htr2, h1, List.append_assoc]
      · intro o ho
        rcases List.mem_append.mp ho with ho | ho
        · exact h2 o ho
        · rw [List.mem_singleton] at ho
          exact ⟨d, ho⟩

/-! ### Phase A performs no `remove` and no `chtimes` -/

theorem trace_delta_nil (fs : FS) :
    ∃ Δ, fs.trace = fs.trace ++ Δ ∧ ∀ o ∈ Δ, phaseAOp o = true :=
  ⟨[], (List.append_nil _).symm, fun o ho => absurd ho (List.not_mem_nil o)⟩

theorem forall_mem_singleton_phaseA {o0 : Op} (h : phaseAOp o0 = true) :
    ∀ o ∈ [o0], phaseAOp o = true := by
  intro o ho
  rw [List.mem_singleton] at ho
  subst ho
  exact h

theorem mkdirOne_trace (fs : FS) (q : Path) (m : Nat) :
    (fs.mkdirOne q m).trace = fs.trace ++ [Op.mkdir q] := by
  unfold mkdirOne
  rw [trace_touchParent, trace_addOp, trace_alloc]

theorem mkdirAll_go_trace (p : Path) (m : Nat) :
    ∀ (ns : List Nat) (fs : FS),
      ∃ Δ, (FS.mkdirAll.go p m fs ns).2.trace = fs.trace ++ Δ ∧
        ∀ o ∈ Δ, phaseAOp o = true := by
  intro ns
  induction ns with
  | nil =>
    intro fs
    exact trace_delta_nil fs
  | cons n rest ih =>
    intro fs
    have heq : FS.mkdirAll.go p m fs (n :: rest) =
        match fs.stat (p.take (n + 1)) with
        | some d =>
          if d.kind = FKind.dir then FS.mkdirAll.go p m fs rest
          else (.error (.failure "not a directory"), fs)
        | none => FS.mkdirAll.go p m (fs.mkdirOne (p.take (n + 1)) m) rest := rfl
    rw [heq]
    cases hst : fs.stat (p.take (n + 1)) with
    | some d =>
      dsimp only
      by_cases hk : d.kind = FKind.dir
      · rw [if_pos hk]
        exact ih fs
      · rw [if_neg hk]
        exact trace_delta_nil fs
    | none =>
      dsimp only
      obtain ⟨Δ, h1, h2⟩ := ih (fs.mkdirOne (p.take (n + 1)) m)
      refine ⟨Op.mkdir (p.take (n + 1)) :: Δ, ?_, ?_⟩
      · rw [h1, mkdirOne_trace, List.append_assoc]
        rfl
      · intro o ho
        rcases List.mem_cons.mp ho with rfl | ho
        · rfl
        · exact h2 o ho

theorem mkdirAll_trace (fs : FS) (p : Path) (m : Nat) :
    ∃ Δ, (fs.mkdirAll p m).2.trace = fs.trace ++ Δ ∧
      ∀ o ∈ Δ, phaseAOp o = true :=
  mkdirAll_go_trace p m (List.range p.length) fs

theorem copyFileContent_trace (s : FsSyncer) {fs : FS}
    {srcP dstP : Path} {mode : Nat} {r : Except SyncErr Int} {fs' : FS}
    (h : s.copyFileContent fs srcP dstP mode = (r, fs')) :
    ∃ Δ, fs'.trace = fs.trace ++ Δ ∧ ∀ o ∈ Δ, phaseAOp o = true := by
  unfold FsSyncer.copyFileContent at h
  cases hres : fs.resolve FS.resolveFuel srcP with
  | none =>
    rw [hres] at h
    injection h with h1 h2
    subst h2
    exact trace_delta_nil fs
  | some e =>
    obtain ⟨i, d⟩ := e
    rw [hres] at h
    dsimp only at h
    cases hoc : fs.openCreate dstP mode with
    | error e1 =>
      rw [hoc] at h
      injection h with h1 h2
      subst h2
      exact trace_delta_nil fs
    | ok fs1 =>
      rw [hoc] at h
      dsimp only at h
      by_cases hbuf : s.bufferSize ≤ 0
      · rw [if_pos hbuf] at h
        injection h with h1 h2
        subst h2
        exact ⟨[Op.create dstP], openCreate_trace hoc,
          forall_mem_singleton_phaseA rfl⟩
      · rw [if_neg hbuf] at h
        by_cases hbad : d.kind = FKind.dir ∨ d.readFails = true
        · rw [if_pos hbad] at h
          injection h with h1 h2
          subst h2
          exact ⟨[Op.create dstP], openCreate_trace hoc,
            forall_mem_singleton_phaseA rfl⟩
        · rw [if_neg hbad] at h
          cases hw : fs1.write dstP d.content with
          | error e2 =>
            rw [hw] at h
            injection h with h1 h2
            subst h2
            exact ⟨[Op.create dstP], openCreate_trace hoc,
              forall_mem_singleton_phaseA rfl⟩
          | ok fs2 =>
            rw [hw] at h
            injection h with h1 h2
            subst h2
            refine ⟨[Op.create dstP, Op.write dstP], ?_, ?_⟩
            · rw [write_trace hw, openCreate_trace hoc, List.append_assoc]
              rfl
            · intro o ho
              rcases List.mem_cons.mp ho with rfl | ho
              · rfl
              · rw [List.mem_singleton] at ho
                subst ho
                rfl

theorem syncUnexistingFile_trace (s : FsSyncer) {src dst : SyncInfo}
    {c : SyncCtx} {r : Except SyncErr UnexistingFileRes} {c' : SyncCtx}
    (h : s.syncUnexistingFile src dst c = (r, c')) :
    ∃ Δ, c'.fs.trace = c.fs.trace ++ Δ ∧ ∀ o ∈ Δ, phaseAOp o = true := by
  unfold FsSyncer.syncUnexistingFile at h
  cases hhit : alookup c.inoMap src.ino with
  | some q0 =>
    rw [hhit] at h
    dsimp only at h
    cases hl : c.fs.link q0 dst.path with
    | error e1 =>
      rw [hl] at h
      injection h with h1 h2
      subst h2
      exact trace_delta_nil c.fs
    | ok fs1 =>
      rw [hl] at h
      injection h with h1 h2
      subst h2
      exact ⟨[Op.link q0 dst.path], link_trace hl,
        forall_mem_singleton_phaseA rfl⟩
  | none =>
    rw [hhit] at h
    dsimp only at h
    by_cases hdir : src.data.kind = FKind.dir
    · rw [if_pos hdir] at h
      cases hmk : c.fs.mkdirAll dst.path src.data.mode with
      | mk mu mfs =>
        rw [hmk] at h
        obtain ⟨Δ, h1, h2⟩ := mkdirAll_trace c.fs dst.path src.data.mode
        rw [hmk] at h1
        cases mu with
        | error e1 =>
          dsimp only at h
          injection h with h1' h2'
          subst h2'
          exact ⟨Δ, h1, h2⟩
        | ok uu =>
          dsimp only at h
          injection h with h1' h2'
          subst h2'
          exact ⟨Δ, h1, h2⟩
    · rw [if_neg hdir] at h
      by_cases hsym : src.data.kind = FKind.symlink
      · rw [if_pos hsym] at h
        cases hrl : c.fs.readlink src.path with
        | error e1 =>
          rw [hrl] at h
          injection h with h1 h2
          subst h2
          exact trace_delta_nil c.fs
        | ok linkDst =>
          rw [hrl] at h
          dsimp only at h
          cases hsl : c.fs.symlink dst.path
              (if containsOcc linkDst src.base then
                replaceOcc linkDst src.base dst.base
               else linkDst) with
          | error e1 =>
            rw [hsl] at h
            injection h with h1 h2
            subst h2
            exact trace_delta_nil c.fs
          | ok fs1 =>
            rw [hsl] at h
            injection h with h1 h2
            subst h2
            exact ⟨[Op.symlink dst.path], symlink_trace hsl,
              forall_mem_singleton_phaseA rfl⟩
      · rw [if_neg hsym] at h
        cases hcp : s.copyFileContent c.fs src.path dst.path src.data.mode with
        | mk cr fsC =>
          rw [hcp] at h
          cases cr with
          | error e1 =>
            dsimp only at h
            injection h with h1 h2
            subst h2
            exact copyFileContent_trace s hcp
          | ok nn =>
            dsimp only at h
            injection h with h1 h2
            subst h2
            exact copyFileContent_trace s hcp

theorem sefCont_trace (s : FsSyncer) {src dst : SyncInfo} {c : SyncCtx}
    {r : Except SyncErr ExistingFileRes} {c' : SyncCtx}
    (h : s.sefCont src dst c = (r, c')) :
    ∃ Δ, c'.fs.trace = c.fs.trace ++ Δ ∧ ∀ o ∈ Δ, phaseAOp o = true := by
  unfold FsSyncer.sefCont at h
  dsimp only at h
  cases htmp : tmpFileName c.fs dst.path.dropLast (dst.path.getLastD "") with
  | none =>
    rw [htmp] at h
    injection h with h1 h2
    subst h2
    exact trace_delta_nil c.fs
  | some tmp =>
    rw [htmp] at h
    dsimp only at h
    cases hsuf : s.syncUnexistingFile src { base := dst.base, path := tmp } c with
    | mk rr c1 =>
      rw [hsuf] at h
      cases rr with
      | error e1 =>
        dsimp only at h
        injection h with h1 h2
        subst h2
        exact syncUnexistingFile_trace s hsuf
      | ok nres =>
        dsimp only at h
        cases hrn : c1.fs.rename tmp dst.path with
        | error e2 =>
          rw [hrn] at h
          dsimp only at h
          injection h with h1 h2
          subst h2
          exact syncUnexistingFile_trace s hsuf
        | ok fs2 =>
          rw [hrn] at h
          dsimp only at h
          injection h with h1 h2
          subst h2
          obtain ⟨Δ, h1', h2'⟩ := syncUnexistingFile_trace s hsuf
          refine ⟨Δ ++ [Op.rename tmp dst.path], ?_, ?_⟩
          · show fs2.trace = _
            rw [rename_trace hrn, h1', List.append_assoc]
          · intro o ho
            rcases List.mem_append.mp ho with ho | ho
            · exact h2' o ho
            · rw [List.mem_singleton] at ho
              subst ho
              rfl

/-- The common tail of `syncExistingFile` below the type-mismatch
handling: digest or metadata comparison, then possibly the replacement
continuation. -/
theorem sef_tail_trace (s : FsSyncer) (src dst : SyncInfo) (c2 : SyncCtx)
    {r : Except SyncErr ExistingFileRes} {c' : SyncCtx}
    (h : (if s.checkChecksum then
        match c2.fs.sha1 src.path with
        | .error _ => (.error (.failure "fail to compute SHA1 of src"), c2)
        | .ok srcSHA1 =>
          match c2.fs.sha1 dst.path with
          | .error _ => (.error (.failure "fail to compute SHA1 of dst"), c2)
          | .ok dstSHA1 =>
            if srcSHA1 = dstSHA1 then (.ok { shouldUpdateTimes := true }, c2)
            else s.sefCont src dst c2
      else
        if src.data.size = dst.data.size ∧
            src.data.times.mtime = dst.data.times.mtime then
          (.ok {}, c2)
        else s.sefCont src dst c2) = (r, c')) :
    ∃ Δ, c'.fs.trace = c2.fs.trace ++ Δ ∧ ∀ o ∈ Δ, phaseAOp o = true := by
  cases hcs : s.checkChecksum with
  | true =>
    rw [hcs, if_pos rfl] at h
    cases hsha1 : c2.fs.sha1 src.path with
    | error e1 =>
      rw [hsha1] at h
      dsimp only at h
      injection h with h1 h2
      subst h2
      exact trace_delta_nil c2.fs
    | ok A =>
      rw [hsha1] at h
      dsimp only at h
      cases hsha2 : c2.fs.sha1 dst.path with
      | error e2 =>
        rw [hsha2] at h
        dsimp only at h
        injection h with h1 h2
        subst h2
        exact trace_delta_nil c2.fs
      | ok B =>
        rw [hsha2] at h
        dsimp only at h
        by_cases hAB : A = B
        · rw [if_pos hAB] at h
          injection h with h1 h2
          subst h2
          exact trace_delta_nil c2.fs
        · rw [if_neg hAB] at h
          exact sefCont_trace s h
  | false =>
    simp only [hcs, Bool.false_eq_true, if_false] at h
    by_cases heq : src.data.size = dst.data.size ∧
        src.data.times.mtime = dst.data.times.mtime
    · rw [if_pos heq] at h
      injection h with h1 h2
      subst h2
      exact trace_delta_nil c2.fs
    · rw [if_neg heq] at h
      exact sefCont_trace s h

theorem syncExistingFile_trace (s : FsSyncer) {src dst : SyncInfo}
    {c : SyncCtx} {r : Except SyncErr ExistingFileRes} {c' : SyncCtx}
    (h : s.syncExistingFile src dst c = (r, c')) :
    ∃ Δ, c'.fs.trace = c.fs.trace ++ Δ ∧ ∀ o ∈ Δ, phaseAOp o = true := by
  unfold FsSyncer.syncExistingFile at h
  by_cases hbd : src.data.kind = FKind.dir ∧ dst.data.kind = FKind.dir
  · rw [if_pos hbd] at h
    injection h with h1 h2
    subst h2
    exact trace_delta_nil c.fs
  · rw [if_neg hbd] at h
    dsimp only at h
    by_cases hmis : (src.data.kind = FKind.dir ∧ dst.data.kind ≠ FKind.dir) ∨
        (src.data.kind ≠ FKind.dir ∧ dst.data.kind = FKind.dir)
    · rw [if_pos hmis] at h
      obtain ⟨Δ, h1, h2⟩ :=
        sef_tail_trace s src dst { c with fs := c.fs.removeAll dst.path } h
      refine ⟨Op.removeAll dst.path :: Δ, ?_, ?_⟩
      · rw [h1]
        show (c.fs.removeAll dst.path).trace ++ Δ = _
        rw [trace_removeAll, List.append_assoc]
        rfl
      · intro o ho
        rcases List.mem_cons.mp ho with rfl | ho
        · rfl
        · exact h2 o ho
    · rw [if_neg hmis] at h
      exact sef_tail_trace s src dst c h

/-- The ownership tail of a walk step: at most one `chown`. -/
theorem ownWrap_trace (s : FsSyncer) (dstPath : Path) (uid gid : Nat)
    (c2 : SyncCtx) {u : Except SyncErr Unit} {c' : SyncCtx}
    (h : (if s.preserveOwnership then
            match c2.fs.chown dstPath uid gid with
            | .error _ => (.error (.failure "fail to chown"), c2)
            | .ok fs' => (.ok (), { c2 with fs := fs' })
          else (.ok (), c2)) = (u, c')) :
    ∃ Δ, c'.fs.trace = c2.fs.trace ++ Δ ∧ ∀ o ∈ Δ, phaseAOp o = true := by
  cases hown : s.preserveOwnership with
  | false =>
    simp only [hown, Bool.false_eq_true, if_false] at h
    injection h with h1 h2
    subst h2
    exact trace_delta_nil c2.fs
  | true =>
    rw [hown, if_pos rfl] at h
    cases hch : c2.fs.chown dstPath uid gid with
    | error e1 =>
      rw [hch] at h
      dsimp only at h
      injection h with h1 h2
      subst h2
      exact trace_delta_nil c2.fs
    | ok fs' =>
      rw [hch] at h
      dsimp only at h
      injection h with h1 h2
      subst h2
      exact ⟨[Op.chown dstPath], chown_trace hch,
        forall_mem_singleton_phaseA rfl⟩

theorem fs_ite_timesMap (b : Prop) [Decidable b] (c1 : SyncCtx)
    (x : List (Path × Times)) :
    (if b then { c1 with timesMap := x } else c1).fs = c1.fs := by
  by_cases hb : b
  · rw [if_pos hb]
  · rw [if_neg hb]

theorem fs_ite_report (b : Prop) [Decidable b] (cX : SyncCtx) (x : List Path) :
    (if b then { cX with report := x } else cX).fs = cX.fs := by
  by_cases hb : b
  · rw [if_pos hb]
  · rw [if_neg hb]

theorem walkStep_trace (s : FsSyncer) (src dst : Path) {c : SyncCtx}
    {p : Path} {u : Except SyncErr Unit} {c' : SyncCtx}
    (h : s.walkStep src dst c p = (u, c')) :
    ∃ Δ, c'.fs.trace = c.fs.trace ++ Δ ∧ ∀ o ∈ Δ, phaseAOp o = true := by
  unfold FsSyncer.walkStep at h
  cases hls : c.fs.lstat p with
  | none =>
    rw [hls] at h
    injection h with h1 h2
    subst h2
    exact trace_delta_nil c.fs
  | some e =>
    obtain ⟨ino, info⟩ := e
    rw [hls] at h
    dsimp only at h
    cases hsys : info.sysOk with
    | false =>
      rw [hsys] at h
      simp only [Bool.false_eq_true, not_false_iff, if_true] at h
      injection h with h1 h2
      subst h2
      exact trace_delta_nil c.fs
    | true =>
      rw [hsys] at h
      simp only [not_true, if_false] at h
      cases hld : c.fs.lstat (replacePrefix p src dst) with
      | none =>
        rw [hld] at h
        dsimp only at h
        cases hsuf : s.syncUnexistingFile
            { base := src, path := p, ino := ino, data := info }
            { base := dst, path := replacePrefix p src dst }
            { c with report := reportMark c.report (replacePrefix p src dst) } with
        | mk rr c1 =>
          rw [hsuf] at h
          obtain ⟨Δ1, hΔ1, hΔ1k⟩ := syncUnexistingFile_trace s hsuf
          cases rr with
          | error e1 =>
            dsimp only at h
            injection h with h1 h2
            subst h2
            exact ⟨Δ1, hΔ1, hΔ1k⟩
          | ok res =>
            dsimp only at h
            obtain ⟨Δ2, hΔ2, hΔ2k⟩ :=
              ownWrap_trace s (replacePrefix p src dst) info.uid info.gid _ h
            refine ⟨Δ1 ++ Δ2, ?_, ?_⟩
            · rw [hΔ2, fs_ite_timesMap, hΔ1, List.append_assoc]
            · intro o ho
              rcases List.mem_append.mp ho with ho | ho
              exacts [hΔ1k o ho, hΔ2k o ho]
      | some ed =>
        obtain ⟨dino, dinfo⟩ := ed
        rw [hld] at h
        dsimp only at h
        cases hdsys : dinfo.sysOk with
        | false =>
          rw [hdsys] at h
          simp only [Bool.false_eq_true, not_false_iff, if_true] at h
          injection h with h1 h2
          subst h2
          exact trace_delta_nil c.fs
        | true =>
          rw [hdsys] at h
          simp only [not_true, if_false] at h
          cases hse : s.syncExistingFile
              { base := src, path := p, ino := ino, data := info }
              { base := dst, path := replacePrefix p src dst, ino := 0,
                data := dinfo } c with
          | mk rr c1 =>
            rw [hse] at h
            obtain ⟨Δ1, hΔ1, hΔ1k⟩ := syncExistingFile_trace s hse
            cases rr with
            | error e1 =>
              dsimp only at h
              injection h with h1 h2
              subst h2
              exact ⟨Δ1, hΔ1, hΔ1k⟩
            | ok res =>
              dsimp only at h
              obtain ⟨Δ2, hΔ2, hΔ2k⟩ :=
                ownWrap_trace s (replacePrefix p src dst) info.uid info.gid _ h
              refine ⟨Δ1 ++ Δ2, ?_, ?_⟩
              · rw [hΔ2, fs_ite_report, fs_ite_timesMap, hΔ1, List.append_assoc]
              · intro o ho
                rcases List.mem_append.mp ho with ho | ho
                exacts [hΔ1k o ho, hΔ2k o ho]

theorem walkFold_trace (s : FsSyncer) (src dst : Path) :
    ∀ (ps : List Path) (c : SyncCtx),
      ∃ Δ, (s.walkFold src dst ps c).2.fs.trace = c.fs.trace ++ Δ ∧
        ∀ o ∈ Δ, phaseAOp o = true := by
  intro ps
  induction ps with
  | nil =>
    intro c
    exact trace_delta_nil c.fs
  | cons p ps ih =>
    intro c
    have heq : s.walkFold src dst (p :: ps) c =
        match s.walkStep src dst c p with
        | (.error e, c') => (.error e, c')
        | (.ok _, c') => s.walkFold src dst ps c' := rfl
    rw [heq]
    cases hstep : s.walkStep src dst c p with
    | mk u c1 =>
      obtain ⟨Δ1, h1, h2⟩ := walkStep_trace s src dst hstep
      cases u with
      | error e =>
        dsimp only
        exact ⟨Δ1, h1, h2⟩
      | ok uu =>
        dsimp only
        obtain ⟨Δ2, h3, h4⟩ := ih c1
        refine ⟨Δ1 ++ Δ2, ?_, ?_⟩
        · rw [h3, h1, List.append_assoc]
        · intro o ho
          rcases List.mem_append.mp ho with ho | ho
          exacts [h2 o ho, h4 o ho]

theorem isChtimes_false_of_phaseAOp {o : Op} (h : phaseAOp o = true) :
    o.isChtimes = false := by
  cases o
  all_goals first
    | rfl
    | exact absurd h (by simp [phaseAOp])

/-- Every execution of `Sync` produces a trace of the form
"creations/updates, then plain removals (children before parents), then
timestamp restorations" — possibly with empty segments. -/
theorem sync_trace_decomp (s : FsSyncer) (fs0 : FS) (src dst : Path)
    (htr : fs0.trace = []) :
    ∃ A R C, (s.Sync fs0 src dst).fs.trace = A ++ (R ++ C) ∧
      (∀ o ∈ A, phaseAOp o = true) ∧
      (∀ o ∈ R, ∃ p, o = Op.remove p) ∧
      (∀ o ∈ C, ∃ k, o = Op.chtimes k) ∧
      PairOKd R := by
  have hpairnil : PairOKd ([] : List Op) := by
    intro U1 U2 U3 p q hdec hpq
    exact absurd hdec.symm (by simp)
  have hnilR : ∀ o ∈ ([] : List Op), ∃ p, o = Op.remove p :=
    fun o ho => absurd ho (List.not_mem_nil o)
  have hnilC : ∀ o ∈ ([] : List Op), ∃ k, o = Op.chtimes k :=
    fun o ho => absurd ho (List.not_mem_nil o)
  have hcleannil : ∀ fs : FS, RemovesClean fs [] :=
    fun fs p hp => absurd hp (List.not_mem_nil _)
  unfold FsSyncer.Sync
  dsimp only
  cases hPA : (if (fs0.find src).isNone = true then
      if s.ignoreNotFound = true then (Except.ok (), ({ fs := fs0 } : SyncCtx))
      else (Except.error (SyncErr.notFound src), ({ fs := fs0 } : SyncCtx))
    else s.walkFold src dst (walkPaths fs0 src) { fs := fs0 }) with
  | mk uA c1 =>
    have hPhaseA : ∃ ΔA, c1.fs.trace = ΔA ∧ ∀ o ∈ ΔA, phaseAOp o = true := by
      by_cases hsrc : (fs0.find src).isNone = true
      · rw [if_pos hsrc] at hPA
        by_cases hign : s.ignoreNotFound = true
        · rw [if_pos hign] at hPA
          injection hPA with h1 h2
          refine ⟨[], ?_, fun o ho => absurd ho (List.not_mem_nil o)⟩
          rw [← h2]
          exact htr
        · rw [if_neg hign] at hPA
          injection hPA with h1 h2
          refine ⟨[], ?_, fun o ho => absurd ho (List.not_mem_nil o)⟩
          rw [← h2]
          exact htr
      · rw [if_neg hsrc] at hPA
        obtain ⟨ΔA, h1, h2⟩ :=
          walkFold_trace s src dst (walkPaths fs0 src) { fs := fs0 }
        rw [hPA] at h1
        dsimp only at h1
        refine ⟨ΔA, ?_, h2⟩
        rw [h1]
        show fs0.trace ++ ΔA = ΔA
        rw [htr]
        rfl
    obtain ⟨ΔA, hA1, hA2⟩ := hPhaseA
    cases uA with
    | error e =>
      dsimp only
      refine ⟨ΔA, [], [], ?_, hA2, hnilR, hnilC, hpairnil⟩
      rw [hA1]
      simp
    | ok uu =>
      dsimp only
      by_cases hdstm : (c1.fs.find dst).isNone = true
      · rw [if_pos hdstm]
        dsimp only
        refine ⟨ΔA, [], [], ?_, hA2, hnilR, hnilC, hpairnil⟩
        rw [hA1]
        simp
      · rw [if_neg hdstm]
        cases hB : phaseBFold src dst (walkPaths c1.fs dst) c1 [] with
        | mk uB cdB =>
          obtain ⟨c2, dirs⟩ := cdB
          obtain ⟨ΔB, hB1, hB2, hB3, hB4⟩ :=
            phaseBFold_invariant src dst (walkPaths c1.fs dst) c1 [] [] ΔA
              (by rw [hA1]; simp) hnilR (hcleannil c1.fs) hpairnil
          rw [hB] at hB1 hB3
          dsimp only at hB1 hB3
          cases uB with
          | error e =>
            dsimp only
            refine ⟨ΔA, ΔB, [], ?_, hA2, hB2, hnilC, hB4⟩
            rw [hB1]
            simp
          | ok uu2 =>
            dsimp only
            cases hD : removeDirsFold dirs.reverse c2 with
            | mk uD c3 =>
              obtain ⟨ΔD, hD1, hD2, hD3, hD4⟩ :=
                removeDirsFold_invariant dirs.reverse c2 ΔB ΔA hB1 hB2 hB3 hB4
              rw [hD] at hD1 hD3
              dsimp only at hD1 hD3
              cases uD with
              | error e =>
                dsimp only
                refine ⟨ΔA, ΔD, [], ?_, hA2, hD2, hnilC, hD4⟩
                rw [hD1]
                simp
              | ok uu3 =>
                dsimp only
                cases hC : applyTimes s c3.timesMap c3 with
                | mk uC c4 =>
                  obtain ⟨ΔC, hC1, hC2⟩ := applyTimes_trace_shape s c3.timesMap c3
                  rw [hC] at hC1
                  dsimp only at hC1
                  have hfinal : c4.fs.trace = ΔA ++ (ΔD ++ ΔC) := by
                    rw [hC1, hD1, List.append_assoc]
                  have hCk : ∀ o ∈ ΔC, ∃ k, o = Op.chtimes k := by
                    intro o ho
                    obtain ⟨k, hk1, hk2⟩ := hC2 o ho
                    exact ⟨k, hk2⟩
                  cases uC with
                  | error e =>
                    dsimp only
                    exact ⟨ΔA, ΔD, ΔC, hfinal, hA2, hD2, hCk, hD4⟩
                  | ok uu4 =>
                    dsimp only
                    exact ⟨ΔA, ΔD, ΔC, hfinal, hA2, hD2, hCk, hD4⟩

/-- Orderings implied by the A-R-C trace structure. -/
theorem trace_ordering_master {T A R C : List Op}
    (hT : T = A ++ (R ++ C))
    (hA : ∀ o ∈ A, phaseAOp o = true)
    (hR : ∀ o ∈ R, ∃ p, o = Op.remove p)
    (hC : ∀ o ∈ C, ∃ k, o = Op.chtimes k)
    (hpair : PairOKd R) :
    (∀ T1 T2 T3 (o1 o2 : Op), T = T1 ++ o1 :: (T2 ++ o2 :: T3) →
      o1.isChtimes = true → o2.isRemoveOp = true → False) ∧
    (∀ T1 T2 T3 (d1 d2 : Path),
      T = T1 ++ Op.remove d1 :: (T2 ++ Op.remove d2 :: T3) →
      pstarts d1 d2 = true → d1 = d2) := by
  constructor
  · intro T1 T2 T3 o1 o2 hdec h1 h2
    have hAR : ∀ x ∈ A ++ R, x.isChtimes = false := by
      intro x hx
      rcases List.mem_append.mp hx with hx | hx
      · exact isChtimes_false_of_phaseAOp (hA x hx)
      · obtain ⟨p, rfl⟩ := hR x hx
        rfl
    have hL : (A ++ R) ++ C = T1 ++ o1 :: (T2 ++ o2 :: T3) := by
      rw [List.append_assoc, ← hT]
      exact hdec
    obtain ⟨Y1, Y2, hY, hT1⟩ := split_in_suffix (fun o => o.isChtimes = false)
      (A ++ R) hL hAR (by show ¬(o1.isChtimes = false); rw [h1]; simp)
    have hEq : T1 ++ o1 :: (T2 ++ o2 :: T3) = T1 ++ o1 :: Y2 := by
      rw [← hL, hY, hT1, ← List.append_assoc]
    have hY2 : T2 ++ o2 :: T3 = Y2 := by
      have h3 := List.append_cancel_left hEq
      injection h3 with _ h4
    have ho2C : o2 ∈ C := by
      rw [hY]
      refine List.mem_append.mpr (Or.inr (List.mem_cons_of_mem _ ?_))
      rw [← hY2]
      exact List.mem_append.mpr (Or.inr (List.mem_cons_self _ _))
    obtain ⟨k, hk⟩ := hC o2 ho2C
    rw [hk] at h2
    exact absurd h2 (by simp [Op.isRemoveOp])
  · intro T1 T2 T3 d1 d2 hdec hpre
    have hCch : ∀ y ∈ C, y.isChtimes = true := by
      intro y hy
      obtain ⟨k, rfl⟩ := hC y hy
      rfl
    have hL : (A ++ R) ++ C = (T1 ++ Op.remove d1 :: T2) ++ Op.remove d2 :: T3 := by
      rw [List.append_assoc, ← hT, hdec, List.append_assoc]
      rfl
    obtain ⟨X2, hX, hT3⟩ := split_in_prefix (fun o => o.isChtimes = true)
      (T1 ++ Op.remove d1 :: T2) hL hCch
      (by show ¬((Op.remove d2).isChtimes = true); simp [Op.isChtimes])
    have hX' : A ++ R = T1 ++ Op.remove d1 :: (T2 ++ Op.remove d2 :: X2) := by
      rw [hX, List.append_assoc]
      rfl
    obtain ⟨Z1, Z2, hZ, hTZ⟩ := split_in_suffix (fun o => phaseAOp o = true)
      A hX' hA (by show ¬(phaseAOp (Op.remove d1) = true); simp [phaseAOp])
    have hEq2 : (A ++ Z1) ++ (Op.remove d1 :: Z2) =
        (A ++ Z1) ++ (Op.remove d1 :: (T2 ++ Op.remove d2 :: X2)) := by
      rw [List.append_assoc, ← hZ, hX', hTZ]
    have hZ2 : Z2 = T2 ++ Op.remove d2 :: X2 := by
      have h3 := List.append_cancel_left hEq2
      injection h3 with _ h4
    have hRdec : R = Z1 ++ Op.remove d1 :: T2 ++ Op.remove d2 :: X2 := by
      rw [hZ, hZ2, List.append_assoc]
      rfl
    exact hpair Z1 T2 X2 d1 d2 hRdec hpre

/-! ### Claim C7 (ordering of deletions and time restorations) -/

/-- Claim C7: in every execution of `Sync` on a filesystem with an empty
operation trace, (1) no deletion — of a file or a directory, immediate or
deferred — ever happens after a timestamp restoration (phase C is applied
strictly after all deletions, never interleaved), and (2) no entry is
removed after a strict ancestor directory of it was removed: the collected
extraneous directories are deleted children-first (reverse visitation
order). -/
theorem C7_deletion_ordering (s : FsSyncer) (fs0 : FS) (src dst : Path)
    (htr : fs0.trace = []) (T : List Op)
    (hT : T = (s.Sync fs0 src dst).fs.trace) :
    (∀ T1 T2 T3 (o1 o2 : Op), T = T1 ++ o1 :: (T2 ++ o2 :: T3) →
      o1.isChtimes = true → o2.isRemoveOp = true → False) ∧
    (∀ T1 T2 T3 (d1 d2 : Path),
      T = T1 ++ Op.remove d1 :: (T2 ++ Op.remove d2 :: T3) →
      pstarts d1 d2 = true → d1 = d2) := by
  obtain ⟨A, R, C, h1, h2, h3, h4, h5⟩ := sync_trace_decomp s fs0 src dst htr
  exact trace_ordering_master (hT.trans h1) h2 h3 h4 h5

/-- Witness for claim C7 at the basic fixture. -/
theorem C7_deletion_ordering_witness :
    fsBasic.trace = [] ∧
    ((∀ T1 T2 T3 (o1 o2 : Op),
        (syncerDefault.Sync fsBasic ["s"] ["d"]).fs.trace =
          T1 ++ o1 :: (T2 ++ o2 :: T3) →
        o1.isChtimes = true → o2.isRemoveOp = true → False) ∧
     (∀ T1 T2 T3 (d1 d2 : Path),
        (syncerDefault.Sync fsBasic ["s"] ["d"]).fs.trace =
          T1 ++ Op.remove d1 :: (T2 ++ Op.remove d2 :: T3) →
        pstarts d1 d2 = true → d1 = d2)) :=
  ⟨rfl, C7_deletion_ordering syncerDefault fsBasic ["s"] ["d"] rfl _ rfl⟩

/-! ### Helpers for the amended idempotence claim -/

/-- `chtimes` preserves every entry's kind. -/
theorem chtimes_stat_kind {fs : FS} {p : Path} {t : Times} {fs' : FS}
    (h : fs.chtimes p t = .ok fs') {q : Path} {dq : InodeData}
    (hq : fs.stat q = some dq) :
    ∃ dq2, fs'.stat q = some dq2 ∧ dq2.kind = dq.kind := by
  obtain ⟨i, d, hr, rfl⟩ := chtimes_cases h
  rw [stat_addOp]
  cases hx : fs.find q with
  | none =>
    rw [stat_eq_none_of_find hx] at hq
    exact absurd hq (by simp)
  | some j =>
    by_cases hj : i = j
    · subst hj
      refine ⟨{ d with times := t }, stat_setIno_of_find_eq i _ hx, ?_⟩
      rw [stat_eq_getIno_of_find hx, resolve_getIno hr] at hq
      injection hq with hq
      rw [← hq]
    · refine ⟨dq, ?_, rfl⟩
      rw [stat_setIno_of_find_ne i _ hx hj]
      exact hq

/-- Both counterparts directories: `syncExistingFile` is a pure no-op that
schedules times. -/
theorem syncExistingFile_both_dirs (s : FsSyncer) (src dst : SyncInfo)
    (c : SyncCtx) (h1 : src.data.kind = FKind.dir)
    (h2 : dst.data.kind = FKind.dir) :
    s.syncExistingFile src dst c = (.ok { shouldUpdateTimes := true }, c) := by
  unfold FsSyncer.syncExistingFile
  rw [if_pos ⟨h1, h2⟩]

theorem mem_keys_aset {κ α : Type} [DecidableEq κ] {m : List (κ × α)}
    {k k2 : κ} {v : α}
    (h : k2 ∈ (aset m k v).map Prod.fst) : k2 ∈ m.map Prod.fst ∨ k2 = k := by
  induction m with
  | nil =>
    simp [aset] at h
    exact Or.inr h
  | cons e t ih =>
    obtain ⟨k1, v1⟩ := e
    by_cases he : k1 = k
    · rw [aset, if_pos he] at h
      rw [List.map_cons, List.mem_cons] at h
      rcases h with h | h
      · exact Or.inr h
      · exact Or.inl (List.mem_cons_of_mem _ h)
    · rw [aset, if_neg he] at h
      rw [List.map_cons, List.mem_cons] at h
      rcases h with h | h
      · exact Or.inl (by rw [h]; exact List.mem_cons_self _ _)
      · rcases ih h with h2 | h2
        · exact Or.inl (List.mem_cons_of_mem _ h2)
        · exact Or.inr h2

theorem lstat_of_stat {fs : FS} {q : Path} {d : InodeData}
    (h : fs.stat q = some d) : ∃ j, fs.lstat q = some (j, d) := by
  unfold FS.stat at h
  cases hl : fs.lstat q with
  | none =>
    rw [hl] at h
    simp at h
  | some e =>
    obtain ⟨j, d2⟩ := e
    rw [hl] at h
    injection h with h
    have h2 : d2 = d := h
    subst h2
    exact ⟨j, rfl⟩

/-- What membership in the walked path list gives. -/
theorem mem_walkPaths {fs : FS} {root p : Path} (h : p ∈ walkPaths fs root) :
    pstarts root p = true ∧ (fs.find p).isSome = true := by
  unfold walkPaths at h
  have h2 := (List.perm_insertionSort pLe _).mem_iff.mp h
  rw [List.mem_filter] at h2
  exact ⟨by simpa using h2.2, alookup_isSome_of_mem_keys h2.1⟩

/-- The source-side guarantee of matched trees. -/
theorem treesMatch_src {fs : FS} {src dst : Path}
    (h : treesMatchB fs src dst = true)
    {p : Path} {j : Nat} (hp : fs.find p = some j)
    (hpre : pstarts src p = true)
    {d : InodeData} (hd : fs.stat p = some d) (hsys : d.sysOk = true) :
    ∃ dd, fs.stat (replacePrefix p src dst) = some dd ∧
      ((d.kind = FKind.dir ∧ dd.kind = FKind.dir) ∨
       (d.kind = FKind.file ∧ dd.kind = FKind.file ∧
        d.size = dd.size ∧ d.times.mtime = dd.times.mtime)) := by
  have hmem : (p, j) ∈ fs.entries := mem_of_alookup hp
  rw [treesMatchB, Bool.and_eq_true, List.all_eq_true, List.all_eq_true] at h
  have hcl := h.1 (p, j) hmem
  dsimp only at hcl
  rw [Bool.or_eq_true] at hcl
  rcases hcl with hcl | hcl
  · rw [hpre] at hcl
    exact absurd hcl (by simp)
  · rw [hd] at hcl
    cases hdd : fs.stat (replacePrefix p src dst) with
    | none =>
      rw [hdd] at hcl
      dsimp only at hcl
      rw [hsys] at hcl
      exact absurd hcl (by simp)
    | some dd =>
      rw [hdd] at hcl
      dsimp only at hcl
      rw [Bool.or_eq_true] at hcl
      rcases hcl with hcl | hcl
      · rw [hsys] at hcl
        exact absurd hcl (by simp)
      · refine ⟨dd, rfl, ?_⟩
        simp only [Bool.or_eq_true, Bool.and_eq_true, decide_eq_true_eq] at hcl
        rcases hcl with ⟨h1, h2⟩ | ⟨⟨⟨h1, h2⟩, h3⟩, h4⟩
        · exact Or.inl ⟨h1, h2⟩
        · exact Or.inr ⟨h1, h2, h3, h4⟩

/-- The destination-side guarantee of matched trees. -/
theorem treesMatch_dst {fs : FS} {src dst : Path}
    (h : treesMatchB fs src dst = true)
    {q : Path} {j : Nat} (hq : fs.find q = some j)
    (hpre : pstarts dst q = true) :
    (fs.lstat (replacePrefix q dst src)).isSome = true := by
  have hmem : (q, j) ∈ fs.entries := mem_of_alookup hq
  rw [treesMatchB, Bool.and_eq_true, List.all_eq_true, List.all_eq_true] at h
  have hcl := h.2 (q, j) hmem
  dsimp only at hcl
  rw [Bool.or_eq_true] at hcl
  rcases hcl with hcl | hcl
  · rw [hpre] at hcl
    exact absurd hcl (by simp)
  · exact hcl

/-- On matched trees, in default mode without ownership preservation, one
walk step is a pure no-op apart from possibly scheduling times for a
directory counterpart. -/
theorem run2_walkStep_noop (s : FsSyncer) (src dst : Path) (f : FS)
    (hmatch : treesMatchB f src dst = true)
    (hcs : s.checkChecksum = false) (hown : s.preserveOwnership = false)
    (z : SyncCtx) (hz : z.fs = f) (p : Path) (hpre : pstarts src p = true) :
    ∃ z', s.walkStep src dst z p = (.ok (), z') ∧ z'.fs = f ∧
      z'.report = z.report ∧
      (z'.timesMap = z.timesMap ∨
        ∃ k t dd, z'.timesMap = aset z.timesMap k t ∧
          f.stat k = some dd ∧ dd.kind = FKind.dir) := by
  subst hz
  unfold FsSyncer.walkStep
  cases hls : z.fs.lstat p with
  | none =>
    exact ⟨z, rfl, rfl, rfl, Or.inl rfl⟩
  | some e =>
    obtain ⟨ino, info⟩ := e
    cases hsys : info.sysOk with
    | false =>
      refine ⟨z, ?_, rfl, rfl, Or.inl rfl⟩
      dsimp only
      rw [hsys]
      simp only [Bool.false_eq_true, not_false_iff, if_true]
      rfl
    | true =>
      have hstatp : z.fs.stat p = some info := by
        unfold FS.stat
        rw [hls]
        rfl
      have hfind : z.fs.find p = some ino := (lstat_eq_some_iff.mp hls).1
      obtain ⟨dd, hdd, hmk⟩ := treesMatch_src hmatch hfind hpre hstatp hsys
      obtain ⟨j, hldd⟩ := lstat_of_stat hdd
      cases hddsys : dd.sysOk with
      | false =>
        refine ⟨z, ?_, rfl, rfl, Or.inl rfl⟩
        dsimp only
        rw [hsys]
        simp only [not_true, if_false]
        rw [hldd]
        dsimp only
        rw [hddsys]
        simp only [Bool.false_eq_true, not_false_iff, if_true]
        rfl
      | true =>
        rcases hmk with ⟨hk1, hk2⟩ | ⟨hk1, hk2, hk3, hk4⟩
        · refine ⟨{ z with
              timesMap := aset z.timesMap (replacePrefix p src dst) info.times },
            ?_, rfl, rfl, Or.inr ⟨_, _, dd, rfl, hdd, hk2⟩⟩
          dsimp only
          rw [hsys]
          simp only [not_true, if_false]
          rw [hldd]
          dsimp only
          rw [hddsys]
          simp only [not_true, if_false]
          rw [syncExistingFile_both_dirs s _ _ z (by dsimp only; exact hk1)
            (by dsimp only; exact hk2)]
          dsimp only
          rw [hown]
          simp only [Bool.false_eq_true, if_false]
          rw [if_pos trivial]
        · refine ⟨z, ?_, rfl, rfl, Or.inl rfl⟩
          dsimp only
          rw [hsys]
          simp only [not_true, if_false]
          rw [hldd]
          dsimp only
          rw [hddsys]
          simp only [not_true, if_false]
          rw [syncExistingFile_default_equal s _ _ z hcs
            (by dsimp only; rw [hk1]; simp)
            (by dsimp only; rw [hk2]; simp)
            (by dsimp only; exact hk3) (by dsimp only; exact hk4)]
          dsimp only
          rw [hown]
          simp only [Bool.false_eq_true, if_false]

/-- On matched trees the whole source walk is a no-op apart from
scheduling times for directory counterparts. -/
theorem run2_walkFold_noop (s : FsSyncer) (src dst : Path) (f : FS)
    (hmatch : treesMatchB f src dst = true)
    (hcs : s.checkChecksum = false) (hown : s.preserveOwnership = false) :
    ∀ ps, (∀ p ∈ ps, pstarts src p = true) →
      ∀ z, z.fs = f →
      ∃ z1, s.walkFold src dst ps z = (.ok (), z1) ∧ z1.fs = f ∧
        z1.report = z.report ∧
        (∀ k, k ∈ z1.timesMap.map Prod.fst →
          k ∈ z.timesMap.map Prod.fst ∨
          ∃ dd, f.stat k = some dd ∧ dd.kind = FKind.dir) := by
  intro ps
  induction ps with
  | nil =>
    intro hps z hz
    exact ⟨z, rfl, hz, rfl, fun k hk => Or.inl hk⟩
  | cons p ps ih =>
    intro hps z hz
    obtain ⟨z', hstep, hfs', hrep', htm'⟩ :=
      run2_walkStep_noop s src dst f hmatch hcs hown z hz p
        (hps p (List.mem_cons_self _ _))
    have heq : s.walkFold src dst (p :: ps) z =
        match s.walkStep src dst z p with
        | (.error e, c') => (.error e, c')
        | (.ok _, c') => s.walkFold src dst ps c' := rfl
    rw [heq, hstep]
    dsimp only
    obtain ⟨z1, hfold, h1, h2, h3⟩ :=
      ih (fun q hq => hps q (List.mem_cons_of_mem _ hq)) z' hfs'
    refine ⟨z1, hfold, h1, h2.trans hrep', ?_⟩
    intro k hk
    rcases h3 k hk with hk2 | hk2
    · rcases htm' with htm | ⟨k0, t0, dd0, htm, hst0, hkd0⟩
      · rw [htm] at hk2
        exact Or.inl hk2
      · rw [htm] at hk2
        rcases mem_keys_aset hk2 with hk3 | hk3
        · exact Or.inl hk3
        · exact Or.inr ⟨dd0, hk3 ▸ hst0, hkd0⟩
    · exact Or.inr hk2

/-- On matched trees the destination walk deletes nothing, collects
nothing and changes nothing. -/
theorem run2_phaseB_noop (src dst : Path) (f : FS)
    (hmatch : treesMatchB f src dst = true) :
    ∀ qs, (∀ q ∈ qs, pstarts dst q = true ∧ (f.find q).isSome = true) →
      ∀ z dirs, z.fs = f →
      phaseBFold src dst qs z dirs = (.ok (), z, dirs) := by
  intro qs
  induction qs with
  | nil =>
    intro hqs z dirs hz
    rfl
  | cons q qs ih =>
    intro hqs z dirs hz
    obtain ⟨hpre, hfind⟩ := hqs q (List.mem_cons_self _ _)
    obtain ⟨j, hj⟩ := Option.isSome_iff_exists.mp hfind
    have hsome := treesMatch_dst hmatch hj hpre
    obtain ⟨e0, he0⟩ := Option.isSome_iff_exists.mp hsome
    have hstep : phaseBStep src dst z dirs q = (.ok (), z, dirs) := by
      unfold phaseBStep
      dsimp only
      rw [hz, he0]
    have heq : phaseBFold src dst (q :: qs) z dirs =
        match phaseBStep src dst z dirs q with
        | (.error e, c', dirs') => (.error e, c', dirs')
        | (.ok _, c', dirs') => phaseBFold src dst qs c' dirs' := rfl
    rw [heq, hstep]
    dsimp only
    exact ih (fun x hx => hqs x (List.mem_cons_of_mem _ hx)) z dirs hz

/-- Restoring times on paths whose entries are directories always
succeeds and never touches the report. -/
theorem run2_applyTimes_ok (s : FsSyncer) :
    ∀ (tm : List (Path × Times)) (z : SyncCtx),
      (∀ k, k ∈ tm.map Prod.fst →
        ∃ dd, z.fs.stat k = some dd ∧ dd.kind = FKind.dir) →
      ∃ z4, applyTimes s tm z = (.ok (), z4) ∧ z4.report = z.report := by
  intro tm
  induction tm with
  | nil =>
    intro z h
    exact ⟨z, rfl, rfl⟩
  | cons e rest ih =>
    obtain ⟨k, t⟩ := e
    intro z h
    obtain ⟨dd, hdd, hkd⟩ := h k
      (by rw [List.map_cons]; exact List.mem_cons_self _ _)
    obtain ⟨j, hj⟩ := lstat_of_stat hdd
    have hres := resolve_of_nonsymlink hj (by rw [hkd]; simp)
    have hok : z.fs.chtimes k t =
        .ok ((z.fs.setIno j { dd with times := t }).addOp (.chtimes k)) := by
      unfold FS.chtimes
      rw [hres]
    obtain ⟨z4, h1, h2⟩ := ih
      { z with fs := (z.fs.setIno j { dd with times := t }).addOp (.chtimes k) }
      (by
        intro k2 hk2
        obtain ⟨dd2, hdd2, hkd2⟩ := h k2
          (by rw [List.map_cons]; exact List.mem_cons_of_mem _ hk2)
        obtain ⟨dd3, hdd3, hkd3⟩ := chtimes_stat_kind hok hdd2
        exact ⟨dd3, hdd3, by rw [hkd3, hkd2]⟩)
    refine ⟨z4, ?_, h2⟩
    unfold applyTimes
    rw [hok]
    dsimp only
    exact h1

/-- Claim C1, amended: `Sync` is idempotent on matched trees.  Whenever
every source entry with detailed stat data has a destination counterpart
of the same kind — with identical size and mtime for regular files — and
every destination entry has a source counterpart (the state a successful
symlink-free run leaves behind), a further default-mode run succeeds and
reports `ChangeCount() = 0`.  The unconditional two-run form of the claim
is false (see the symlink counterexample). -/
theorem C1_idempotent_amended (s : FsSyncer) (f : FS) (src dst : Path)
    (hcs : s.checkChecksum = false) (hown : s.preserveOwnership = false)
    (hsrcp : (f.find src).isNone = false)
    (hdstp : (f.find dst).isNone = false)
    (hmatch : treesMatchB f src dst = true) :
    (s.Sync f src dst).report.ChangeCount = 0 ∧
    (s.Sync f src dst).err = none := by
  obtain ⟨z1, hA, hAfs, hArep, hAtm⟩ :=
    run2_walkFold_noop s src dst f hmatch hcs hown (walkPaths f src)
      (fun p hp => (mem_walkPaths hp).1) { fs := f } rfl
  have hB := run2_phaseB_noop src dst f hmatch (walkPaths f dst)
    (fun q hq => ⟨(mem_walkPaths hq).1, (mem_walkPaths hq).2⟩) z1 [] hAfs
  have htm : ∀ k, k ∈ z1.timesMap.map Prod.fst →
      ∃ dd, z1.fs.stat k = some dd ∧ dd.kind = FKind.dir := by
    intro k hk
    rcases hAtm k hk with hk2 | hk2
    · simp at hk2
    · obtain ⟨dd, h1, h2⟩ := hk2
      exact ⟨dd, by rw [hAfs]; exact h1, h2⟩
  obtain ⟨z4, hC, hCrep⟩ := run2_applyTimes_ok s z1.timesMap z1 htm
  unfold FsSyncer.Sync
  dsimp only
  rw [hsrcp]
  simp only [Bool.false_eq_true, if_false]
  rw [hA]
  dsimp only
  rw [hAfs, hdstp]
  simp only [Bool.false_eq_true, if_false]
  rw [hB]
  dsimp only
  rw [show removeDirsFold ([] : List Path).reverse z1 = (.ok (), z1) from rfl]
  dsimp only
  rw [hC]
  dsimp only
  constructor
  · show z4.report.length = 0
    rw [hCrep, hArep]
    rfl
  · rfl

/-- Witness for the amended claim C1 at the matched fixture. -/
theorem C1_idempotent_amended_witness :
    treesMatchB fsMatched ["s"] ["d"] = true ∧
    ((syncerDefault.Sync fsMatched ["s"] ["d"]).report.ChangeCount = 0 ∧
     (syncerDefault.Sync fsMatched ["s"] ["d"]).err = none) :=
  ⟨by decide, C1_idempotent_amended syncerDefault fsMatched ["s"] ["d"]
    rfl rfl (by decide) (by decide) (by decide)⟩

end GoFssync
